import Mathlib

/-!
# Moiré filter and colour detection: shallow embedding and verification

Sources: `moire_filter_fftw_eco.c` and `color_detect.c`.

Conventions of the embedding.

* A C buffer reached through a pointer is a total map `Nat → α` from element index to content;
  a write `p[i] = v` is `store p i v`.  A freshly allocated buffer is a map of arbitrary
  content, passed in explicitly.
* A counting loop `for (int i = 0; i < n; i++) body` is `forRange body n`, which runs the
  iterations `0, 1, …, n-1` in that order.  The OpenMP pragmas only distribute iterations
  over threads; the sequential order is the one modelled.
* `float` values are elements of an ordered field `K` (no infinities, no NaN);
  `fftwf_complex` is `float[2]`, a pair `(re, im)`.  The rounding of the `float` operations
  is a parameter `F : FloatSem K`: `F.rnd` gives the `float` stored for the exact result of
  one operation.  `binary32` is the IEEE 754 single-precision instance over `ℚ`,
  `FloatSem.exact` the idealisation without rounding.  The write-back of `ifft2d_grayscale`,
  `remove_moire` and the `_rounded` form of the filter take `F`; `attenuation`,
  `filter_spectrum_cell` and `filter_spectrum_for_kaleido` are the filter in exact
  arithmetic, that is the `_rounded` form at `FloatSem.exact`.
* The FFTW library itself (allocation, planning, plan execution) and the C maths library
  (`sqrtf`, `atan2f`) are external to the repository: their results enter as parameters.
* `int` values are unbounded integers: the dimensions are taken small enough for every index
  and size the code computes to fit the machine type.
-/

namespace Moire

/-! ## Memory and loops -/

/-- The write `m[i] = v` on a buffer. -/
def store {α : Type} (m : Nat → α) (i : Nat) (v : α) : Nat → α :=
  fun j => if j = i then v else m j

/-- The loop `for (int i = 0; i < n; i++) s = body i s`. -/
def forRange {σ : Type} (body : Nat → σ → σ) : Nat → σ → σ
  | 0, s => s
  | n + 1, s => body n (forRange body n s)

/-- The type `fftwf_complex`, that is `float[2]`: real part, imaginary part. -/
abbrev fftwf_complex (K : Type) := K × K

/-- Complex conjugate of a coefficient: same real part, negated imaginary part. -/
def conj {K : Type} [Neg K] (v : fftwf_complex K) : fftwf_complex K := (v.1, -v.2)

/-! ## `fft2d_grayscale`, third loop: copy and centre the spectrum (source lines 236-255) -/

/-- Body of the inner loop of the centring pass, for source cell `(x, y)`: the direct copy
and, for `0 < x < width/2`, the mirror write. -/
def fft2d_grayscale_center_body {K : Type} [Neg K] (g_fft_result : Nat → fftwf_complex K)
    (width height y x : Nat) (output_spectrum : Nat → fftwf_complex K) :
    Nat → fftwf_complex K :=
  let dst_y := (y + height / 2) % height
  let dst_x := (x + width / 2) % width
  let in_ptr := g_fft_result (y * (width / 2 + 1) + x)
  let out := store output_spectrum (dst_y * width + dst_x) (in_ptr.1, in_ptr.2)
  if 0 < x ∧ x < width / 2 then
    let mirror_x := (width - x) % width
    let dst_mirror_x := (mirror_x + width / 2) % width
    store out (dst_y * width + dst_mirror_x) (in_ptr.1, -in_ptr.2)
  else out

/-- The centring pass of `fft2d_grayscale`: reads the native half-spectrum `g_fft_result`
(`height` rows of `width/2+1` cells) and writes into `output_spectrum`, whose content before
the pass is whatever the allocator returned. -/
def fft2d_grayscale_center {K : Type} [Neg K] (g_fft_result : Nat → fftwf_complex K)
    (width height : Nat) (output_spectrum : Nat → fftwf_complex K) : Nat → fftwf_complex K :=
  forRange (fun y out =>
    forRange (fun x out => fft2d_grayscale_center_body g_fft_result width height y x out)
      (width / 2 + 1) out) height output_spectrum

/-! ## `ifft2d_grayscale`, first loop: un-centre the spectrum (source lines 271-287) -/

/-- Body of the inner loop of the un-centring pass, for destination cell `(x, y)`. -/
def ifft2d_grayscale_uncenter_body {K : Type} (input_spectrum : Nat → fftwf_complex K)
    (width height y x : Nat) (g_ifft_input_tmp : Nat → fftwf_complex K) :
    Nat → fftwf_complex K :=
  let dst_y := y
  let src_y := (y + height / 2) % height
  let src_x := (x + width / 2) % width
  let in_ptr := input_spectrum (src_y * width + src_x)
  store g_ifft_input_tmp (dst_y * (width / 2 + 1) + x) (in_ptr.1, in_ptr.2)

/-- The un-centring pass of `ifft2d_grayscale`: reads the centred full spectrum
`input_spectrum` and writes the half-spectrum buffer `g_ifft_input_tmp` that the inverse plan
is bound to. -/
def ifft2d_grayscale_uncenter {K : Type} (input_spectrum : Nat → fftwf_complex K)
    (width height : Nat) (g_ifft_input_tmp : Nat → fftwf_complex K) : Nat → fftwf_complex K :=
  forRange (fun y tmp =>
    forRange (fun x tmp => ifft2d_grayscale_uncenter_body input_spectrum width height y x tmp)
      (width / 2 + 1) tmp) height g_ifft_input_tmp

/-! ## The transform the forward plan computes, for sizes dividing 4

FFTW's real-to-complex plan computes the unnormalised discrete Fourier transform
`Y[v,u] = Σ_y Σ_x X[y,x] · exp(-2πi (u x / width + v y / height))` and stores the columns
`u ≤ width/2`.  When `width` and `height` divide 4 every twiddle factor is a power of `-i`, so
the transform is exact over any commutative ring; this gives concrete half-spectra of real
images to run the centring pass on. -/

/-- Product of two complex coefficients. -/
def cmul {K : Type} [Ring K] (a b : fftwf_complex K) : fftwf_complex K :=
  (a.1 * b.1 - a.2 * b.2, a.1 * b.2 + a.2 * b.1)

/-- Sum of two complex coefficients. -/
def cadd {K : Type} [Ring K] (a b : fftwf_complex K) : fftwf_complex K :=
  (a.1 + b.1, a.2 + b.2)

/-- The fourth root of unity `exp(-2πi k/4) = (-i)^k`. -/
def twiddle4 {K : Type} [Ring K] (k : Nat) : fftwf_complex K :=
  if k % 4 = 0 then (1, 0) else if k % 4 = 1 then (0, -1) else if k % 4 = 2 then (-1, 0)
  else (0, 1)

/-- The half-spectrum of the real image `img` (row-major, `width × height`), for `width` and
`height` in `{1, 2, 4}`: cell `v * (width/2+1) + u` holds
`Σ_y Σ_x img[y,x] · (-i)^((4/width)·u·x + (4/height)·v·y)`. -/
def dft_r2c_exact4 {K : Type} [Ring K] (width height : Nat) (img : Nat → K) :
    Nat → fftwf_complex K :=
  fun idx =>
    let v := idx / (width / 2 + 1)
    let u := idx % (width / 2 + 1)
    forRange (fun y acc =>
      forRange (fun x acc =>
        cadd acc (cmul (img (y * width + x), 0)
          (twiddle4 (4 / width * u * x + 4 / height * v * y)))) width acc) height (0, 0)

/-- A 4×4 luminance image, black except for the sample at `(x, y) = (1, 1)`. -/
def impulse4x4 : Nat → Int := fun i => if i = 1 * 4 + 1 then 1 else 0

/-! ## `filter_spectrum_for_kaleido` (source lines 132-207) -/

/-- The two functions of the C maths library whose results the filter uses and which are not
exact operations: `sqrtf` and `atan2f` (argument order as in C: `atan2f y x`). -/
structure Libm (K : Type) where
  sqrtf : K → K
  atan2f : K → K → K

/-- The conversion `(int)v` of a `float`: truncation toward zero. -/
def truncf {K : Type} [LinearOrderedField K] [FloorRing K] (v : K) : Int :=
  if 0 ≤ v then Int.floor v else Int.ceil v

/-- The C function `fmodf x y`, an exact operation: `x - n*y` with `n` the quotient `x/y`
truncated toward zero. -/
def fmodf {K : Type} [LinearOrderedField K] [FloorRing K] (x y : K) : K :=
  x - (truncf (x / y) : K) * y

/-- How the machine realises `float`.  `rnd v` is the `float` stored for the exact value `v`
of one arithmetic operation on `float` operands, of a literal with suffix `f`, or of an `int`
converted to `float`; `toInt v` is the conversion `(int)v` of a `float`. -/
structure FloatSem (K : Type) where
  rnd : K → K
  toInt : K → Int

/-- Arithmetic without rounding: every result is stored exactly and `(int)` truncates toward
zero whatever the magnitude. -/
def FloatSem.exact {K : Type} [LinearOrderedField K] [FloorRing K] : FloatSem K :=
  { rnd := fun v => v, toInt := truncf }

/-- Nearest integer, a tie going to the even neighbour. -/
def roundHalfEven (y : ℚ) : Int :=
  if y - (Int.floor y : ℚ) < 1 / 2 then Int.floor y
  else if 1 / 2 < y - (Int.floor y : ℚ) then Int.floor y + 1
  else if Int.floor y % 2 = 0 then Int.floor y
  else Int.floor y + 1

/-- Rounding to IEEE 754 binary32, round-to-nearest-even: a non-zero `x` with
`2^e ≤ |x| < 2^(e+1)` goes to the nearest multiple of `2^(e-23)` (24-bit significand), a tie
to the multiple with even significand.  The exponent is not bounded: overflow to infinity
and the subnormal range below `2^-126` are not modelled. -/
def round32 (x : ℚ) : ℚ :=
  if x = 0 then 0
  else (roundHalfEven (x / 2 ^ (Int.log 2 |x| - 23)) : ℚ) * 2 ^ (Int.log 2 |x| - 23)

/-- The conversion `(int)v` to a 32-bit `int`: truncation toward zero when the truncated
value fits.  Otherwise the C standard leaves the behaviour undefined; the value taken here is
`INT_MIN`, which is what the x86 conversion instruction returns. -/
def toInt32 (v : ℚ) : Int :=
  if -(2 : ℚ) ^ 31 ≤ v ∧ v < (2 : ℚ) ^ 31 then truncf v else -(2 : Int) ^ 31

/-- IEEE 754 binary32 arithmetic with 32-bit `int`: each operation is the exact operation
followed by `round32` (the basic operations, the conversions and the literals are correctly
rounded). -/
def binary32 : FloatSem ℚ :=
  { rnd := round32, toInt := toInt32 }

/-- The relative error of one rounding is at most `2^-24` (half a unit in the last place of
a 24-bit significand). -/
def FloatSem.relErr {K : Type} [LinearOrderedField K] (F : FloatSem K) : Prop :=
  ∀ x : K, |F.rnd x - x| ≤ |x| / 2 ^ 24

/-- A value `m · 2^e` with `|m| < 2^24` is a `float` and is stored as it is. -/
def FloatSem.fixes {K : Type} [LinearOrderedField K] (F : FloatSem K) : Prop :=
  ∀ (m e : Int), |m| < 2 ^ 24 → F.rnd ((m : K) * 2 ^ e) = (m : K) * 2 ^ e

/-- The conversion `(int)v` truncates toward zero when the result fits a 32-bit `int`. -/
def FloatSem.truncates {K : Type} [LinearOrderedField K] [FloorRing K] (F : FloatSem K) :
    Prop :=
  ∀ v : K, -(2 : K) ^ 31 ≤ v → v < (2 : K) ^ 31 → F.toInt v = truncf v

def BLOCK_WIDTH : Nat := 32

def BLOCK_HEIGHT : Nat := 32

/-- The decimal literal of the macro `PI`.  The source writes it with suffix `f`: the `float`
constant is `F.rnd PI`, which for `binary32` is `13176795 / 2^22` (bit pattern `0x40490fdb`).
The exact-arithmetic filter uses the literal as it is. -/
def PI {K : Type} [LinearOrderedField K] : K := 3.14159265358979323846

/-- The loop `for (int b = 0; b < n; b += step) s = body b s`, `step > 0`: it runs `body` at
`b = 0, step, 2*step, …` below `n`, that is at `k * step` for `k < ⌈n / step⌉`. -/
def forStep {σ : Type} (step : Nat) (body : Nat → σ → σ) (n : Nat) (s : σ) : σ :=
  forRange (fun k s => body (k * step) s) ((n + step - 1) / step) s

/-- The local `radius_max` of the filter: `width / param_radius_max_diviser`. -/
def radius_max {K : Type} [LinearOrderedField K] (width : Nat)
    (param_radius_max_diviser : K) : K :=
  (width : K) / param_radius_max_diviser

/-- The local `radius_squared` of the cell `(px, py)`: `dx*dx + dy*dy` with
`dx = px - center_x`, `dy = py - center_y` (integer subtractions, converted to `float`). -/
def radius_squared {K : Type} [LinearOrderedField K] (width height px py : Nat) : K :=
  let center_x : Int := (width : Int) / 2
  let center_y : Int := (height : Int) / 2
  let dx : K := (((px : Int) - center_x : Int) : K)
  let dy : K := (((py : Int) - center_y : Int) : K)
  dx * dx + dy * dy

/-- The local `attenuation` computed for the cell `(px, py)` holding `cell`
(source lines 169-199), in exact arithmetic: `attenuation_rounded` at `FloatSem.exact`. -/
def attenuation {K : Type} [LinearOrderedField K] [FloorRing K] (m : Libm K)
    (width height : Nat) (param_radius_min param_radius_max_diviser : K) (px py : Nat)
    (cell : fftwf_complex K) : K :=
  let radius_min := param_radius_min
  let radius_max := radius_max width param_radius_max_diviser
  let center_x : Int := (width : Int) / 2
  let center_y : Int := (height : Int) / 2
  let radius_min_squared := radius_min * radius_min
  let radius_max_squared := radius_max * radius_max
  let radius_diff_inv := 1 / (radius_max - radius_min)
  let PI_2 : K := PI / 2
  let PI_4 : K := PI / 4
  let angle_threshold : K := 0.05
  let angle_threshold_diag : K := 0.1
  let magnitude_threshold : K := 10000.0
  let dx : K := (((px : Int) - center_x : Int) : K)
  let dy : K := (((py : Int) - center_y : Int) : K)
  let radius_squared := radius_squared width height px py
  if radius_squared > radius_max_squared then 0
  else if radius_squared ≤ radius_min_squared then 1
  else
    let radius := m.sqrtf radius_squared
    let angle := m.atan2f dy dx
    let real := cell.1
    let imag := cell.2
    let magnitude := m.sqrtf (real * real + imag * imag)
    let angle_mod := fmodf |angle| PI_2
    if (angle_mod < angle_threshold ∨ angle_mod > PI_2 - angle_threshold) ∧
        radius_squared > 4 * radius_min_squared then
      if magnitude > magnitude_threshold then 0.01
      else 1 - (radius - radius_min) * radius_diff_inv * 0.5
    else if |fmodf |angle - PI_4| PI_2| < angle_threshold_diag ∧
        radius_squared > 4 * radius_min_squared then 0.3
    else 1 - (radius - radius_min) * radius_diff_inv * 0.2

/-- Body of the innermost loop of the filter for the cell `(px, py)`: both parts of the
coefficient at `idx = py * width + px` are multiplied by its attenuation. -/
def filter_spectrum_cell {K : Type} [LinearOrderedField K] [FloorRing K] (m : Libm K)
    (width height : Nat) (param_radius_min param_radius_max_diviser : K) (px py : Nat)
    (spectrum : Nat → fftwf_complex K) : Nat → fftwf_complex K :=
  let idx := py * width + px
  let a := attenuation m width height param_radius_min param_radius_max_diviser px py
    (spectrum idx)
  store spectrum idx ((spectrum idx).1 * a, (spectrum idx).2 * a)

/-- The function `filter_spectrum_for_kaleido`: the spectrum is swept in blocks of
`BLOCK_WIDTH × BLOCK_HEIGHT` cells, the last block of a row or column being cut at the edge.
(The prefetch hint has no effect on the content.) -/
def filter_spectrum_for_kaleido {K : Type} [LinearOrderedField K] [FloorRing K] (m : Libm K)
    (spectrum : Nat → fftwf_complex K) (width height : Nat)
    (param_radius_min param_radius_max_diviser : K) : Nat → fftwf_complex K :=
  forStep BLOCK_HEIGHT (fun by_ spectrum =>
    let block_h := if by_ + BLOCK_HEIGHT ≤ height then BLOCK_HEIGHT else height - by_
    forStep BLOCK_WIDTH (fun bx spectrum =>
      let block_w := if bx + BLOCK_WIDTH ≤ width then BLOCK_WIDTH else width - bx
      forRange (fun y spectrum =>
        forRange (fun x spectrum =>
          let px := bx + x
          let py := by_ + y
          filter_spectrum_cell m width height param_radius_min param_radius_max_diviser
            px py spectrum) block_w spectrum) block_h spectrum) width spectrum)
    height spectrum

/-! ## `filter_spectrum_for_kaleido` with the rounding of each `float` operation

Every `float` operation of the source is followed by `F.rnd`: the conversions of `width`,
`px - center_x` and `py - center_y` from `int`, the literals `PI`, `0.05f`, `0.1f`,
`10000.0f`, `0.01f`, `0.5f`, `0.3f`, `0.2f`, and each `+`, `-`, `*`, `/`.  The literals `0.0f`
and `1.0f` and the `int` constants `2` and `4` are exact in every binary format.  The results
of `sqrtf` and `atan2f` are `float` values as the library returns them; `fabsf` and `fmodf`
are exact operations on `float` values.  Each operation is rounded on its own: a product and
a sum are not fused into one rounding. -/

/-- The local `attenuation` computed for the cell `(px, py)` holding `cell`
(source lines 169-199), each operation rounded by `F`. -/
def attenuation_rounded {K : Type} [LinearOrderedField K] [FloorRing K] (F : FloatSem K)
    (m : Libm K) (width height : Nat) (param_radius_min param_radius_max_diviser : K)
    (px py : Nat) (cell : fftwf_complex K) : K :=
  let radius_min := param_radius_min
  let radius_max := F.rnd (F.rnd (width : K) / param_radius_max_diviser)
  let center_x : Int := (width : Int) / 2
  let center_y : Int := (height : Int) / 2
  let radius_min_squared := F.rnd (radius_min * radius_min)
  let radius_max_squared := F.rnd (radius_max * radius_max)
  let radius_diff_inv := F.rnd (1 / F.rnd (radius_max - radius_min))
  let PI_2 : K := F.rnd (F.rnd PI / 2)
  let PI_4 : K := F.rnd (F.rnd PI / 4)
  let angle_threshold : K := F.rnd 0.05
  let angle_threshold_diag : K := F.rnd 0.1
  let magnitude_threshold : K := F.rnd 10000.0
  let dx : K := F.rnd (((px : Int) - center_x : Int) : K)
  let dy : K := F.rnd (((py : Int) - center_y : Int) : K)
  let radius_squared := F.rnd (F.rnd (dx * dx) + F.rnd (dy * dy))
  if radius_squared > radius_max_squared then 0
  else if radius_squared ≤ radius_min_squared then 1
  else
    let radius := m.sqrtf radius_squared
    let angle := m.atan2f dy dx
    let real := cell.1
    let imag := cell.2
    let magnitude := m.sqrtf (F.rnd (F.rnd (real * real) + F.rnd (imag * imag)))
    let angle_mod := fmodf |angle| PI_2
    if (angle_mod < angle_threshold ∨ angle_mod > F.rnd (PI_2 - angle_threshold)) ∧
        radius_squared > F.rnd (4 * radius_min_squared) then
      if magnitude > magnitude_threshold then F.rnd 0.01
      else F.rnd (1 - F.rnd (F.rnd (F.rnd (radius - radius_min) * radius_diff_inv)
        * F.rnd 0.5))
    else if |fmodf |F.rnd (angle - PI_4)| PI_2| < angle_threshold_diag ∧
        radius_squared > F.rnd (4 * radius_min_squared) then F.rnd 0.3
    else F.rnd (1 - F.rnd (F.rnd (F.rnd (radius - radius_min) * radius_diff_inv)
      * F.rnd 0.2))

/-- Body of the innermost loop of the filter for the cell `(px, py)`, the two products
`*= attenuation` rounded by `F`. -/
def filter_spectrum_cell_rounded {K : Type} [LinearOrderedField K] [FloorRing K]
    (F : FloatSem K) (m : Libm K) (width height : Nat)
    (param_radius_min param_radius_max_diviser : K) (px py : Nat)
    (spectrum : Nat → fftwf_complex K) : Nat → fftwf_complex K :=
  let idx := py * width + px
  let a := attenuation_rounded F m width height param_radius_min param_radius_max_diviser
    px py (spectrum idx)
  store spectrum idx (F.rnd ((spectrum idx).1 * a), F.rnd ((spectrum idx).2 * a))

/-- The function `filter_spectrum_for_kaleido`, each `float` operation rounded by `F`: the
same sweep in blocks of `BLOCK_WIDTH × BLOCK_HEIGHT` cells. -/
def filter_spectrum_for_kaleido_rounded {K : Type} [LinearOrderedField K] [FloorRing K]
    (F : FloatSem K) (m : Libm K) (spectrum : Nat → fftwf_complex K) (width height : Nat)
    (param_radius_min param_radius_max_diviser : K) : Nat → fftwf_complex K :=
  forStep BLOCK_HEIGHT (fun by_ spectrum =>
    let block_h := if by_ + BLOCK_HEIGHT ≤ height then BLOCK_HEIGHT else height - by_
    forStep BLOCK_WIDTH (fun bx spectrum =>
      let block_w := if bx + BLOCK_WIDTH ≤ width then BLOCK_WIDTH else width - bx
      forRange (fun y spectrum =>
        forRange (fun x spectrum =>
          let px := bx + x
          let py := by_ + y
          filter_spectrum_cell_rounded F m width height param_radius_min
            param_radius_max_diviser px py spectrum) block_w spectrum) block_h spectrum)
      width spectrum)
    height spectrum

/-! ## The resource cache: `cleanup_fftw_resources`, `init_fftw_resources`
(source lines 21-121)

Pointers and plans are `Option Nat`, `none` being `NULL`.  The calls made into FFTW and the C
library are recorded, in order, in a log, so that "nothing was allocated" is a statement
about that log.  The byte counts logged are the mathematical products; their conversion to
`size_t` is not modelled. -/

/-- A call into FFTW or the C library, with its arguments and, where the code uses it, its
result. -/
inductive Call where
  | fftwf_destroy_plan (p : Nat)
  | fftwf_free (p : Nat)
  | fftwf_init_threads
  | fftwf_plan_with_nthreads
  | fftwf_malloc (bytes : Int) (result : Option Nat)
  | fftwf_plan_dft_r2c_2d (n0 n1 : Int) (result : Option Nat)
  | fftwf_plan_dft_c2r_2d (n0 n1 : Int) (result : Option Nat)
  | fftwf_execute (p : Option Nat)
  | fprintf_stderr
  deriving DecidableEq

/-- The file-scope variables of the source. -/
structure Cache where
  g_fft2d_plan : Option Nat
  g_fft_input_tmp : Option Nat
  g_fft_result : Option Nat
  g_ifft2d_plan : Option Nat
  g_ifft_input_tmp : Option Nat
  g_ifft_result : Option Nat
  g_width : Int
  g_height : Int
  g_line_length : Int
  g_initialized : Int
  deriving DecidableEq

/-- The initial values of the file-scope variables: everything `NULL` or 0. -/
def Cache.empty : Cache :=
  { g_fft2d_plan := none, g_fft_input_tmp := none, g_fft_result := none,
    g_ifft2d_plan := none, g_ifft_input_tmp := none, g_ifft_result := none,
    g_width := 0, g_height := 0, g_line_length := 0, g_initialized := 0 }

/-- Process state seen by the cache code: the file-scope variables and the log of external
calls made so far (oldest first). -/
structure World where
  cache : Cache
  log : List Call
  deriving DecidableEq

/-- What the environment answers during one call of `init_fftw_resources`: the result of each
of the four `fftwf_malloc` calls (numbered 0 to 3 in program order, given the byte count) and
of the two planner calls (given the dimensions `n0 = height`, `n1 = width`). -/
structure Env where
  fftwf_malloc : Nat → Int → Option Nat
  fftwf_plan_dft_r2c_2d : Int → Int → Option Nat
  fftwf_plan_dft_c2r_2d : Int → Int → Option Nat

/-- Number of `fftwf_malloc` calls in a log. -/
def mallocCalls : List Call → Nat
  | [] => 0
  | Call.fftwf_malloc _ _ :: l => mallocCalls l + 1
  | _ :: l => mallocCalls l

/-- Number of planner calls in a log. -/
def plannerCalls : List Call → Nat
  | [] => 0
  | Call.fftwf_plan_dft_r2c_2d _ _ _ :: l => plannerCalls l + 1
  | Call.fftwf_plan_dft_c2r_2d _ _ _ :: l => plannerCalls l + 1
  | _ :: l => plannerCalls l

/-- The function `cleanup_fftw_resources`. -/
def cleanup_fftw_resources (s : World) : World :=
  let s : World := match s.cache.g_fft2d_plan with
    | some p => { cache := { s.cache with g_fft2d_plan := none },
                  log := s.log ++ [Call.fftwf_destroy_plan p] }
    | none => s
  let s : World := match s.cache.g_fft_input_tmp with
    | some p => { cache := { s.cache with g_fft_input_tmp := none },
                  log := s.log ++ [Call.fftwf_free p] }
    | none => s
  let s : World := match s.cache.g_fft_result with
    | some p => { cache := { s.cache with g_fft_result := none },
                  log := s.log ++ [Call.fftwf_free p] }
    | none => s
  let s : World := match s.cache.g_ifft2d_plan with
    | some p => { cache := { s.cache with g_ifft2d_plan := none },
                  log := s.log ++ [Call.fftwf_destroy_plan p] }
    | none => s
  let s : World := match s.cache.g_ifft_input_tmp with
    | some p => { cache := { s.cache with g_ifft_input_tmp := none },
                  log := s.log ++ [Call.fftwf_free p] }
    | none => s
  let s : World := match s.cache.g_ifft_result with
    | some p => { cache := { s.cache with g_ifft_result := none },
                  log := s.log ++ [Call.fftwf_free p] }
    | none => s
  { cache := { s.cache with g_width := 0, g_height := 0, g_line_length := 0,
                            g_initialized := 0 },
    log := s.log }

/-- The function `init_fftw_resources`: the status returned and the state left. -/
def init_fftw_resources (env : Env) (width height line_length : Int) (s : World) :
    Int × World :=
  if s.cache.g_initialized ≠ 0 ∧ s.cache.g_width = width ∧ s.cache.g_height = height ∧
      s.cache.g_line_length = line_length then
    (0, s)
  else
    let s := cleanup_fftw_resources s
    let s : World :=
      { s with log := s.log ++ [Call.fftwf_init_threads, Call.fftwf_plan_with_nthreads] }
    let p0 := env.fftwf_malloc 0 (4 * width * height)
    let s : World := { cache := { s.cache with g_fft_input_tmp := p0 },
                       log := s.log ++ [Call.fftwf_malloc (4 * width * height) p0] }
    let p1 := env.fftwf_malloc 1 (8 * width * height)
    let s : World := { cache := { s.cache with g_fft_result := p1 },
                       log := s.log ++ [Call.fftwf_malloc (8 * width * height) p1] }
    let p2 := env.fftwf_malloc 2 (4 * width * height)
    let s : World := { cache := { s.cache with g_ifft_result := p2 },
                       log := s.log ++ [Call.fftwf_malloc (4 * width * height) p2] }
    let p3 := env.fftwf_malloc 3 (8 * height * (Int.tdiv width 2 + 1))
    let s : World :=
      { cache := { s.cache with g_ifft_input_tmp := p3 },
        log := s.log ++ [Call.fftwf_malloc (8 * height * (Int.tdiv width 2 + 1)) p3] }
    if s.cache.g_fft_input_tmp = none ∨ s.cache.g_fft_result = none ∨
        s.cache.g_ifft_input_tmp = none ∨ s.cache.g_ifft_result = none then
      (-1, cleanup_fftw_resources s)
    else
      let q0 := env.fftwf_plan_dft_r2c_2d height width
      let s : World := { cache := { s.cache with g_fft2d_plan := q0 },
                         log := s.log ++ [Call.fftwf_plan_dft_r2c_2d height width q0] }
      let q1 := env.fftwf_plan_dft_c2r_2d height width
      let s : World := { cache := { s.cache with g_ifft2d_plan := q1 },
                         log := s.log ++ [Call.fftwf_plan_dft_c2r_2d height width q1] }
      if s.cache.g_fft2d_plan = none ∨ s.cache.g_ifft2d_plan = none then
        (-1, cleanup_fftw_resources s)
      else
        (0, { cache := { s.cache with g_width := width, g_height := height,
                                      g_line_length := line_length, g_initialized := 1 },
              log := s.log })

/-! ## The pipeline: `fft2d_grayscale`, `ifft2d_grayscale`, `remove_moire`
(source lines 219-348)

The framebuffer is a map from byte offset to byte value (`unsigned char`, a natural number
below 256).  The numeric loops run over non-negative dimensions; `remove_moire` hands them
its `int` arguments through `Int.toNat` (a loop bounded by a non-positive `int` runs no
iteration). -/

/-- What executing the two cached plans computes: `execute_r2c height width` maps the content
of `g_fft_input_tmp` to the content of `g_fft_result`, `execute_c2r height width` maps the
content of `g_ifft_input_tmp` to the content of `g_ifft_result`. -/
structure Fftw (K : Type) where
  execute_r2c : Nat → Nat → (Nat → K) → (Nat → fftwf_complex K)
  execute_c2r : Nat → Nat → (Nat → fftwf_complex K) → (Nat → K)

/-- Content, as the call finds it, of the buffers that `remove_moire` writes before reading:
the two cached input buffers and the spectrum buffer it allocates. -/
structure Scratch (K : Type) where
  g_fft_input_tmp : Nat → K
  g_ifft_input_tmp : Nat → fftwf_complex K
  fft_spectrum : Nat → fftwf_complex K

/-- First loop of `fft2d_grayscale` (source lines 221-231): RGB24 to luminance.  The quotient
`(r + g + b)/3` is an `int` division; for bytes it is at most 255 and its conversion to
`float` is exact. -/
def fft2d_grayscale_project {K : Type} [LinearOrderedField K] (input_data : Nat → Nat)
    (width height line_length : Nat) (g_fft_input_tmp : Nat → K) : Nat → K :=
  forRange (fun y lum =>
    forRange (fun x lum =>
      let r := input_data (y * line_length + x * 3 + 0)
      let g := input_data (y * line_length + x * 3 + 1)
      let b := input_data (y * line_length + x * 3 + 2)
      let gray : K := (((r + g + b) / 3 : Nat) : K)
      store lum (y * width + x) gray) width lum) height g_fft_input_tmp

/-- The function `fft2d_grayscale`: projection, execution of the forward plan, centring. -/
def fft2d_grayscale {K : Type} [LinearOrderedField K] (fftw : Fftw K)
    (g_fft_input_tmp : Nat → K) (input_data : Nat → Nat)
    (output_spectrum : Nat → fftwf_complex K) (width height line_length : Nat) :
    Nat → fftwf_complex K :=
  let g_fft_input_tmp := fft2d_grayscale_project input_data width height line_length
    g_fft_input_tmp
  let g_fft_result := fftw.execute_r2c height width g_fft_input_tmp
  fft2d_grayscale_center g_fft_result width height output_spectrum

/-- Body of the last loop of `ifft2d_grayscale` for the pixel `(x, y)`: normalise, convert
to `int`, limit to `0..255`, write the three channels.  `norm_factor` is the `float` quotient
`1.0f / (width * height)`, the `int` product being converted to `float` first; the source
computes it once before the loops. -/
def ifft2d_grayscale_write_body {K : Type} [LinearOrderedField K] [FloorRing K]
    (F : FloatSem K) (g_ifft_result : Nat → K) (width height line_length y x : Nat)
    (output_data : Nat → Nat) : Nat → Nat :=
  let norm_factor : K := F.rnd (1 / F.rnd ((width * height : Nat) : K))
  let pixel_value := F.rnd (g_ifft_result (y * width + x) * norm_factor)
  let pixel_int : Int := F.toInt pixel_value
  let pixel_int : Int := if pixel_int < 0 then 0 else (if pixel_int > 255 then 255 else pixel_int)
  let out := store output_data (y * line_length + x * 3) (pixel_int % 256).toNat
  let out := store out (y * line_length + x * 3 + 1) (pixel_int % 256).toNat
  store out (y * line_length + x * 3 + 2) (pixel_int % 256).toNat

/-- Last loop of `ifft2d_grayscale` (source lines 292-310). -/
def ifft2d_grayscale_write {K : Type} [LinearOrderedField K] [FloorRing K]
    (F : FloatSem K) (g_ifft_result : Nat → K) (width height line_length : Nat)
    (output_data : Nat → Nat) : Nat → Nat :=
  forRange (fun y out =>
    forRange (fun x out =>
      ifft2d_grayscale_write_body F g_ifft_result width height line_length y x out) width out)
    height output_data

/-- The function `ifft2d_grayscale`: un-centring, execution of the inverse plan,
write-back. -/
def ifft2d_grayscale {K : Type} [LinearOrderedField K] [FloorRing K] (F : FloatSem K)
    (fftw : Fftw K) (g_ifft_input_tmp : Nat → fftwf_complex K)
    (input_spectrum : Nat → fftwf_complex K) (output_data : Nat → Nat)
    (width height line_length : Nat) : Nat → Nat :=
  let g_ifft_input_tmp := ifft2d_grayscale_uncenter input_spectrum width height
    g_ifft_input_tmp
  let g_ifft_result := fftw.execute_c2r height width g_ifft_input_tmp
  ifft2d_grayscale_write F g_ifft_result width height line_length output_data

/-- The function `remove_moire`: the framebuffer and the state it leaves.  `alloc` is the
result of the `fftwf_malloc` of the spectrum buffer; the source uses it unchecked, so on
`NULL` the behaviour is undefined and the result is `none`. -/
def remove_moire {K : Type} [LinearOrderedField K] [FloorRing K] (F : FloatSem K) (env : Env)
    (fftw : Fftw K) (m : Libm K) (alloc : Option Nat) (mem : Scratch K) (fb_data : Nat → Nat)
    (width height line_length : Int) (param_radius_min param_radius_max_diviser : K)
    (s : World) : Option ((Nat → Nat) × World) :=
  let r := init_fftw_resources env width height line_length s
  if r.1 ≠ 0 then
    some (fb_data, { cache := r.2.cache, log := r.2.log ++ [Call.fprintf_stderr] })
  else
    let s := r.2
    match alloc with
    | none => none
    | some p =>
      let fft_spectrum := fft2d_grayscale fftw mem.g_fft_input_tmp fb_data mem.fft_spectrum
        width.toNat height.toNat line_length.toNat
      let fft_spectrum := filter_spectrum_for_kaleido_rounded F m fft_spectrum width.toNat
        height.toNat param_radius_min param_radius_max_diviser
      let fb_data := ifft2d_grayscale F fftw mem.g_ifft_input_tmp fft_spectrum fb_data
        width.toNat height.toNat line_length.toNat
      some (fb_data,
        { cache := s.cache,
          log := s.log ++ [Call.fftwf_malloc (8 * width * height) (some p),
            Call.fftwf_execute s.cache.g_fft2d_plan, Call.fftwf_execute s.cache.g_ifft2d_plan,
            Call.fftwf_free p] })

/-- FFTW's planners return `NULL` when a dimension is not positive. -/
def Env.rejectsNonPositive (env : Env) : Prop :=
  ∀ n0 n1 : Int, n0 ≤ 0 ∨ n1 ≤ 0 →
    env.fftwf_plan_dft_r2c_2d n0 n1 = none ∧ env.fftwf_plan_dft_c2r_2d n0 n1 = none

/-- The cache is empty or built for positive dimensions. -/
def Cache.keyPositive (c : Cache) : Prop :=
  c.g_initialized ≠ 0 → 0 < c.g_width ∧ 0 < c.g_height

/-- An environment in which the third allocation fails and everything else succeeds. -/
def envThirdAllocFails : Env :=
  { fftwf_malloc := fun k _ => if k = 2 then none else some (100 + k),
    fftwf_plan_dft_r2c_2d := fun _ _ => some 7,
    fftwf_plan_dft_c2r_2d := fun _ _ => some 8 }

/-- An environment in which every allocation succeeds and the planners succeed exactly on
positive dimensions. -/
def envRejecting : Env :=
  { fftwf_malloc := fun k _ => some (100 + k),
    fftwf_plan_dft_r2c_2d := fun n0 n1 => if 0 < n0 ∧ 0 < n1 then some 7 else none,
    fftwf_plan_dft_c2r_2d := fun n0 n1 => if 0 < n0 ∧ 0 < n1 then some 8 else none }

/-- The transforms of a 1×1 image: the discrete Fourier transform of a single sample is the
sample itself. -/
def fftw1x1 {K : Type} [Zero K] : Fftw K :=
  { execute_r2c := fun _ _ lum i => (lum i, 0),
    execute_c2r := fun _ _ half i => (half i).1 }

/-- A state whose cache is built for a 4×4 framebuffer of stride 12. -/
def worldBuilt4x4 : World :=
  { cache := { g_fft2d_plan := some 1, g_fft_input_tmp := some 2, g_fft_result := some 3,
               g_ifft2d_plan := some 4, g_ifft_input_tmp := some 5, g_ifft_result := some 6,
               g_width := 4, g_height := 4, g_line_length := 12, g_initialized := 1 },
    log := [] }

/-- The inverse of `dft_r2c_exact4`: the real image whose half-spectrum is `half`, times
`width * height` (FFTW's transforms are unnormalised), for `width` and `height` in
`{1, 2, 4}`.  The columns beyond `width/2` are taken from the Hermitian symmetry
`Y[v,u] = conj Y[(height-v) mod height, width-u]`, and `exp(+2πi k/4) = (-i)^(3k)`. -/
def dft_c2r_exact4 {K : Type} [Ring K] (width height : Nat) (half : Nat → fftwf_complex K) :
    Nat → K :=
  fun idx =>
    let y := idx / width
    let x := idx % width
    (forRange (fun v acc =>
      forRange (fun u acc =>
        let coeff : fftwf_complex K :=
          if u ≤ width / 2 then half (v * (width / 2 + 1) + u)
          else conj (half ((height - v) % height * (width / 2 + 1) + (width - u)))
        cadd acc (cmul coeff (twiddle4 (3 * (4 / width * u * x + 4 / height * v * y)))))
        width acc) height (0, 0)).1

/-- The exact transform pair for sizes dividing 4. -/
def fftwExact4 {K : Type} [Ring K] : Fftw K :=
  { execute_r2c := fun height width lum => dft_r2c_exact4 width height lum,
    execute_c2r := fun height width half => dft_c2r_exact4 width height half }

/-- On flat fields the plans compute what the exact two-dimensional discrete Fourier
transform and its inverse give: the (unnormalised) transform of the constant image `c` is
`width * height * c` at the zero frequency and 0 at every other frequency, and the
(unnormalised) inverse transform of the spectrum that is `d` at the zero frequency and 0
elsewhere is the constant image `d`. -/
def Fftw.exactOnFlat {K : Type} [LinearOrderedField K] (fftw : Fftw K) (width height : Nat) :
    Prop :=
  (∀ (c : K) (lum : Nat → K), (∀ i, i < width * height → lum i = c) →
    ∀ v u, v < height → u ≤ width / 2 →
      fftw.execute_r2c height width lum (v * (width / 2 + 1) + u)
        = if v = 0 ∧ u = 0 then (((width * height : Nat) : K) * c, 0) else (0, 0)) ∧
  (∀ (d : K) (half : Nat → fftwf_complex K),
    (∀ v u, v < height → u ≤ width / 2 →
      half (v * (width / 2 + 1) + u) = if v = 0 ∧ u = 0 then (d, 0) else (0, 0)) →
    ∀ i, i < width * height → fftw.execute_c2r height width half i = d)

/-- An environment in which every allocation and both planners succeed. -/
def envAllSucceed : Env :=
  { fftwf_malloc := fun k _ => some (100 + k),
    fftwf_plan_dft_r2c_2d := fun _ _ => some 7,
    fftwf_plan_dft_c2r_2d := fun _ _ => some 8 }

/-- A 4×4 framebuffer of stride 13 (one byte of padding per row) filled with the colour
`(10, 20, 30)`; the padding bytes hold 99. -/
def flatFb4x4 : Nat → Nat :=
  fun i => if i % 13 = 12 then 99 else if i % 13 % 3 = 0 then 10
    else if i % 13 % 3 = 1 then 20 else 30

/-- An instance of the maths library for concrete evaluations of results that hold whatever
`sqrtf` and `atan2f` return. -/
def libmArbitrary : Libm ℚ :=
  { sqrtf := fun v => v, atan2f := fun _ _ => 0 }

/-- Buffers holding zeros, for concrete evaluations. -/
def scratchZero : Scratch ℚ :=
  { g_fft_input_tmp := fun _ => 0, g_ifft_input_tmp := fun _ => (0, 0),
    fft_spectrum := fun _ => (0, 0) }

/-! ## Sequences of calls on the cache -/

/-- One call on the cache made by a client: `init_fftw_resources` with the arguments and the
answers of the environment for that call, or `cleanup_fftw_resources`. -/
inductive CacheOp where
  | init (env : Env) (width height line_length : Int)
  | cleanup

/-- The state at program start: file-scope variables at their initial values, no external
call made yet. -/
def World.start : World :=
  { cache := Cache.empty, log := [] }

/-- The state after a sequence of calls. -/
def runOps : List CacheOp → World → World
  | [], s => s
  | CacheOp.init env width height line_length :: ops, s =>
      runOps ops (init_fftw_resources env width height line_length s).2
  | CacheOp.cleanup :: ops, s => runOps ops (cleanup_fftw_resources s)

/-- The cache is entirely built by one call `init_fftw_resources width height line_length`
answered by `env`: the four buffers and the two plans are present and are the ones that call
obtained, the key is the triple of that call and `g_initialized` is 1. -/
def Cache.builtBy (c : Cache) (env : Env) (width height line_length : Int) : Prop :=
  ∃ p0 p1 p2 p3 q0 q1 : Nat,
    env.fftwf_malloc 0 (4 * width * height) = some p0 ∧
    env.fftwf_malloc 1 (8 * width * height) = some p1 ∧
    env.fftwf_malloc 2 (4 * width * height) = some p2 ∧
    env.fftwf_malloc 3 (8 * height * (Int.tdiv width 2 + 1)) = some p3 ∧
    env.fftwf_plan_dft_r2c_2d height width = some q0 ∧
    env.fftwf_plan_dft_c2r_2d height width = some q1 ∧
    c = { g_fft2d_plan := some q0, g_fft_input_tmp := some p0, g_fft_result := some p1,
          g_ifft2d_plan := some q1, g_ifft_input_tmp := some p3, g_ifft_result := some p2,
          g_width := width, g_height := height, g_line_length := line_length,
          g_initialized := 1 }

/-! ## `color_detect.c`: is there a non-gray pixel (scalar path)

The image is read through `const uint8_t* data`: a map from the signed byte offset relative
to `data` to the byte found there.  `int` values are unbounded integers.  The OpenMP work
sharing is modelled by the sequential order of the two block loops; the shared flag
`found_colored` then makes every later iteration `continue`. -/

/-- The function `is_pixel_colored`. -/
def is_pixel_colored (r g b : Nat) (tolerance : Int) : Bool :=
  decide (|(r : Int) - (g : Int)| > tolerance) ||
  decide (|(r : Int) - (b : Int)| > tolerance) ||
  decide (|(g : Int) - (b : Int)| > tolerance)

/-- The loop `for (int i = start; cond(i); i++) { if (hit(i)) return true; }` as the
question "did it return `true`": `scanFrom cond hit fuel start`, where `fuel` bounds the
number of iterations. -/
def scanFrom (cond hit : Int → Bool) : Nat → Int → Bool
  | 0, _ => false
  | fuel + 1, i =>
    if cond i then (if hit i then true else scanFrom cond hit fuel (i + 1)) else false

/-- The function `is_block_colored_scalar`.  Each loop makes at most `block_height`
(`block_width`) iterations, its guard `y < y_start + block_height` failing after that. -/
def is_block_colored_scalar (data : Int → Nat) (stride x_start y_start block_width
    block_height img_width img_height tolerance : Int) : Bool :=
  scanFrom (fun y => decide (y < y_start + block_height) && decide (y < img_height))
    (fun y =>
      let row := y * stride
      scanFrom (fun x => decide (x < x_start + block_width) && decide (x < img_width))
        (fun x =>
          let px := row + x * 3
          is_pixel_colored (data (px + 0)) (data (px + 1)) (data (px + 2)) tolerance)
        block_width.toNat x_start)
    block_height.toNat y_start

/-- The function `is_framebuffer_colored`, built without NEON (scalar block function). -/
def is_framebuffer_colored (data : Int → Nat) (width height stride tolerance : Int) : Bool :=
  let BLOCK_WIDTH : Nat := 8
  let BLOCK_HEIGHT : Nat := 16
  forStep BLOCK_HEIGHT (fun y found_colored =>
    forStep BLOCK_WIDTH (fun x found_colored =>
      if found_colored then found_colored
      else
        let block_has_color := is_block_colored_scalar data stride x y BLOCK_WIDTH
          BLOCK_HEIGHT width height tolerance
        if block_has_color then true else found_colored) width.toNat found_colored)
    height.toNat false

/-- The pixel `(x, y)` of the image is coloured: two of its channels differ by more than the
tolerance. -/
def pixelColored (data : Int → Nat) (stride tolerance x y : Int) : Prop :=
  |(data (y * stride + x * 3 + 0) : Int) - (data (y * stride + x * 3 + 1) : Int)| > tolerance ∨
  |(data (y * stride + x * 3 + 0) : Int) - (data (y * stride + x * 3 + 2) : Int)| > tolerance ∨
  |(data (y * stride + x * 3 + 1) : Int) - (data (y * stride + x * 3 + 2) : Int)| > tolerance

/-! ## The traversal of `filter_spectrum_for_kaleido` on its own -/

/-- The four nested loops of `filter_spectrum_for_kaleido` (source lines 153-206) with the
work done on a cell left open: `cell px py` is applied at each visit of `(px, py)`. -/
def blocked_sweep {σ : Type} (cell : Nat → Nat → σ → σ) (width height : Nat) (s : σ) : σ :=
  forStep BLOCK_HEIGHT (fun by_ s =>
    let block_h := if by_ + BLOCK_HEIGHT ≤ height then BLOCK_HEIGHT else height - by_
    forStep BLOCK_WIDTH (fun bx s =>
      let block_w := if bx + BLOCK_WIDTH ≤ width then BLOCK_WIDTH else width - bx
      forRange (fun y s =>
        forRange (fun x s =>
          let px := bx + x
          let py := by_ + y
          cell px py s) block_w s) block_h s) width s)
    height s

/-- Number of visits the traversal pays to each index `py * width + px`: the traversal run
with "add one to the counter of the cell" as the work on a cell, from counters at 0. -/
def sweep_visits (width height : Nat) : Nat → Nat :=
  blocked_sweep (fun px py cnt => store cnt (py * width + px) (cnt (py * width + px) + 1))
    width height (fun _ => 0)

/-- The filter as the specification words it, a plain per-coordinate map: the coefficient of
each coordinate `(px, py)` of the `width × height` spectrum is multiplied, real and imaginary
part, by the attenuation computed from `(px, py)`, the parameters and that coefficient. -/
def filter_per_cell_spec {K : Type} [LinearOrderedField K] [FloorRing K] (m : Libm K)
    (spectrum : Nat → fftwf_complex K) (width height : Nat)
    (param_radius_min param_radius_max_diviser : K) : Nat → fftwf_complex K :=
  fun i =>
    if i < width * height then
      let px := i % width
      let py := i / width
      let a := attenuation m width height param_radius_min param_radius_max_diviser px py
        (spectrum i)
      ((spectrum i).1 * a, (spectrum i).2 * a)
    else spectrum i

/-! ## The angular branches of the filter -/

/-- The local `dx` of the filter for column `px`: `px - center_x`, converted to `float`. -/
def cell_dx {K : Type} [LinearOrderedField K] (width px : Nat) : K :=
  (((px : Int) - (width : Int) / 2 : Int) : K)

/-- The local `dy` of the filter for row `py`: `py - center_y`, converted to `float`. -/
def cell_dy {K : Type} [LinearOrderedField K] (height py : Nat) : K :=
  (((py : Int) - (height : Int) / 2 : Int) : K)

/-- The function `atan2f` returns the exact angle on the four diagonals, `PI` standing for
π: π/4, 3π/4, -π/4 and -3π/4 for `(dx, dy)` = `(d, d)`, `(-d, d)`, `(d, -d)`, `(-d, -d)`,
`d > 0`. -/
def Libm.exactOnDiagonals {K : Type} [LinearOrderedField K] (m : Libm K) : Prop :=
  ∀ d : K, 0 < d →
    m.atan2f d d = PI / 4 ∧ m.atan2f d (-d) = 3 * PI / 4 ∧
    m.atan2f (-d) d = -(PI / 4) ∧ m.atan2f (-d) (-d) = -(3 * PI / 4)

/-- A maths library that is exact on the four diagonals, for concrete evaluations there
(`sqrtf` is exact on the squares of natural numbers). -/
def libmDiagonal : Libm ℚ :=
  { sqrtf := fun v => (Nat.sqrt (Int.toNat (Int.floor v)) : ℚ),
    atan2f := fun y x =>
      if y = x then (if 0 < x then PI / 4 else -(3 * PI / 4))
      else if y = -x then (if 0 < x then -(PI / 4) else 3 * PI / 4)
      else 0 }

/-! ## The indices computed by the centring and un-centring passes -/

/-- Index `dst_y * width + dst_x` of the direct copy of source cell `(x, y)`
(source lines 239-242). -/
def center_dst_index (width height y x : Nat) : Nat :=
  (y + height / 2) % height * width + (x + width / 2) % width

/-- Index `dst_y * width + dst_mirror_x` of the mirror write of source cell `(x, y)`
(source lines 248-250). -/
def center_mirror_index (width height y x : Nat) : Nat :=
  (y + height / 2) % height * width + ((width - x) % width + width / 2) % width

/-- Index `src_y * width + src_x` read by the un-centring pass for destination cell `(x, y)`
(source lines 275-282). -/
def uncenter_src_index (width height y x : Nat) : Nat :=
  (y + height / 2) % height * width + (x + width / 2) % width

/-- Index `y * (width/2 + 1) + x` of cell `(x, y)` in a half-spectrum buffer
(source lines 243 and 281). -/
def half_index (width y x : Nat) : Nat :=
  y * (width / 2 + 1) + x

/-! ## Instances for concrete evaluations with rounding -/

/-- A transform pair that computes on flat fields what the exact DFT pair gives, for every
size: the forward transform puts `width·height·lum[0]` at the zero frequency and 0 at the
other frequencies, the inverse returns at every pixel the real part of the zero-frequency
coefficient. -/
def fftwFlat {K : Type} [LinearOrderedField K] : Fftw K :=
  { execute_r2c := fun height width lum i =>
      if i = 0 then (((width * height : Nat) : K) * lum 0, 0) else (0, 0),
    execute_c2r := fun _ _ half _ => (half 0).1 }

/-- The results of a correctly rounded maths library at the arguments met on the diagonal
cells `(27, 37)` and `(37, 37)` of a 64×64 spectrum: `sqrtf(50) = 926819 / 2^17`,
`atan2f(5, -5) = 9882596 / 2^22` (bit pattern `0x4016cbe4`) and
`atan2f(5, 5) = 13176795 / 2^24` (bit pattern `0x3f490fdb`), the binary32 numbers nearest to
`√50`, `3π/4` and `π/4`.  Other arguments are not used. -/
def libmRoundedDiagonal : Libm ℚ :=
  { sqrtf := fun v => if v = 50 then 926819 / 2 ^ 17 else 0,
    atan2f := fun y x =>
      if y = 5 ∧ x = -5 then 9882596 / 2 ^ 22
      else if y = 5 ∧ x = 5 then 13176795 / 2 ^ 24
      else 0 }

/-! ## Loop lemmas -/

theorem forRange_untouched {α : Type} (body : Nat → (Nat → α) → (Nat → α)) (i : Nat) :
    ∀ (n : Nat) (s : Nat → α), (∀ k, k < n → ∀ t, body k t i = t i) →
      forRange body n s i = s i
  | 0, _, _ => rfl
  | n + 1, s, h => by
    show body n (forRange body n s) i = s i
    rw [h n (Nat.lt_succ_self n)]
    exact forRange_untouched body i n s (fun k hk t => h k (Nat.lt_succ_of_lt hk) t)

theorem forRange_once {α : Type} (body : Nat → (Nat → α) → (Nat → α)) (i k0 : Nat)
    (f : α → α) (hk0 : ∀ t, body k0 t i = f (t i)) :
    ∀ (n : Nat) (s : Nat → α), k0 < n → (∀ k, k < n → k ≠ k0 → ∀ t, body k t i = t i) →
      forRange body n s i = f (s i)
  | 0, _, h, _ => absurd h (Nat.not_lt_zero _)
  | n + 1, s, hlt, h => by
    show body n (forRange body n s) i = f (s i)
    by_cases hn : k0 = n
    · subst hn
      rw [hk0, forRange_untouched body i k0 s
        (fun k hk t => h k (Nat.lt_succ_of_lt hk) (Nat.ne_of_lt hk) t)]
    · have hlt2 : k0 < n := by omega
      rw [h n (Nat.lt_succ_self n) (fun e => hn e.symm)]
      exact forRange_once body i k0 f hk0 n s hlt2
        (fun k hk hne t => h k (Nat.lt_succ_of_lt hk) hne t)

/-! ## Index arithmetic of the centred layout -/

theorem shift_inj {a b c n : Nat} (ha : a < n) (hb : b < n)
    (h : (a + c) % n = (b + c) % n) : a = b :=
  Nat.ModEq.eq_of_lt_of_lt (Nat.ModEq.add_right_cancel' c h) ha hb

theorem idx_inj {a b c d w : Nat} (hb : b < w) (hd : d < w)
    (h : a * w + b = c * w + d) : a = c ∧ b = d := by
  have hw : 0 < w := by omega
  have h1 : (a * w + b) / w = a := by
    rw [Nat.add_comm, Nat.add_mul_div_right _ _ hw, Nat.div_eq_of_lt hb, Nat.zero_add]
  have h2 : (c * w + d) / w = c := by
    rw [Nat.add_comm, Nat.add_mul_div_right _ _ hw, Nat.div_eq_of_lt hd, Nat.zero_add]
  have hac : a = c := by rw [← h1, ← h2, h]
  subst hac
  exact ⟨rfl, by omega⟩

/-- Two centred cells coincide only if their rows and their native columns do. -/
theorem center_idx_inj {w h y y' c c' : Nat} (hy : y < h) (hy' : y' < h)
    (hc : c < w) (hc' : c' < w)
    (e : (y + h / 2) % h * w + (c + w / 2) % w = (y' + h / 2) % h * w + (c' + w / 2) % w) :
    y = y' ∧ c = c' := by
  have hw : 0 < w := by omega
  obtain ⟨e1, e2⟩ := idx_inj (Nat.mod_lt _ hw) (Nat.mod_lt _ hw) e
  exact ⟨shift_inj hy hy' e1, shift_inj hc hc' e2⟩

/-- What one iteration of the centring pass leaves in cell `i`. -/
theorem center_body_eval {K : Type} [Neg K] (g : Nat → fftwf_complex K) (w h y x : Nat)
    (t : Nat → fftwf_complex K) (i : Nat) :
    fft2d_grayscale_center_body g w h y x t i =
      if (0 < x ∧ x < w / 2) ∧ i = (y + h / 2) % h * w + ((w - x) + w / 2) % w then
        conj (g (y * (w / 2 + 1) + x))
      else if i = (y + h / 2) % h * w + (x + w / 2) % w then g (y * (w / 2 + 1) + x)
      else t i := by
  unfold fft2d_grayscale_center_body
  by_cases hm : 0 < x ∧ x < w / 2
  · have hlt : w - x < w := by omega
    simp only [hm, and_self, if_true, true_and, store, Nat.mod_eq_of_lt hlt, conj]
  · simp only [hm, if_false, false_and, store]

/-- An iteration of the centring pass leaves alone every cell that is neither its direct
destination nor, when it has one, its mirror destination. -/
theorem center_body_other {K : Type} [Neg K] (g : Nat → fftwf_complex K) (w h y x : Nat)
    (t : Nat → fftwf_complex K) (i : Nat)
    (hd : i ≠ (y + h / 2) % h * w + (x + w / 2) % w)
    (hm : 0 < x → x < w / 2 → i ≠ (y + h / 2) % h * w + ((w - x) + w / 2) % w) :
    fft2d_grayscale_center_body g w h y x t i = t i := by
  rw [center_body_eval, if_neg (fun c => hm c.1.1 c.1.2 c.2), if_neg hd]

/-- Value of a directly copied cell after the centring pass. -/
theorem center_direct {K : Type} [Neg K] (g : Nat → fftwf_complex K) (w h : Nat)
    (out : Nat → fftwf_complex K) (y x : Nat) (hy : y < h) (hx : x ≤ w / 2)
    (hw : 1 ≤ w) :
    fft2d_grayscale_center g w h out ((y + h / 2) % h * w + (x + w / 2) % w)
      = g (y * (w / 2 + 1) + x) := by
  have hxw : x < w := by omega
  refine forRange_once _ _ y (fun _ => g (y * (w / 2 + 1) + x)) ?_ h out hy ?_
  · intro t
    refine forRange_once _ _ x (fun _ => g (y * (w / 2 + 1) + x)) ?_ (w / 2 + 1) t
      (by omega) ?_
    · intro t
      show fft2d_grayscale_center_body g w h y x t _ = _
      rw [center_body_eval, if_neg, if_pos rfl]
      rintro ⟨⟨h0, h1⟩, e⟩
      have := (center_idx_inj hy hy hxw (by omega) e).2
      omega
    · intro k hk hne t
      refine center_body_other g w h y k t _ ?_ ?_
      · intro e
        exact hne (center_idx_inj hy hy hxw (by omega) e).2.symm
      · intro h0 h1 e
        have := (center_idx_inj hy hy hxw (by omega) e).2
        omega
  · intro k hk hne t
    refine forRange_untouched _ _ (w / 2 + 1) t ?_
    intro j hj t
    refine center_body_other g w h k j t _ ?_ ?_
    · intro e
      exact hne (center_idx_inj hy hk hxw (by omega) e).1.symm
    · intro h0 h1 e
      exact hne (center_idx_inj hy hk hxw (by omega) e).1.symm

/-- Value of a mirror cell after the centring pass. -/
theorem center_mirror {K : Type} [Neg K] (g : Nat → fftwf_complex K) (w h : Nat)
    (out : Nat → fftwf_complex K) (y x : Nat) (hy : y < h) (h0 : 0 < x) (h1 : x < w / 2) :
    fft2d_grayscale_center g w h out ((y + h / 2) % h * w + ((w - x) + w / 2) % w)
      = conj (g (y * (w / 2 + 1) + x)) := by
  have hxw : w - x < w := by omega
  refine forRange_once _ _ y (fun _ => conj (g (y * (w / 2 + 1) + x))) ?_ h out hy ?_
  · intro t
    refine forRange_once _ _ x (fun _ => conj (g (y * (w / 2 + 1) + x))) ?_ (w / 2 + 1) t
      (by omega) ?_
    · intro t
      show fft2d_grayscale_center_body g w h y x t _ = _
      rw [center_body_eval, if_pos ⟨⟨h0, h1⟩, rfl⟩]
    · intro k hk hne t
      refine center_body_other g w h y k t _ ?_ ?_
      · intro e
        have := (center_idx_inj hy hy hxw (by omega) e).2
        omega
      · intro k0 k1 e
        have := (center_idx_inj hy hy hxw (by omega) e).2
        omega
  · intro k hk hne t
    refine forRange_untouched _ _ (w / 2 + 1) t ?_
    intro j hj t
    refine center_body_other g w h k j t _ ?_ ?_
    · intro e
      exact hne (center_idx_inj hy hk hxw (by omega) e).1.symm
    · intro k0 k1 e
      exact hne (center_idx_inj hy hk hxw (by omega) e).1.symm

/-- A cell that is no iteration's destination keeps its content through the centring pass. -/
theorem center_unwritten {K : Type} [Neg K] (g : Nat → fftwf_complex K) (w h : Nat)
    (out : Nat → fftwf_complex K) (i : Nat)
    (hd : ∀ y x, y < h → x ≤ w / 2 → i ≠ (y + h / 2) % h * w + (x + w / 2) % w)
    (hm : ∀ y x, y < h → 0 < x → x < w / 2 →
      i ≠ (y + h / 2) % h * w + ((w - x) + w / 2) % w) :
    fft2d_grayscale_center g w h out i = out i := by
  refine forRange_untouched _ _ h out ?_
  intro y hy t
  refine forRange_untouched _ _ (w / 2 + 1) t ?_
  intro x hx t
  exact center_body_other g w h y x t i (hd y x hy (by omega)) (hm y x hy)

/-- For an odd width of at least 3 the centring pass writes nothing into column 0 of the
centred spectrum (native column `width/2 + 1`): every row keeps there what the buffer held
before the pass. -/
theorem center_odd_width_column_unwritten {K : Type} [Neg K] (g : Nat → fftwf_complex K)
    (w h : Nat) (out : Nat → fftwf_complex K) (hodd : w % 2 = 1) (hw : 3 ≤ w) (r : Nat) :
    fft2d_grayscale_center g w h out (r * w) = out (r * w) := by
  have hw0 : 0 < w := by omega
  refine center_unwritten g w h out (r * w) ?_ ?_
  · intro y x _ hx e
    have hlt : x + w / 2 < w := by omega
    have e' : r * w + 0 = (y + h / 2) % h * w + (x + w / 2) % w := by omega
    have := (idx_inj hw0 (Nat.mod_lt _ hw0) e').2
    rw [Nat.mod_eq_of_lt hlt] at this
    omega
  · intro y x _ h0 h1 e
    have hsplit : w - x + w / 2 = w + (w / 2 - x) := by omega
    have e' : r * w + 0 = (y + h / 2) % h * w + (w - x + w / 2) % w := by omega
    have := (idx_inj hw0 (Nat.mod_lt _ hw0) e').2
    rw [hsplit, Nat.add_mod_left, Nat.mod_eq_of_lt (by omega)] at this
    omega

/-- Value of a cell of the half-spectrum buffer after the un-centring pass. -/
theorem uncenter_cell {K : Type} (s : Nat → fftwf_complex K) (w h : Nat)
    (tmp : Nat → fftwf_complex K) (y x : Nat) (hy : y < h) (hx : x ≤ w / 2) :
    ifft2d_grayscale_uncenter s w h tmp (y * (w / 2 + 1) + x)
      = s ((y + h / 2) % h * w + (x + w / 2) % w) := by
  have hx1 : x < w / 2 + 1 := by omega
  refine forRange_once _ _ y (fun _ => s ((y + h / 2) % h * w + (x + w / 2) % w)) ?_ h tmp
    hy ?_
  · intro t
    refine forRange_once _ _ x (fun _ => s ((y + h / 2) % h * w + (x + w / 2) % w)) ?_
      (w / 2 + 1) t hx1 ?_
    · intro t
      simp [ifft2d_grayscale_uncenter_body, store]
    · intro k hk hne t
      have : ¬ (y * (w / 2 + 1) + x = y * (w / 2 + 1) + k) := by omega
      simp [ifft2d_grayscale_uncenter_body, store, this]
  · intro k hk hne t
    refine forRange_untouched _ _ (w / 2 + 1) t ?_
    intro j hj t
    have : ¬ (y * (w / 2 + 1) + x = k * (w / 2 + 1) + j) := by
      intro e
      exact hne (idx_inj hx1 hj e).1.symm
    simp [ifft2d_grayscale_uncenter_body, store, this]

/-! ## Claims about the centring codec -/

/-- C1: the centred spectrum is not Hermitian-symmetric.  For the 4×4 image that is black
except for the sample at (1,1), the centring pass leaves `-1` in the cell `(x,y) = (3,3)`
while the conjugate of the cell `((4-3) mod 4, (4-3) mod 4) = (1,1)` is `1`: the mirror
write goes to the same row `dst_y` instead of the row of the negated frequency. -/
theorem C1_center_not_hermitian_4x4 (out : Nat → fftwf_complex Int) :
    fft2d_grayscale_center (dft_r2c_exact4 4 4 impulse4x4) 4 4 out (3 * 4 + 3) = (-1, 0) ∧
    conj (fft2d_grayscale_center (dft_r2c_exact4 4 4 impulse4x4) 4 4 out
      ((4 - 3) % 4 * 4 + (4 - 3) % 4)) = (1, 0) := by
  constructor
  · rw [show 3 * 4 + 3 = (1 + 4 / 2) % 4 * 4 + (1 + 4 / 2) % 4 from rfl,
      center_direct _ 4 4 out 1 1 (by decide) (by decide) (by decide)]
    decide
  · rw [show (4 - 3) % 4 * 4 + (4 - 3) % 4 = (3 + 4 / 2) % 4 * 4 + ((4 - 1) + 4 / 2) % 4
      from rfl, center_mirror _ 4 4 out 3 1 (by decide) (by decide) (by decide)]
    decide

/-- C2: centring followed by un-centring is the identity on the native half-spectrum: for
`width ≥ 1`, `height ≥ 1` and any half-spectrum `H`, whatever the fresh spectrum buffer and
the half-spectrum buffer held before, the array handed to the inverse transform has
`half'[y,x] = H[y,x]` for every `x ≤ width/2`, `y < height`. -/
theorem C2_center_uncenter_roundtrip {K : Type} [Neg K] (H : Nat → fftwf_complex K)
    (width height : Nat) (hw : 1 ≤ width)
    (fresh tmp : Nat → fftwf_complex K) (y x : Nat) (hy : y < height)
    (hx : x ≤ width / 2) :
    ifft2d_grayscale_uncenter (fft2d_grayscale_center H width height fresh) width height tmp
      (y * (width / 2 + 1) + x) = H (y * (width / 2 + 1) + x) := by
  rw [uncenter_cell _ width height tmp y x hy hx]
  exact center_direct H width height fresh y x hy hx hw

theorem C2_center_uncenter_roundtrip_witness :
    ifft2d_grayscale_uncenter
      (fft2d_grayscale_center (fun i => ((i : Int), (2 * i + 1 : Int))) 5 3 (fun _ => (0, 0)))
      5 3 (fun _ => (7, 7)) (2 * (5 / 2 + 1) + 2) = ((8 : Int), (17 : Int)) :=
  C2_center_uncenter_roundtrip (fun i => ((i : Int), (2 * i + 1 : Int))) 5 3 (by decide)
    (fun _ => (0, 0)) (fun _ => (7, 7)) 2 2 (by decide) (by decide)

/-- C3: the centring pass does not assign every cell when the width is odd.  For a 3×1
spectrum the cell at index 0 (native column 2, the mirror of column 1 = width/2) is written by
no iteration: after the pass it still holds what the fresh buffer held. -/
theorem C3_center_leaves_cell_unwritten_3x1 {K : Type} [Neg K]
    (H fresh : Nat → fftwf_complex K) :
    fft2d_grayscale_center H 3 1 fresh 0 = fresh 0 := rfl

/-! ## The filter as a per-cell map -/

theorem filter_cell_same {K : Type} [LinearOrderedField K] [FloorRing K] (m : Libm K)
    (w h : Nat) (rmin dv : K) (px py : Nat) (t : Nat → fftwf_complex K) :
    filter_spectrum_cell m w h rmin dv px py t (py * w + px) =
      ((t (py * w + px)).1 * attenuation m w h rmin dv px py (t (py * w + px)),
       (t (py * w + px)).2 * attenuation m w h rmin dv px py (t (py * w + px))) := by
  simp [filter_spectrum_cell, store]

theorem filter_cell_other {K : Type} [LinearOrderedField K] [FloorRing K] (m : Libm K)
    (w h : Nat) (rmin dv : K) (px py : Nat) (t : Nat → fftwf_complex K) (i : Nat)
    (hne : i ≠ py * w + px) :
    filter_spectrum_cell m w h rmin dv px py t i = t i := by
  simp [filter_spectrum_cell, store, hne]

/-- The blocked sweep multiplies each cell of the `width × height` spectrum once, by its own
attenuation. -/
theorem filter_cell_result {K : Type} [LinearOrderedField K] [FloorRing K] (m : Libm K)
    (s : Nat → fftwf_complex K) (w h : Nat) (rmin dv : K) (px py : Nat)
    (hpx : px < w) (hpy : py < h) :
    filter_spectrum_for_kaleido m s w h rmin dv (py * w + px) =
      ((s (py * w + px)).1 * attenuation m w h rmin dv px py (s (py * w + px)),
       (s (py * w + px)).2 * attenuation m w h rmin dv px py (s (py * w + px))) := by
  unfold filter_spectrum_for_kaleido forStep BLOCK_HEIGHT BLOCK_WIDTH
  refine forRange_once _ _ (py / 32) (fun c => (c.1 * attenuation m w h rmin dv px py c,
    c.2 * attenuation m w h rmin dv px py c)) ?_ _ s (by omega) ?_
  · intro t
    refine forRange_once _ _ (px / 32) (fun c => (c.1 * attenuation m w h rmin dv px py c,
      c.2 * attenuation m w h rmin dv px py c)) ?_ _ t (by omega) ?_
    · intro t
      refine forRange_once _ _ (py % 32) (fun c => (c.1 * attenuation m w h rmin dv px py c,
        c.2 * attenuation m w h rmin dv px py c)) ?_ _ t (by split <;> omega) ?_
      · intro t
        refine forRange_once _ _ (px % 32) (fun c =>
          (c.1 * attenuation m w h rmin dv px py c,
           c.2 * attenuation m w h rmin dv px py c)) ?_ _ t (by split <;> omega) ?_
        · intro t
          have e1 : px / 32 * 32 + px % 32 = px := by omega
          have e2 : py / 32 * 32 + py % 32 = py := by omega
          simp only [e1, e2]
          exact filter_cell_same m w h rmin dv px py t
        · intro x hx hne t
          refine filter_cell_other m w h rmin dv _ _ t _ ?_
          intro e
          have hx' : px / 32 * 32 + x < w := by
            revert hx; split <;> omega
          have := (idx_inj hpx hx' e).2
          omega
      · intro y hy hne t
        refine forRange_untouched _ _ _ t ?_
        intro x hx t
        refine filter_cell_other m w h rmin dv _ _ t _ ?_
        intro e
        have hx' : px / 32 * 32 + x < w := by
          revert hx; split <;> omega
        have := (idx_inj hpx hx' e).1
        omega
    · intro kx hkx hne t
      refine forRange_untouched _ _ _ t ?_
      intro y hy t
      refine forRange_untouched _ _ _ t ?_
      intro x hx t
      refine filter_cell_other m w h rmin dv _ _ t _ ?_
      intro e
      have hx' : kx * 32 + x < w := by
        revert hx; split <;> omega
      have hx32 : x < 32 := by
        revert hx; split <;> omega
      have := (idx_inj hpx hx' e).2
      omega
  · intro ky hky hne t
    refine forRange_untouched _ _ _ t ?_
    intro kx hkx t
    refine forRange_untouched _ _ _ t ?_
    intro y hy t
    refine forRange_untouched _ _ _ t ?_
    intro x hx t
    refine filter_cell_other m w h rmin dv _ _ t _ ?_
    intro e
    have hx' : kx * 32 + x < w := by
      revert hx; split <;> omega
    have hy32 : y < 32 := by
      revert hy; split <;> omega
    have := (idx_inj hpx hx' e).1
    omega

/-- In exact arithmetic the rounded attenuation is the attenuation. -/
theorem attenuation_rounded_exact {K : Type} [LinearOrderedField K] [FloorRing K]
    (m : Libm K) (w h : Nat) (rmin dv : K) (px py : Nat) (cell : fftwf_complex K) :
    attenuation_rounded FloatSem.exact m w h rmin dv px py cell
      = attenuation m w h rmin dv px py cell := rfl

/-- In exact arithmetic the rounded filter is the filter. -/
theorem filter_rounded_exact {K : Type} [LinearOrderedField K] [FloorRing K]
    (m : Libm K) (s : Nat → fftwf_complex K) (w h : Nat) (rmin dv : K) :
    filter_spectrum_for_kaleido_rounded FloatSem.exact m s w h rmin dv
      = filter_spectrum_for_kaleido m s w h rmin dv := rfl

theorem filter_rounded_cell_same {K : Type} [LinearOrderedField K] [FloorRing K]
    (F : FloatSem K) (m : Libm K) (w h : Nat) (rmin dv : K) (px py : Nat)
    (t : Nat → fftwf_complex K) :
    filter_spectrum_cell_rounded F m w h rmin dv px py t (py * w + px) =
      (F.rnd ((t (py * w + px)).1
          * attenuation_rounded F m w h rmin dv px py (t (py * w + px))),
       F.rnd ((t (py * w + px)).2
          * attenuation_rounded F m w h rmin dv px py (t (py * w + px)))) := by
  simp [filter_spectrum_cell_rounded, store]

theorem filter_rounded_cell_other {K : Type} [LinearOrderedField K] [FloorRing K]
    (F : FloatSem K) (m : Libm K) (w h : Nat) (rmin dv : K) (px py : Nat)
    (t : Nat → fftwf_complex K) (i : Nat) (hne : i ≠ py * w + px) :
    filter_spectrum_cell_rounded F m w h rmin dv px py t i = t i := by
  simp [filter_spectrum_cell_rounded, store, hne]

/-! ## Claims about the degenerate radii -/

/-- The squared distance of the centre cell is 0. -/
theorem radius_squared_center {K : Type} [LinearOrderedField K] (w h : Nat) :
    radius_squared w h (w / 2) (h / 2) = (0 : K) := by
  unfold radius_squared
  have e1 : ((w / 2 : Nat) : Int) - (w : Int) / 2 = 0 := by omega
  have e2 : ((h / 2 : Nat) : Int) - (h : Int) / 2 = 0 := by omega
  simp only [e1, e2, Int.cast_zero, mul_zero, add_zero]

/-- After `cleanup_fftw_resources` the file-scope variables have their initial values. -/
theorem cleanup_cache_empty (s : World) : (cleanup_fftw_resources s).cache = Cache.empty := by
  obtain ⟨⟨a, b, c, d, e, f, w, h, l, i⟩, log⟩ := s
  cases a <;> cases b <;> cases c <;> cases d <;> cases e <;> cases f <;> rfl

theorem mallocCalls_append (l1 l2 : List Call) :
    mallocCalls (l1 ++ l2) = mallocCalls l1 + mallocCalls l2 := by
  induction l1 with
  | nil => simp [mallocCalls]
  | cons c l ih =>
    cases c <;> simp [mallocCalls, ih]
    omega

/-- Tearing down allocates nothing. -/
theorem cleanup_mallocCalls (s : World) :
    mallocCalls (cleanup_fftw_resources s).log = mallocCalls s.log := by
  obtain ⟨⟨a, b, c, d, e, f, w, h, l, i⟩, log⟩ := s
  cases a <;> cases b <;> cases c <;> cases d <;> cases e <;> cases f <;>
    simp [cleanup_fftw_resources, mallocCalls_append, mallocCalls]

/-- A call that is not served from the cache makes exactly four allocation attempts. -/
theorem init_miss_mallocs (env : Env) (width height line_length : Int) (s : World)
    (hmiss : ¬ (s.cache.g_initialized ≠ 0 ∧ s.cache.g_width = width ∧
      s.cache.g_height = height ∧ s.cache.g_line_length = line_length)) :
    mallocCalls (init_fftw_resources env width height line_length s).2.log
      = mallocCalls s.log + 4 := by
  unfold init_fftw_resources
  rw [if_neg hmiss]
  simp only []
  split_ifs <;>
    simp [cleanup_mallocCalls, mallocCalls_append, mallocCalls]

/-- A call that is not served from the cache and meets a failed allocation or a failed plan
construction returns -1 and leaves the file-scope variables at their initial values. -/
theorem init_miss_failure (env : Env) (width height line_length : Int) (s : World)
    (hmiss : ¬ (s.cache.g_initialized ≠ 0 ∧ s.cache.g_width = width ∧
      s.cache.g_height = height ∧ s.cache.g_line_length = line_length))
    (hfail : env.fftwf_malloc 0 (4 * width * height) = none ∨
      env.fftwf_malloc 1 (8 * width * height) = none ∨
      env.fftwf_malloc 2 (4 * width * height) = none ∨
      env.fftwf_malloc 3 (8 * height * (Int.tdiv width 2 + 1)) = none ∨
      env.fftwf_plan_dft_r2c_2d height width = none ∨
      env.fftwf_plan_dft_c2r_2d height width = none) :
    (init_fftw_resources env width height line_length s).1 = -1 ∧
    (init_fftw_resources env width height line_length s).2.cache = Cache.empty := by
  unfold init_fftw_resources
  rw [if_neg hmiss]
  simp only []
  split_ifs with h1 h2
  · exact ⟨rfl, cleanup_cache_empty _⟩
  · exact ⟨rfl, cleanup_cache_empty _⟩
  · exfalso
    simp only [not_or] at h1 h2
    rcases hfail with h | h | h | h | h | h
    · exact h1.1 h
    · exact h1.2.1 h
    · exact h1.2.2.2 h
    · exact h1.2.2.1 h
    · exact h2.1 h
    · exact h2.2 h

/-- A successful call leaves the cache built for the dimensions asked. -/
theorem init_success_built (env : Env) (width height line_length : Int) (s : World)
    (hok : (init_fftw_resources env width height line_length s).1 = 0) :
    (init_fftw_resources env width height line_length s).2.cache.g_initialized ≠ 0 ∧
    (init_fftw_resources env width height line_length s).2.cache.g_width = width ∧
    (init_fftw_resources env width height line_length s).2.cache.g_height = height ∧
    (init_fftw_resources env width height line_length s).2.cache.g_line_length
      = line_length := by
  unfold init_fftw_resources at hok ⊢
  by_cases hhit : s.cache.g_initialized ≠ 0 ∧ s.cache.g_width = width ∧
      s.cache.g_height = height ∧ s.cache.g_line_length = line_length
  · rw [if_pos hhit]
    exact hhit
  · rw [if_neg hhit] at hok ⊢
    simp only [] at hok ⊢
    split_ifs at hok ⊢ with h1 h2
    · simp at hok
    · simp at hok
    · exact ⟨one_ne_zero, rfl, rfl, rfl⟩

/-! ## Claims about the resource cache -/

/-- C7: cache hit.  If the cache is built for `(width, height, stride)`, the call returns 0
and the whole state (every buffer, both plans, the key, and the log of external calls: no
teardown, allocation or planning) is exactly as before; hence a call that follows a
successful call with the same dimensions returns 0 and changes nothing, whatever the
environment would have answered. -/
theorem C7_cache_hit_changes_nothing (env env' : Env) (width height line_length : Int)
    (s : World) :
    (s.cache.g_initialized ≠ 0 ∧ s.cache.g_width = width ∧ s.cache.g_height = height ∧
        s.cache.g_line_length = line_length →
      init_fftw_resources env width height line_length s = (0, s)) ∧
    ((init_fftw_resources env width height line_length s).1 = 0 →
      init_fftw_resources env' width height line_length
          (init_fftw_resources env width height line_length s).2
        = (0, (init_fftw_resources env width height line_length s).2)) := by
  have key : ∀ (e : Env) (t : World), (t.cache.g_initialized ≠ 0 ∧ t.cache.g_width = width ∧
      t.cache.g_height = height ∧ t.cache.g_line_length = line_length) →
      init_fftw_resources e width height line_length t = (0, t) := by
    intro e t hhit
    unfold init_fftw_resources
    rw [if_pos hhit]
  exact ⟨key env s, fun hok => key env' _ (init_success_built env width height line_length s hok)⟩

theorem C7_cache_hit_changes_nothing_witness :
    init_fftw_resources envThirdAllocFails 4 4 12 worldBuilt4x4 = (0, worldBuilt4x4) :=
  (C7_cache_hit_changes_nothing envThirdAllocFails envThirdAllocFails 4 4 12
    worldBuilt4x4).1 (by decide)

/-- C8: failure rollback.  When the call is not served from the cache and any of the four
allocations or either plan construction fails, it returns -1 and every file-scope variable is
back at its initial value (buffers and plans `NULL`, key `(0,0,0)`, `g_initialized = 0`),
whatever the cache held before. -/
theorem C8_failure_rolls_back_to_empty (env : Env) (width height line_length : Int)
    (s : World)
    (hmiss : ¬ (s.cache.g_initialized ≠ 0 ∧ s.cache.g_width = width ∧
      s.cache.g_height = height ∧ s.cache.g_line_length = line_length))
    (hfail : env.fftwf_malloc 0 (4 * width * height) = none ∨
      env.fftwf_malloc 1 (8 * width * height) = none ∨
      env.fftwf_malloc 2 (4 * width * height) = none ∨
      env.fftwf_malloc 3 (8 * height * (Int.tdiv width 2 + 1)) = none ∨
      env.fftwf_plan_dft_r2c_2d height width = none ∨
      env.fftwf_plan_dft_c2r_2d height width = none) :
    (init_fftw_resources env width height line_length s).1 = -1 ∧
    (init_fftw_resources env width height line_length s).2.cache = Cache.empty :=
  init_miss_failure env width height line_length s hmiss hfail

theorem C8_failure_rolls_back_to_empty_witness :
    (init_fftw_resources envThirdAllocFails 8 8 24 worldBuilt4x4).1 = -1 ∧
    (init_fftw_resources envThirdAllocFails 8 8 24 worldBuilt4x4).2.cache = Cache.empty :=
  C8_failure_rolls_back_to_empty envThirdAllocFails 8 8 24 worldBuilt4x4 (by decide)
    (Or.inr (Or.inr (Or.inl rfl)))

/-- The property "empty or built for positive dimensions" is kept by every call of
`init_fftw_resources` when the planners reject non-positive dimensions. -/
theorem init_keeps_keyPositive (env : Env) (width height line_length : Int) (s : World)
    (hfftw : env.rejectsNonPositive) (hkey : s.cache.keyPositive) :
    (init_fftw_resources env width height line_length s).2.cache.keyPositive := by
  by_cases hhit : s.cache.g_initialized ≠ 0 ∧ s.cache.g_width = width ∧
      s.cache.g_height = height ∧ s.cache.g_line_length = line_length
  · unfold init_fftw_resources
    rw [if_pos hhit]
    exact hkey
  · by_cases hdim : height ≤ 0 ∨ width ≤ 0
    · rw [(init_miss_failure env width height line_length s hhit
        (Or.inr (Or.inr (Or.inr (Or.inr (Or.inl (hfftw height width hdim).1)))))).2]
      intro h
      exact absurd rfl h
    · intro hinit
      by_cases hok : (init_fftw_resources env width height line_length s).1 = 0
      · obtain ⟨_, hw, hh, _⟩ := init_success_built env width height line_length s hok
        rw [hw, hh]
        omega
      · have hcache : (init_fftw_resources env width height line_length s).2.cache
            = Cache.empty := by
          unfold init_fftw_resources at hok ⊢
          rw [if_neg hhit] at hok ⊢
          simp only [] at hok ⊢
          split_ifs at hok ⊢ with h1 h2
          · exact cleanup_cache_empty _
          · exact cleanup_cache_empty _
          · exact absurd rfl hok
        rw [hcache] at hinit
        exact absurd rfl hinit

/-- C9 as stated fails: no dimension check precedes the allocations.  For `width = 0`,
`height = 4` on the empty cache, whatever the environment answers, the call makes four
`fftwf_malloc` attempts. -/
theorem C9_no_dimension_check_before_allocation :
    ((0 : Int) ≤ 0 ∨ (4 : Int) ≤ 0) ∧
    ∀ env : Env,
      mallocCalls (init_fftw_resources env 0 4 0 { cache := Cache.empty, log := [] }).2.log
        = 4 := by
  refine ⟨Or.inl (le_refl 0), fun env => ?_⟩
  rw [init_miss_mallocs env 0 4 0 _ (by decide)]
  rfl

/-- C9 (amended): for `width ≤ 0` or `height ≤ 0`, on a cache that is empty or built for
positive dimensions and with planners that reject non-positive dimensions, the call makes its
four allocation attempts, then returns -1 with every file-scope variable back at its initial
value; `remove_moire` then returns the framebuffer as it was, having only logged the
diagnostic. -/
theorem C9_nonpositive_dimensions_fail_after_allocating {K : Type} [LinearOrderedField K]
    [FloorRing K] (F : FloatSem K) (env : Env) (fftw : Fftw K) (m : Libm K)
    (alloc : Option Nat)
    (mem : Scratch K) (fb_data : Nat → Nat) (width height line_length : Int)
    (param_radius_min param_radius_max_diviser : K) (s : World)
    (hdim : width ≤ 0 ∨ height ≤ 0) (hkey : s.cache.keyPositive)
    (hfftw : env.rejectsNonPositive) :
    (init_fftw_resources env width height line_length s).1 = -1 ∧
    (init_fftw_resources env width height line_length s).2.cache = Cache.empty ∧
    mallocCalls (init_fftw_resources env width height line_length s).2.log
      = mallocCalls s.log + 4 ∧
    remove_moire F env fftw m alloc mem fb_data width height line_length param_radius_min
        param_radius_max_diviser s
      = some (fb_data,
          { cache := Cache.empty,
            log := (init_fftw_resources env width height line_length s).2.log
              ++ [Call.fprintf_stderr] }) := by
  have hmiss : ¬ (s.cache.g_initialized ≠ 0 ∧ s.cache.g_width = width ∧
      s.cache.g_height = height ∧ s.cache.g_line_length = line_length) := by
    rintro ⟨hi, hw, hh, _⟩
    have := hkey hi
    omega
  have hfail := init_miss_failure env width height line_length s hmiss
    (Or.inr (Or.inr (Or.inr (Or.inr (Or.inl
      (hfftw height width (by omega)).1)))))
  refine ⟨hfail.1, hfail.2, init_miss_mallocs env width height line_length s hmiss, ?_⟩
  unfold remove_moire
  simp only [hfail.1, hfail.2]
  rfl

theorem C9_nonpositive_dimensions_fail_after_allocating_witness :
    (init_fftw_resources envRejecting (-3) 4 12 worldBuilt4x4).1 = -1 ∧
    (init_fftw_resources envRejecting (-3) 4 12 worldBuilt4x4).2.cache = Cache.empty ∧
    mallocCalls (init_fftw_resources envRejecting (-3) 4 12 worldBuilt4x4).2.log
      = mallocCalls worldBuilt4x4.log + 4 ∧
    remove_moire binary32 envRejecting fftw1x1 libmArbitrary (some 9)
        scratchZero
        (fun i => i % 256) (-3) 4 12 4 8 worldBuilt4x4
      = some (fun i => i % 256,
          { cache := Cache.empty,
            log := (init_fftw_resources envRejecting (-3) 4 12 worldBuilt4x4).2.log
              ++ [Call.fprintf_stderr] }) :=
  C9_nonpositive_dimensions_fail_after_allocating binary32 envRejecting fftw1x1
    libmArbitrary (some 9)
    scratchZero
    (fun i => i % 256) (-3) 4 12 4 8 worldBuilt4x4 (Or.inl (by decide))
    (fun _ => ⟨by decide, by decide⟩)
    (fun n0 n1 h => by
      have h' : ¬ (0 < n0 ∧ 0 < n1) := by omega
      simp [envRejecting, h'])

/-- C10: if cache resolution fails, `remove_moire` returns the framebuffer it was given,
unchanged at every offset, and the only external call it adds to those of
`init_fftw_resources` is the diagnostic: the spectrum buffer is not allocated. -/
theorem C10_failed_resolution_leaves_framebuffer {K : Type} [LinearOrderedField K]
    [FloorRing K] (F : FloatSem K) (env : Env) (fftw : Fftw K) (m : Libm K)
    (alloc : Option Nat)
    (mem : Scratch K) (fb_data : Nat → Nat) (width height line_length : Int)
    (param_radius_min param_radius_max_diviser : K) (s : World)
    (hfail : (init_fftw_resources env width height line_length s).1 ≠ 0) :
    remove_moire F env fftw m alloc mem fb_data width height line_length param_radius_min
        param_radius_max_diviser s
      = some (fb_data,
          { cache := (init_fftw_resources env width height line_length s).2.cache,
            log := (init_fftw_resources env width height line_length s).2.log
              ++ [Call.fprintf_stderr] }) ∧
    mallocCalls ((init_fftw_resources env width height line_length s).2.log
        ++ [Call.fprintf_stderr])
      = mallocCalls (init_fftw_resources env width height line_length s).2.log := by
  constructor
  · unfold remove_moire
    simp only [hfail, ne_eq, not_false_eq_true, if_true]
  · rw [mallocCalls_append]
    rfl

theorem C10_failed_resolution_leaves_framebuffer_witness :
    remove_moire binary32 envThirdAllocFails fftw1x1 libmArbitrary (some 9)
        scratchZero
        (fun i => i % 256) 8 8 24 4 8 worldBuilt4x4
      = some (fun i => i % 256,
          { cache := (init_fftw_resources envThirdAllocFails 8 8 24 worldBuilt4x4).2.cache,
            log := (init_fftw_resources envThirdAllocFails 8 8 24 worldBuilt4x4).2.log
              ++ [Call.fprintf_stderr] }) :=
  (C10_failed_resolution_leaves_framebuffer binary32 envThirdAllocFails fftw1x1
    libmArbitrary (some 9)
    scratchZero
    (fun i => i % 256) 8 8 24 4 8 worldBuilt4x4 (by decide)).1

/-! ## Projection and write-back -/

/-- Luminance sample written by the projection for the pixel `(x, y)`. -/
theorem project_cell {K : Type} [LinearOrderedField K] (fb : Nat → Nat) (w h ll : Nat)
    (lum : Nat → K) (y x : Nat) (hy : y < h) (hx : x < w) :
    fft2d_grayscale_project fb w h ll lum (y * w + x)
      = (((fb (y * ll + x * 3 + 0) + fb (y * ll + x * 3 + 1) + fb (y * ll + x * 3 + 2)) / 3
          : Nat) : K) := by
  refine forRange_once _ _ y (fun _ => (((fb (y * ll + x * 3 + 0) + fb (y * ll + x * 3 + 1)
    + fb (y * ll + x * 3 + 2)) / 3 : Nat) : K)) ?_ h lum hy ?_
  · intro t
    refine forRange_once _ _ x (fun _ => (((fb (y * ll + x * 3 + 0) + fb (y * ll + x * 3 + 1)
      + fb (y * ll + x * 3 + 2)) / 3 : Nat) : K)) ?_ w t hx ?_
    · intro t
      simp [store]
    · intro k hk hne t
      have : ¬ (y * w + x = y * w + k) := by omega
      simp [store, this]
  · intro k hk hne t
    refine forRange_untouched _ _ w t ?_
    intro j hj t
    have : ¬ (y * w + x = k * w + j) := fun e => hne (idx_inj hx hj e).1.symm
    simp [store, this]

/-- The byte that the write-back stores in the three channels of the pixel `(x, y)`. -/
theorem write_cell {K : Type} [LinearOrderedField K] [FloorRing K] (F : FloatSem K)
    (res : Nat → K) (w h ll : Nat) (fb : Nat → Nat) (y x c : Nat) (hy : y < h) (hx : x < w)
    (hc : c < 3) (hll : 3 * w ≤ ll) :
    ifft2d_grayscale_write F res w h ll fb (y * ll + x * 3 + c)
      = ((if F.toInt (F.rnd (res (y * w + x) * F.rnd (1 / F.rnd ((w * h : Nat) : K)))) < 0
            then (0 : Int)
          else if F.toInt (F.rnd (res (y * w + x) * F.rnd (1 / F.rnd ((w * h : Nat) : K))))
              > 255 then 255
          else F.toInt (F.rnd (res (y * w + x) * F.rnd (1 / F.rnd ((w * h : Nat) : K)))))
          % 256).toNat := by
  have hb : x * 3 + c < ll := by omega
  refine forRange_once _ _ y (fun _ => _) ?_ h fb hy ?_
  · intro t
    refine forRange_once _ _ x (fun _ => _) ?_ w t hx ?_
    · intro t
      have c3 : c = 0 ∨ c = 1 ∨ c = 2 := by omega
      rcases c3 with rfl | rfl | rfl <;>
        simp [ifft2d_grayscale_write_body, store]
    · intro k hk hne t
      have n0 : ¬ (y * ll + x * 3 + c = y * ll + k * 3) := by omega
      have n1 : ¬ (y * ll + x * 3 + c = y * ll + k * 3 + 1) := by omega
      have n2 : ¬ (y * ll + x * 3 + c = y * ll + k * 3 + 2) := by omega
      simp [ifft2d_grayscale_write_body, store, n0, n1, n2]
  · intro k hk hne t
    refine forRange_untouched _ _ w t ?_
    intro j hj t
    have n0 : ¬ (y * ll + x * 3 + c = k * ll + j * 3) := by
      intro e
      have e' : y * ll + (x * 3 + c) = k * ll + (j * 3) := by omega
      exact hne (idx_inj hb (by omega) e').1.symm
    have n1 : ¬ (y * ll + x * 3 + c = k * ll + j * 3 + 1) := by
      intro e
      have e' : y * ll + (x * 3 + c) = k * ll + (j * 3 + 1) := by omega
      exact hne (idx_inj hb (by omega) e').1.symm
    have n2 : ¬ (y * ll + x * 3 + c = k * ll + j * 3 + 2) := by
      intro e
      have e' : y * ll + (x * 3 + c) = k * ll + (j * 3 + 2) := by omega
      exact hne (idx_inj hb (by omega) e').1.symm
    simp [ifft2d_grayscale_write_body, store, n0, n1, n2]

/-- The write-back touches no byte other than the three channels of the pixels. -/
theorem write_other {K : Type} [LinearOrderedField K] [FloorRing K] (F : FloatSem K)
    (res : Nat → K) (w h ll : Nat) (fb : Nat → Nat) (i : Nat)
    (hne : ∀ y x c, y < h → x < w → c < 3 → i ≠ y * ll + x * 3 + c) :
    ifft2d_grayscale_write F res w h ll fb i = fb i := by
  refine forRange_untouched _ _ h fb ?_
  intro y hy t
  refine forRange_untouched _ _ w t ?_
  intro x hx t
  have n0 : ¬ (i = y * ll + x * 3) := hne y x 0 hy hx (by decide)
  have n1 : ¬ (i = y * ll + x * 3 + 1) := hne y x 1 hy hx (by decide)
  have n2 : ¬ (i = y * ll + x * 3 + 2) := hne y x 2 hy hx (by decide)
  simp [ifft2d_grayscale_write_body, store, n0, n1, n2]

/-! ## Flat fields through the pipeline -/

theorem idx_lt {w h y x : Nat} (hy : y < h) (hx : x < w) : y * w + x < w * h := by
  have h1 : (y + 1) * w ≤ h * w := Nat.mul_le_mul_right w hy
  have h2 : (y + 1) * w = y * w + w := by ring
  have h3 : h * w = w * h := Nat.mul_comm h w
  omega

/-- The centre cell is never attenuated. -/
theorem attenuation_center {K : Type} [LinearOrderedField K] [FloorRing K] (m : Libm K)
    (w h : Nat) (rmin dv : K) (cell : fftwf_complex K) :
    attenuation m w h rmin dv (w / 2) (h / 2) cell = 1 := by
  unfold attenuation
  simp only [radius_squared_center]
  rw [if_neg (not_lt.mpr (mul_self_nonneg _)), if_pos (mul_self_nonneg _)]

/-- The conversion to `int` of a `float` holding a natural number is that number. -/
theorem truncf_natCast {K : Type} [LinearOrderedField K] [FloorRing K] (n : Nat) :
    truncf ((n : Nat) : K) = (n : Int) := by
  unfold truncf
  rw [if_pos (Nat.cast_nonneg n), Int.floor_natCast]

/-- Centring then filtering a half-spectrum that is `(D, 0)` at the zero frequency and 0
elsewhere leaves, in the directly copied cells, `(D, 0)` at the centre and 0 elsewhere. -/
theorem filter_center_flat {K : Type} [LinearOrderedField K] [FloorRing K] (m : Libm K)
    (H fresh : Nat → fftwf_complex K) (w h : Nat) (rmin dv D : K) (hw : 1 ≤ w)
    (hH : ∀ v u, v < h → u ≤ w / 2 →
      H (v * (w / 2 + 1) + u) = if v = 0 ∧ u = 0 then (D, 0) else (0, 0))
    (y x : Nat) (hy : y < h) (hx : x ≤ w / 2) :
    filter_spectrum_for_kaleido m (fft2d_grayscale_center H w h fresh) w h rmin dv
        ((y + h / 2) % h * w + (x + w / 2) % w)
      = if y = 0 ∧ x = 0 then (D, 0) else (0, 0) := by
  have hh : 0 < h := by omega
  rw [filter_cell_result m _ w h rmin dv _ _ (Nat.mod_lt _ (by omega)) (Nat.mod_lt _ hh),
    center_direct H w h fresh y x hy hx hw, hH y x hy hx]
  by_cases h0 : y = 0 ∧ x = 0
  · obtain ⟨rfl, rfl⟩ := h0
    have e1 : (0 + w / 2) % w = w / 2 := by
      rw [Nat.zero_add]; exact Nat.mod_eq_of_lt (by omega)
    have e2 : (0 + h / 2) % h = h / 2 := by
      rw [Nat.zero_add]; exact Nat.mod_eq_of_lt (by omega)
    simp only [e1, e2, and_self, if_true, attenuation_center, mul_one]
  · simp only [h0, if_false, zero_mul]

/-- The exact transform pair satisfies the flat-field equations at size 4×4. -/
theorem fftwExact4_exactOnFlat_4x4 : (fftwExact4 : Fftw ℚ).exactOnFlat 4 4 := by
  constructor
  · intro c lum hl v u hv hu
    have hu' : u < 3 := by omega
    have l : ∀ i, i < 16 → lum i = c := hl
    interval_cases v <;> interval_cases u <;>
      simp [fftwExact4, dft_r2c_exact4, forRange, cadd, cmul, twiddle4,
        l 0, l 1, l 2, l 3, l 4, l 5, l 6, l 7, l 8, l 9, l 10, l 11, l 12, l 13, l 14, l 15]
    ring
  · intro d half hH i hi
    have hi' : i < 16 := hi
    have e : ∀ v u, v < 4 → u < 3 →
        half (v * 3 + u) = if v = 0 ∧ u = 0 then (d, 0) else (0, 0) :=
      fun v u hv hu => hH v u hv (by omega)
    have e0 := e 0 0 (by decide) (by decide)
    have e1 := e 0 1 (by decide) (by decide)
    have e2 := e 0 2 (by decide) (by decide)
    have e3 := e 1 0 (by decide) (by decide)
    have e4 := e 1 1 (by decide) (by decide)
    have e5 := e 1 2 (by decide) (by decide)
    have e6 := e 2 0 (by decide) (by decide)
    have e7 := e 2 1 (by decide) (by decide)
    have e8 := e 2 2 (by decide) (by decide)
    have e9 := e 3 0 (by decide) (by decide)
    have e10 := e 3 1 (by decide) (by decide)
    have e11 := e 3 2 (by decide) (by decide)
    norm_num at e0 e1 e2 e3 e4 e5 e6 e7 e8 e9 e10 e11
    interval_cases i <;>
      simp [fftwExact4, dft_c2r_exact4, forRange, cadd, cmul, twiddle4, conj,
        e0, e1, e2, e3, e4, e5, e6, e7, e8, e9, e10, e11]

/-! ## Claims about the life cycle of the cache -/

/-- A call that is not served from the cache leaves the cache empty or built by that very
call. -/
theorem init_miss_cases (env : Env) (width height line_length : Int) (s : World)
    (hmiss : ¬ (s.cache.g_initialized ≠ 0 ∧ s.cache.g_width = width ∧
      s.cache.g_height = height ∧ s.cache.g_line_length = line_length)) :
    (init_fftw_resources env width height line_length s).2.cache = Cache.empty ∨
    (init_fftw_resources env width height line_length s).2.cache.builtBy env width height
      line_length := by
  rcases hp0 : env.fftwf_malloc 0 (4 * width * height) with _ | p0
  · exact Or.inl (init_miss_failure env width height line_length s hmiss (Or.inl hp0)).2
  rcases hp1 : env.fftwf_malloc 1 (8 * width * height) with _ | p1
  · exact Or.inl (init_miss_failure env width height line_length s hmiss
      (Or.inr (Or.inl hp1))).2
  rcases hp2 : env.fftwf_malloc 2 (4 * width * height) with _ | p2
  · exact Or.inl (init_miss_failure env width height line_length s hmiss
      (Or.inr (Or.inr (Or.inl hp2)))).2
  rcases hp3 : env.fftwf_malloc 3 (8 * height * (Int.tdiv width 2 + 1)) with _ | p3
  · exact Or.inl (init_miss_failure env width height line_length s hmiss
      (Or.inr (Or.inr (Or.inr (Or.inl hp3))))).2
  rcases hq0 : env.fftwf_plan_dft_r2c_2d height width with _ | q0
  · exact Or.inl (init_miss_failure env width height line_length s hmiss
      (Or.inr (Or.inr (Or.inr (Or.inr (Or.inl hq0)))))).2
  rcases hq1 : env.fftwf_plan_dft_c2r_2d height width with _ | q1
  · exact Or.inl (init_miss_failure env width height line_length s hmiss
      (Or.inr (Or.inr (Or.inr (Or.inr (Or.inr hq1)))))).2
  right
  refine ⟨p0, p1, p2, p3, q0, q1, hp0, hp1, hp2, hp3, hq0, hq1, ?_⟩
  unfold init_fftw_resources
  rw [if_neg hmiss]
  simp [hp0, hp1, hp2, hp3, hq0, hq1, cleanup_cache_empty, Cache.empty]

/-- On an empty cache tearing down makes no external call and changes nothing. -/
theorem cleanup_of_empty (s : World) (he : s.cache = Cache.empty) :
    cleanup_fftw_resources s = s := by
  obtain ⟨c, log⟩ := s
  simp only at he
  subst he
  rfl

/-- Tearing down twice is tearing down once. -/
theorem cleanup_idempotent (s : World) :
    cleanup_fftw_resources (cleanup_fftw_resources s) = cleanup_fftw_resources s :=
  cleanup_of_empty _ (cleanup_cache_empty s)

/-- C12: `cleanup_fftw_resources` leaves the cache empty from any state; it is idempotent;
and on an already empty cache it makes no external call (releases nothing) and leaves the
state unchanged. -/
theorem C12_cleanup_empties_and_is_idempotent (s : World) :
    (cleanup_fftw_resources s).cache = Cache.empty ∧
    cleanup_fftw_resources (cleanup_fftw_resources s) = cleanup_fftw_resources s ∧
    (s.cache = Cache.empty → cleanup_fftw_resources s = s) := by
  exact ⟨cleanup_cache_empty s, cleanup_idempotent s, cleanup_of_empty s⟩

theorem C12_cleanup_empties_and_is_idempotent_witness :
    (cleanup_fftw_resources worldBuilt4x4).cache = Cache.empty ∧
    (cleanup_fftw_resources worldBuilt4x4).log
      = [Call.fftwf_destroy_plan 1, Call.fftwf_free 2, Call.fftwf_free 3,
         Call.fftwf_destroy_plan 4, Call.fftwf_free 5, Call.fftwf_free 6] ∧
    cleanup_fftw_resources (cleanup_fftw_resources worldBuilt4x4)
      = cleanup_fftw_resources worldBuilt4x4 :=
  ⟨(C12_cleanup_empties_and_is_idempotent worldBuilt4x4).1, by decide,
   (C12_cleanup_empties_and_is_idempotent worldBuilt4x4).2.1⟩

/-! ## Claims about projection and write-back -/

/-- The projection writes no luminance sample at or beyond index `width * height`. -/
theorem project_other {K : Type} [LinearOrderedField K] (fb : Nat → Nat) (w h ll : Nat)
    (lum : Nat → K) (i : Nat) (hi : w * h ≤ i) :
    fft2d_grayscale_project fb w h ll lum i = lum i := by
  refine forRange_untouched _ _ h lum ?_
  intro y hy t
  refine forRange_untouched _ _ w t ?_
  intro x hx t
  have hlt := idx_lt hy hx
  have hne : ¬ (i = y * w + x) := by omega
  simp [store, hne]

/-- C13 as stated fails: the source divides the `int` sum `r + g + b` by the `int` 3, so the
sample is the integer quotient and not the average.  For a 1×1 image with the bytes
`(0, 0, 1)` the sample written is 0, while the average of the three channels is `1/3`. -/
theorem C13_projection_drops_the_remainder :
    fft2d_grayscale_project (fun i => if i = 2 then 1 else 0) 1 1 3 (fun _ => (7 : ℚ))
        (0 * 1 + 0) = 0 ∧
    (((0 : Nat) : ℚ) + ((0 : Nat) : ℚ) + ((1 : Nat) : ℚ)) / 3 = 1 / 3 ∧
    fft2d_grayscale_project (fun i => if i = 2 then 1 else 0) 1 1 3 (fun _ => (7 : ℚ))
        (0 * 1 + 0)
      ≠ ((((fun i => if i = 2 then 1 else 0) (0 * 3 + 0 * 3 + 0) : Nat) : ℚ)
        + (((fun i => if i = 2 then 1 else 0) (0 * 3 + 0 * 3 + 1) : Nat) : ℚ)
        + (((fun i => if i = 2 then 1 else 0) (0 * 3 + 0 * 3 + 2) : Nat) : ℚ)) / 3 := by
  have e : fft2d_grayscale_project (fun i => if i = 2 then 1 else 0) 1 1 3
      (fun _ => (7 : ℚ)) (0 * 1 + 0) = 0 := by
    rw [project_cell _ 1 1 3 _ 0 0 (by decide) (by decide)]
    norm_num
  refine ⟨e, by norm_num, ?_⟩
  rw [e]
  norm_num

/-- C13 (amended): for every pixel `(x, y)` in range, the luminance sample written at index
`y*width + x` is the integer quotient `⌊(R+G+B)/3⌋`, where `R, G, B` are the bytes at offsets
`y*stride + 3x + 0, 1, 2` of the framebuffer (the division is the `int` division of the
source, its result converted to `float`); the projection only returns the luminance buffer
(the framebuffer is read, never written) and leaves every sample at or beyond `width*height`
as it was. -/
theorem C13_projection_is_integer_quotient {K : Type} [LinearOrderedField K]
    (input_data : Nat → Nat) (width height line_length : Nat) (g_fft_input_tmp : Nat → K) :
    (∀ y x, y < height → x < width →
      fft2d_grayscale_project input_data width height line_length g_fft_input_tmp
          (y * width + x)
        = (((input_data (y * line_length + x * 3 + 0) + input_data (y * line_length + x * 3 + 1)
            + input_data (y * line_length + x * 3 + 2)) / 3 : Nat) : K)) ∧
    (∀ i, width * height ≤ i →
      fft2d_grayscale_project input_data width height line_length g_fft_input_tmp i
        = g_fft_input_tmp i) :=
  ⟨fun y x hy hx => project_cell input_data width height line_length g_fft_input_tmp y x hy hx,
   fun i hi => project_other input_data width height line_length g_fft_input_tmp i hi⟩

theorem C13_projection_is_integer_quotient_witness :
    fft2d_grayscale_project flatFb4x4 4 4 13 (fun _ => (0 : ℚ)) (2 * 4 + 3) = 20 := by
  rw [(C13_projection_is_integer_quotient flatFb4x4 4 4 13 (fun _ => (0 : ℚ))).1 2 3
    (by decide) (by decide)]
  decide

/-! ## Claims about the pass band -/

theorem is_pixel_colored_iff (data : Int → Nat) (stride tolerance x y : Int) :
    is_pixel_colored (data (y * stride + x * 3 + 0)) (data (y * stride + x * 3 + 1))
      (data (y * stride + x * 3 + 2)) tolerance = true ↔
    pixelColored data stride tolerance x y := by
  simp [is_pixel_colored, pixelColored, or_assoc]

/-- An early-exit loop returns `true` exactly when some iteration reached under the guard
hits. -/
theorem scanFrom_true_iff (cond hit : Int → Bool) :
    ∀ (fuel : Nat) (i : Int), scanFrom cond hit fuel i = true ↔
      ∃ k : Nat, k < fuel ∧ hit (i + k) = true ∧ ∀ j : Nat, j ≤ k → cond (i + j) = true
  | 0, i => by simp [scanFrom]
  | fuel + 1, i => by
    rw [scanFrom]
    by_cases hc : cond i = true
    · rw [if_pos hc]
      by_cases hh : hit i = true
      · rw [if_pos hh]
        refine iff_of_true rfl ⟨0, by omega, by simpa using hh, ?_⟩
        intro j hj
        have : j = 0 := by omega
        subst this
        simpa using hc
      · rw [if_neg hh, scanFrom_true_iff cond hit fuel (i + 1)]
        constructor
        · rintro ⟨k, hk, hhit, hcond⟩
          refine ⟨k + 1, by omega, ?_, ?_⟩
          · have e : i + ((k + 1 : Nat) : Int) = i + 1 + (k : Int) := by push_cast; ring
            rw [e]; exact hhit
          · intro j hj
            rcases Nat.eq_zero_or_pos j with rfl | hpos
            · simpa using hc
            · obtain ⟨j', rfl⟩ : ∃ j', j = j' + 1 := ⟨j - 1, by omega⟩
              have e : i + ((j' + 1 : Nat) : Int) = i + 1 + (j' : Int) := by push_cast; ring
              rw [e]; exact hcond j' (by omega)
        · rintro ⟨k, hk, hhit, hcond⟩
          rcases Nat.eq_zero_or_pos k with rfl | hpos
          · exfalso
            apply hh
            simpa using hhit
          · obtain ⟨k', rfl⟩ : ∃ k', k = k' + 1 := ⟨k - 1, by omega⟩
            refine ⟨k', by omega, ?_, ?_⟩
            · have e : i + 1 + (k' : Int) = i + ((k' + 1 : Nat) : Int) := by push_cast; ring
              rw [e]; exact hhit
            · intro j hj
              have e : i + 1 + (j : Int) = i + ((j + 1 : Nat) : Int) := by push_cast; ring
              rw [e]; exact hcond (j + 1) (by omega)
    · rw [if_neg hc]
      constructor
      · intro h
        exact absurd h (by simp)
      · rintro ⟨k, _, _, hcond⟩
        exfalso
        apply hc
        simpa using hcond 0 (Nat.zero_le k)

/-- A loop over `start ≤ t < start + len`, `t < lim`, with `len` iterations allowed, returns
`true` exactly when some `t` in that range hits. -/
theorem scanFrom_bounded_iff (hit : Int → Bool) (start len lim : Int) :
    scanFrom (fun t => decide (t < start + len) && decide (t < lim)) hit len.toNat start = true
      ↔ ∃ t : Int, start ≤ t ∧ t < start + len ∧ t < lim ∧ hit t = true := by
  rw [scanFrom_true_iff]
  constructor
  · rintro ⟨k, hk, hhit, hcond⟩
    have hc := hcond k (le_refl k)
    simp only [Bool.and_eq_true, decide_eq_true_eq] at hc
    exact ⟨start + k, by omega, hc.1, hc.2, hhit⟩
  · rintro ⟨t, h1, h2, h3, hhit⟩
    refine ⟨(t - start).toNat, by omega, ?_, ?_⟩
    · have e : start + ((t - start).toNat : Int) = t := by omega
      rw [e]; exact hhit
    · intro j hj
      simp only [Bool.and_eq_true, decide_eq_true_eq]
      omega

/-- The scalar block function returns `true` exactly when the part of the block inside the
image holds a coloured pixel. -/
theorem is_block_colored_scalar_iff (data : Int → Nat) (stride x_start y_start block_width
    block_height img_width img_height tolerance : Int) :
    is_block_colored_scalar data stride x_start y_start block_width block_height img_width
        img_height tolerance = true ↔
      ∃ x y : Int, x_start ≤ x ∧ x < x_start + block_width ∧ x < img_width ∧
        y_start ≤ y ∧ y < y_start + block_height ∧ y < img_height ∧
        pixelColored data stride tolerance x y := by
  unfold is_block_colored_scalar
  rw [scanFrom_bounded_iff]
  constructor
  · rintro ⟨y, hy1, hy2, hy3, hrow⟩
    rw [scanFrom_bounded_iff] at hrow
    obtain ⟨x, hx1, hx2, hx3, hpix⟩ := hrow
    exact ⟨x, y, hx1, hx2, hx3, hy1, hy2, hy3, (is_pixel_colored_iff data stride tolerance x y).1 hpix⟩
  · rintro ⟨x, y, hx1, hx2, hx3, hy1, hy2, hy3, hpix⟩
    refine ⟨y, hy1, hy2, hy3, ?_⟩
    rw [scanFrom_bounded_iff]
    exact ⟨x, hx1, hx2, hx3, (is_pixel_colored_iff data stride tolerance x y).2 hpix⟩

/-- A loop that sets a flag when an iteration finds something, and skips the iterations that
follow: the flag ends `true` exactly when it started `true` or some iteration finds. -/
theorem forRange_flag_iff (p : Nat → Bool) :
    ∀ (n : Nat) (f0 : Bool),
      forRange (fun k f => if f then f else (if p k then true else f)) n f0 = true ↔
        f0 = true ∨ ∃ k, k < n ∧ p k = true
  | 0, f0 => by simp [forRange]
  | n + 1, f0 => by
    rw [forRange]
    have ih := forRange_flag_iff p n f0
    by_cases hf : forRange (fun k f => if f then f else (if p k then true else f)) n f0 = true
    · rw [if_pos hf]
      rw [hf]
      refine iff_of_true rfl ?_
      rcases ih.1 hf with h | ⟨k, hk, hp⟩
      · exact Or.inl h
      · exact Or.inr ⟨k, by omega, hp⟩
    · rw [if_neg hf]
      have hnot : ¬ (f0 = true ∨ ∃ k, k < n ∧ p k = true) := fun h => hf (ih.2 h)
      by_cases hp : p n = true
      · rw [if_pos hp]
        exact iff_of_true rfl (Or.inr ⟨n, by omega, hp⟩)
      · rw [if_neg hp]
        refine iff_of_false hf ?_
        rintro (h | ⟨k, hk, hpk⟩)
        · exact hnot (Or.inl h)
        · rcases Nat.lt_succ_iff_lt_or_eq.1 hk with h | rfl
          · exact hnot (Or.inr ⟨k, h, hpk⟩)
          · exact hp hpk

/-- Two nested flag loops: the flag ends `true` exactly when some pair of iterations finds. -/
theorem forRange_flag_nested (q : Nat → Nat → Bool) (m : Nat) :
    ∀ n : Nat,
      forRange (fun ky f =>
          forRange (fun kx f => if f then f else (if q ky kx then true else f)) m f) n false
        = true ↔ ∃ ky kx, ky < n ∧ kx < m ∧ q ky kx = true
  | 0 => by simp [forRange]
  | n + 1 => by
    rw [forRange, forRange_flag_iff (q n) m, forRange_flag_nested q m n]
    constructor
    · rintro (⟨ky, kx, hky, hkx, h⟩ | ⟨kx, hkx, h⟩)
      · exact ⟨ky, kx, by omega, hkx, h⟩
      · exact ⟨n, kx, by omega, hkx, h⟩
    · rintro ⟨ky, kx, hky, hkx, h⟩
      rcases Nat.lt_succ_iff_lt_or_eq.1 hky with hlt | rfl
      · exact Or.inl ⟨ky, kx, hlt, hkx, h⟩
      · exact Or.inr ⟨kx, hkx, h⟩

/-- C16: `is_framebuffer_colored` (scalar block path, blocks of 8×16) returns `true` if and
only if some pixel `(x, y)` with `0 ≤ x < width`, `0 ≤ y < height` has `|R-G| > tolerance` or
`|R-B| > tolerance` or `|G-B| > tolerance`, for every image, stride and tolerance; in
particular it returns `false` when `width ≤ 0` or `height ≤ 0`. -/
theorem C16_framebuffer_colored_iff_some_pixel_colored (data : Int → Nat)
    (width height stride tolerance : Int) :
    (is_framebuffer_colored data width height stride tolerance = true ↔
      ∃ x y : Int, 0 ≤ x ∧ x < width ∧ 0 ≤ y ∧ y < height ∧
        pixelColored data stride tolerance x y) ∧
    (width ≤ 0 ∨ height ≤ 0 →
      is_framebuffer_colored data width height stride tolerance = false) := by
  have main : is_framebuffer_colored data width height stride tolerance = true ↔
      ∃ x y : Int, 0 ≤ x ∧ x < width ∧ 0 ≤ y ∧ y < height ∧
        pixelColored data stride tolerance x y := by
    refine (forRange_flag_nested (fun ky kx => is_block_colored_scalar data stride
      ((kx * 8 : Nat) : Int) ((ky * 16 : Nat) : Int) ((8 : Nat) : Int) ((16 : Nat) : Int)
      width height tolerance) ((width.toNat + 8 - 1) / 8)
      ((height.toNat + 16 - 1) / 16)).trans ?_
    constructor
    · rintro ⟨ky, kx, _, _, hb⟩
      obtain ⟨x, y, hx1, _, hx3, hy1, _, hy3, hpix⟩ :=
        (is_block_colored_scalar_iff _ _ _ _ _ _ _ _ _).1 hb
      exact ⟨x, y, by omega, hx3, by omega, hy3, hpix⟩
    · rintro ⟨x, y, hx0, hx1, hy0, hy1, hpix⟩
      refine ⟨y.toNat / 16, x.toNat / 8, by omega, by omega, ?_⟩
      refine (is_block_colored_scalar_iff _ _ _ _ _ _ _ _ _).2
        ⟨x, y, by omega, by omega, hx1, by omega, by omega, hy1, hpix⟩
  refine ⟨main, ?_⟩
  intro hdim
  rw [← Bool.not_eq_true, main]
  rintro ⟨x, y, hx0, hx1, hy0, hy1, _⟩
  omega

theorem C16_framebuffer_colored_iff_some_pixel_colored_witness :
    is_framebuffer_colored (fun o => if o = 1 * 40 + 9 * 3 + 2 then 50 else 7) 10 2 40 20
      = true :=
  (C16_framebuffer_colored_iff_some_pixel_colored
    (fun o => if o = 1 * 40 + 9 * 3 + 2 then 50 else 7) 10 2 40 20).1.2
    ⟨9, 1, by decide, by decide, by decide, by decide, Or.inr (Or.inl (by decide))⟩

/-! ## Claims about the blocked traversal -/

/-- The traversal applies the work of the cell `(px, py)` to index `py * width + px` exactly
once, when the work on a cell changes that index only. -/
theorem blocked_sweep_cell {α : Type} (cell : Nat → Nat → (Nat → α) → (Nat → α))
    (g : Nat → Nat → α → α) (w h : Nat)
    (hsame : ∀ px py t, cell px py t (py * w + px) = g px py (t (py * w + px)))
    (hother : ∀ px py t i, i ≠ py * w + px → cell px py t i = t i)
    (s : Nat → α) (px py : Nat) (hpx : px < w) (hpy : py < h) :
    blocked_sweep cell w h s (py * w + px) = g px py (s (py * w + px)) := by
  unfold blocked_sweep forStep BLOCK_HEIGHT BLOCK_WIDTH
  refine forRange_once _ _ (py / 32) (g px py) ?_ _ s (by omega) ?_
  · intro t
    refine forRange_once _ _ (px / 32) (g px py) ?_ _ t (by omega) ?_
    · intro t
      refine forRange_once _ _ (py % 32) (g px py) ?_ _ t (by split <;> omega) ?_
      · intro t
        refine forRange_once _ _ (px % 32) (g px py) ?_ _ t (by split <;> omega) ?_
        · intro t
          have e1 : px / 32 * 32 + px % 32 = px := by omega
          have e2 : py / 32 * 32 + py % 32 = py := by omega
          simp only [e1, e2]
          exact hsame px py t
        · intro x hx hne t
          refine hother _ _ t _ ?_
          intro e
          have hx' : px / 32 * 32 + x < w := by
            revert hx; split <;> omega
          have := (idx_inj hpx hx' e).2
          omega
      · intro y hy hne t
        refine forRange_untouched _ _ _ t ?_
        intro x hx t
        refine hother _ _ t _ ?_
        intro e
        have hx' : px / 32 * 32 + x < w := by
          revert hx; split <;> omega
        have := (idx_inj hpx hx' e).1
        omega
    · intro kx hkx hne t
      refine forRange_untouched _ _ _ t ?_
      intro y hy t
      refine forRange_untouched _ _ _ t ?_
      intro x hx t
      refine hother _ _ t _ ?_
      intro e
      have hx' : kx * 32 + x < w := by
        revert hx; split <;> omega
      have hx32 : x < 32 := by
        revert hx; split <;> omega
      have := (idx_inj hpx hx' e).2
      omega
  · intro ky hky hne t
    refine forRange_untouched _ _ _ t ?_
    intro kx hkx t
    refine forRange_untouched _ _ _ t ?_
    intro y hy t
    refine forRange_untouched _ _ _ t ?_
    intro x hx t
    refine hother _ _ t _ ?_
    intro e
    have hx' : kx * 32 + x < w := by
      revert hx; split <;> omega
    have hy32 : y < 32 := by
      revert hy; split <;> omega
    have := (idx_inj hpx hx' e).1
    omega

/-- The traversal leaves every index at or beyond `width * height` alone. -/
theorem blocked_sweep_outside {α : Type} (cell : Nat → Nat → (Nat → α) → (Nat → α))
    (w h : Nat) (hother : ∀ px py t i, i ≠ py * w + px → cell px py t i = t i)
    (s : Nat → α) (i : Nat) (hi : w * h ≤ i) :
    blocked_sweep cell w h s i = s i := by
  unfold blocked_sweep forStep BLOCK_HEIGHT BLOCK_WIDTH
  refine forRange_untouched _ _ _ s ?_
  intro ky hky t
  refine forRange_untouched _ _ _ t ?_
  intro kx hkx t
  refine forRange_untouched _ _ _ t ?_
  intro y hy t
  refine forRange_untouched _ _ _ t ?_
  intro x hx t
  refine hother _ _ t _ ?_
  have hx' : kx * 32 + x < w := by
    revert hx; split <;> omega
  have hy' : ky * 32 + y < h := by
    revert hy; split <;> omega
  have := idx_lt hy' hx'
  omega

/-- The rounded filter replaces each cell of the `width × height` spectrum once, by the
rounded products of its two parts with its own rounded attenuation. -/
theorem filter_rounded_cell_result {K : Type} [LinearOrderedField K] [FloorRing K]
    (F : FloatSem K) (m : Libm K) (s : Nat → fftwf_complex K) (w h : Nat) (rmin dv : K)
    (px py : Nat) (hpx : px < w) (hpy : py < h) :
    filter_spectrum_for_kaleido_rounded F m s w h rmin dv (py * w + px) =
      (F.rnd ((s (py * w + px)).1
          * attenuation_rounded F m w h rmin dv px py (s (py * w + px))),
       F.rnd ((s (py * w + px)).2
          * attenuation_rounded F m w h rmin dv px py (s (py * w + px)))) := by
  show blocked_sweep (filter_spectrum_cell_rounded F m w h rmin dv) w h s (py * w + px) = _
  exact blocked_sweep_cell _
    (fun px py c => (F.rnd (c.1 * attenuation_rounded F m w h rmin dv px py c),
      F.rnd (c.2 * attenuation_rounded F m w h rmin dv px py c))) w h
    (fun px py t => filter_rounded_cell_same F m w h rmin dv px py t)
    (fun px py t i hne => filter_rounded_cell_other F m w h rmin dv px py t i hne)
    s px py hpx hpy

/-- C17: the 32×32 blocked traversal of `filter_spectrum_for_kaleido` is a plain per-cell
map, for every width and height (multiples of 32 or not): the filter is the traversal with
`filter_spectrum_cell` as the work on a cell; its result equals, at every index, the
per-coordinate map of the specification (own value times an attenuation computed from
`(px, py)`, that value and the parameters; indices beyond the spectrum untouched); and the
traversal visits every index `py*width + px`, `px < width`, `py < height`, exactly once and
no other index. -/
theorem C17_blocked_traversal_is_per_cell_map {K : Type} [LinearOrderedField K] [FloorRing K]
    (m : Libm K) (spectrum : Nat → fftwf_complex K) (width height : Nat)
    (param_radius_min param_radius_max_diviser : K) :
    filter_spectrum_for_kaleido m spectrum width height param_radius_min
        param_radius_max_diviser
      = blocked_sweep
          (filter_spectrum_cell m width height param_radius_min param_radius_max_diviser)
          width height spectrum ∧
    (∀ i, filter_spectrum_for_kaleido m spectrum width height param_radius_min
        param_radius_max_diviser i
      = filter_per_cell_spec m spectrum width height param_radius_min
          param_radius_max_diviser i) ∧
    (∀ px py, px < width → py < height → sweep_visits width height (py * width + px) = 1) ∧
    (∀ i, width * height ≤ i → sweep_visits width height i = 0) := by
  have hdef : filter_spectrum_for_kaleido m spectrum width height param_radius_min
      param_radius_max_diviser
      = blocked_sweep
          (filter_spectrum_cell m width height param_radius_min param_radius_max_diviser)
          width height spectrum := rfl
  refine ⟨hdef, ?_, ?_, ?_⟩
  · intro i
    unfold filter_per_cell_spec
    by_cases hi : i < width * height
    · rw [if_pos hi]
      have hw : 0 < width := by
        rcases Nat.eq_zero_or_pos width with h0 | h0
        · rw [h0, Nat.zero_mul] at hi
          exact absurd hi (Nat.not_lt_zero _)
        · exact h0
      have hpy : i / width < height := (Nat.div_lt_iff_lt_mul hw).mpr (by
        rw [Nat.mul_comm]; exact hi)
      have hpx : i % width < width := Nat.mod_lt _ hw
      have hidx : i / width * width + i % width = i := by
        rw [Nat.mul_comm]; exact Nat.div_add_mod i width
      have h := filter_cell_result m spectrum width height param_radius_min
        param_radius_max_diviser (i % width) (i / width) hpx hpy
      rw [hidx] at h
      exact h
    · rw [if_neg hi, hdef]
      exact blocked_sweep_outside _ width height
        (fun px py t j hj => filter_cell_other m width height param_radius_min
          param_radius_max_diviser px py t j hj)
        spectrum i (not_lt.mp hi)
  · intro px py hpx hpy
    unfold sweep_visits
    rw [blocked_sweep_cell _ (fun _ _ c => c + 1) width height
      (fun px py t => by simp [store])
      (fun px py t j hj => by simp [store, hj]) _ px py hpx hpy]
  · intro i hi
    unfold sweep_visits
    rw [blocked_sweep_outside _ width height
      (fun px py t j hj => by simp [store, hj]) _ i hi]

theorem C17_blocked_traversal_is_per_cell_map_witness :
    sweep_visits 40 33 (32 * 40 + 39) = 1 :=
  (C17_blocked_traversal_is_per_cell_map libmArbitrary (fun _ => (0, 0)) 40 33 4 8).2.2.1
    39 32 (by decide) (by decide)

/-! ## Claims about the diagonal branch -/

theorem truncf_neg {K : Type} [LinearOrderedField K] [FloorRing K] (q : K) :
    truncf (-q) = -truncf q := by
  unfold truncf
  rcases lt_trichotomy q 0 with h | h | h
  · rw [if_pos (by linarith), if_neg (by linarith), Int.floor_neg]
  · subst h
    simp
  · rw [if_neg (by linarith), if_pos (by linarith), Int.ceil_neg]

theorem fmodf_neg {K : Type} [LinearOrderedField K] [FloorRing K] (x y : K) :
    fmodf (-x) y = -fmodf x y := by
  unfold fmodf
  rw [neg_div, truncf_neg]
  push_cast
  ring

/-- The remainder of `|x|` and the remainder of `x` have the same absolute value: `fmodf`
keeps the sign of its first argument. -/
theorem abs_fmodf_abs {K : Type} [LinearOrderedField K] [FloorRing K] (x y : K) :
    |fmodf |x| y| = |fmodf x y| := by
  rcases le_total 0 x with h | h
  · rw [abs_of_nonneg h]
  · rw [abs_of_nonpos h, fmodf_neg, abs_neg]

theorem fmodf_of_trunc {K : Type} [LinearOrderedField K] [FloorRing K] (x y : K) (n : Int)
    (h : truncf (x / y) = n) : fmodf x y = x - (n : K) * y := by
  unfold fmodf
  rw [h]

theorem PI_pos {K : Type} [LinearOrderedField K] : (0 : K) < PI := by
  unfold PI
  norm_num

/-- In the transition band, away from the axis branch, the attenuation is that of the
diagonal test. -/
theorem attenuation_off_axis {K : Type} [LinearOrderedField K] [FloorRing K] (m : Libm K)
    (w h : Nat) (rmin dv : K) (px py : Nat) (cell : fftwf_complex K)
    (hband1 : rmin * rmin < radius_squared w h px py)
    (hband2 : radius_squared w h px py ≤ radius_max w dv * radius_max w dv)
    (hnotaxis : ¬ ((fmodf |m.atan2f (cell_dy h py) (cell_dx w px)| (PI / 2) < 0.05 ∨
        fmodf |m.atan2f (cell_dy h py) (cell_dx w px)| (PI / 2) > PI / 2 - 0.05) ∧
      radius_squared w h px py > 4 * (rmin * rmin))) :
    attenuation m w h rmin dv px py cell =
      if |fmodf (m.atan2f (cell_dy h py) (cell_dx w px) - PI / 4) (PI / 2)| < 0.1 ∧
          radius_squared w h px py > 4 * (rmin * rmin) then 0.3
      else 1 - (m.sqrtf (radius_squared w h px py) - rmin) / (radius_max w dv - rmin) * 0.2 := by
  unfold attenuation
  unfold cell_dx cell_dy at hnotaxis ⊢
  simp only [gt_iff_lt, not_lt.mpr hband2, if_false, not_le.mpr hband1]
  simp only [gt_iff_lt] at hnotaxis
  rw [if_neg hnotaxis, abs_fmodf_abs, mul_one_div]

theorem truncf_half {K : Type} [LinearOrderedField K] [FloorRing K] :
    truncf ((1 : K) / 2) = 0 := by
  unfold truncf
  rw [if_pos (by norm_num), Int.floor_eq_iff]
  norm_num

theorem truncf_three_halves {K : Type} [LinearOrderedField K] [FloorRing K] :
    truncf ((3 : K) / 2) = 1 := by
  unfold truncf
  rw [if_pos (by norm_num), Int.floor_eq_iff]
  norm_num

theorem fmodf_self_multiple {K : Type} [LinearOrderedField K] [FloorRing K] (y : K) (n : Nat)
    (hy : y ≠ 0) : fmodf ((n : K) * y) y = 0 := by
  rw [fmodf_of_trunc _ y (n : Int) (by rw [mul_div_assoc, div_self hy, mul_one, truncf_natCast])]
  push_cast
  ring

/-- On a diagonal the remainder tested by the axis branch is a quarter of `PI`. -/
theorem diag_axis_remainder {K : Type} [LinearOrderedField K] [FloorRing K] (a : K)
    (ha : a = PI / 4 ∨ a = 3 * PI / 4 ∨ a = -(PI / 4) ∨ a = -(3 * PI / 4)) :
    fmodf |a| (PI / 2) = PI / 4 := by
  have hP : (0 : K) < PI := PI_pos
  have hne : (PI : K) ≠ 0 := ne_of_gt hP
  have q1 : fmodf ((PI : K) / 4) (PI / 2) = PI / 4 := by
    rw [fmodf_of_trunc _ _ 0 (by
      have e : (PI : K) / 4 / (PI / 2) = 1 / 2 := by field_simp; ring
      rw [e, truncf_half])]
    push_cast
    ring
  have q3 : fmodf (3 * (PI : K) / 4) (PI / 2) = PI / 4 := by
    rw [fmodf_of_trunc _ _ 1 (by
      have e : 3 * (PI : K) / 4 / (PI / 2) = 3 / 2 := by field_simp; ring
      rw [e, truncf_three_halves])]
    push_cast
    ring
  rcases ha with rfl | rfl | rfl | rfl
  · rw [abs_of_pos (by positivity), q1]
  · rw [abs_of_pos (by positivity), q3]
  · rw [abs_neg, abs_of_pos (by positivity), q1]
  · rw [abs_neg, abs_of_pos (by positivity), q3]

/-- On a diagonal the remainder tested by the diagonal branch is 0. -/
theorem diag_test_remainder {K : Type} [LinearOrderedField K] [FloorRing K] (a : K)
    (ha : a = PI / 4 ∨ a = 3 * PI / 4 ∨ a = -(PI / 4) ∨ a = -(3 * PI / 4)) :
    fmodf (a - PI / 4) (PI / 2) = 0 := by
  have hP : (0 : K) < PI := PI_pos
  have hne : (PI : K) / 2 ≠ 0 := by positivity
  have z0 := fmodf_self_multiple ((PI : K) / 2) 0 hne
  have z1 := fmodf_self_multiple ((PI : K) / 2) 1 hne
  have z2 := fmodf_self_multiple ((PI : K) / 2) 2 hne
  rcases ha with rfl | rfl | rfl | rfl
  · have e : (PI : K) / 4 - PI / 4 = ((0 : Nat) : K) * (PI / 2) := by push_cast; ring
    rw [e, z0]
  · have e : 3 * (PI : K) / 4 - PI / 4 = ((1 : Nat) : K) * (PI / 2) := by push_cast; ring
    rw [e, z1]
  · have e : -((PI : K) / 4) - PI / 4 = -(((1 : Nat) : K) * (PI / 2)) := by push_cast; ring
    rw [e, fmodf_neg, z1, neg_zero]
  · have e : -(3 * (PI : K) / 4) - PI / 4 = -(((2 : Nat) : K) * (PI / 2)) := by
      push_cast; ring
    rw [e, fmodf_neg, z2, neg_zero]

/-- With `atan2f` exact on the diagonals, a cell with `|dx| = |dy| ≠ 0` has a diagonal
angle. -/
theorem diag_angle {K : Type} [LinearOrderedField K] (m : Libm K) (w h px py : Nat)
    (hexact : m.exactOnDiagonals)
    (habs : |(px : Int) - (w : Int) / 2| = |(py : Int) - (h : Int) / 2|)
    (hne : (px : Int) - (w : Int) / 2 ≠ 0) :
    m.atan2f (cell_dy h py) (cell_dx w px) = PI / 4 ∨
    m.atan2f (cell_dy h py) (cell_dx w px) = 3 * PI / 4 ∨
    m.atan2f (cell_dy h py) (cell_dx w px) = -(PI / 4) ∨
    m.atan2f (cell_dy h py) (cell_dx w px) = -(3 * PI / 4) := by
  unfold cell_dx cell_dy
  generalize (px : Int) - (w : Int) / 2 = dx at habs hne ⊢
  generalize (py : Int) - (h : Int) / 2 = dy at habs ⊢
  have hd : (0 : K) < ((|dx| : Int) : K) := by
    exact_mod_cast abs_pos.mpr hne
  obtain ⟨e1, e2, e3, e4⟩ := hexact _ hd
  rcases abs_eq_abs.1 habs with hxy | hxy <;> rcases lt_or_gt_of_ne hne with hs | hs
  · -- dx = dy < 0
    have ex : ((dx : Int) : K) = -((|dx| : Int) : K) := by
      rw [abs_of_neg hs]; push_cast; ring
    rw [← hxy, ex]
    exact Or.inr (Or.inr (Or.inr e4))
  · -- dx = dy > 0
    have ex : ((dx : Int) : K) = ((|dx| : Int) : K) := by
      rw [abs_of_pos hs]
    rw [← hxy, ex]
    exact Or.inl e1
  · -- dx = -dy, dx < 0, dy > 0
    have ex : ((dx : Int) : K) = -((|dx| : Int) : K) := by
      rw [abs_of_neg hs]; push_cast; ring
    have ey : ((dy : Int) : K) = ((|dx| : Int) : K) := by
      rw [abs_of_neg hs, hxy]; push_cast; ring
    rw [ex, ey]
    exact Or.inr (Or.inl e2)
  · -- dx = -dy, dx > 0, dy < 0
    have ex : ((dx : Int) : K) = ((|dx| : Int) : K) := by
      rw [abs_of_pos hs]
    have ey : ((dy : Int) : K) = -((|dx| : Int) : K) := by
      rw [abs_of_pos hs, hxy]; push_cast; ring
    rw [ex, ey]
    exact Or.inr (Or.inr (Or.inl e3))

/-- A cell on a diagonal does not meet the angular part of the near-axis condition. -/
theorem diag_not_near_axis {K : Type} [LinearOrderedField K] [FloorRing K] (a : K)
    (ha : a = PI / 4 ∨ a = 3 * PI / 4 ∨ a = -(PI / 4) ∨ a = -(3 * PI / 4)) :
    ¬ (fmodf |a| (PI / 2) < 0.05 ∨ fmodf |a| (PI / 2) > PI / 2 - 0.05) := by
  rw [diag_axis_remainder a ha]
  unfold PI
  norm_num

theorem libmDiagonal_exact : libmDiagonal.exactOnDiagonals := by
  intro d hd
  have h1 : ¬ (d = -d) := by linarith
  have h2 : ¬ (-d = d) := by linarith
  have h3 : ¬ (0 < -d) := by linarith
  simp [libmDiagonal, hd, h1, h2, h3]

/-- In exact arithmetic, with `PI` standing for π and `atan2f` exact on the diagonals, a
transition-band cell off the axes has the attenuation of the diagonal test, and on the four
diagonals (`|dx| = |dy| ≠ 0`, `r2 > 4·radius_min²`) that is 0.3. -/
theorem attenuation_diagonal_exact {K : Type} [LinearOrderedField K] [FloorRing K]
    (m : Libm K) (width height : Nat) (radius_min radius_max_divisor : K) (px py : Nat)
    (cell : fftwf_complex K)
    (hband1 : radius_min * radius_min < radius_squared width height px py)
    (hband2 : radius_squared width height px py ≤
      radius_max width radius_max_divisor * radius_max width radius_max_divisor)
    (hnotaxis : ¬ ((fmodf |m.atan2f (cell_dy height py) (cell_dx width px)| (PI / 2) < 0.05 ∨
        fmodf |m.atan2f (cell_dy height py) (cell_dx width px)| (PI / 2) > PI / 2 - 0.05) ∧
      radius_squared width height px py > 4 * (radius_min * radius_min))) :
    attenuation m width height radius_min radius_max_divisor px py cell =
      (if |fmodf (m.atan2f (cell_dy height py) (cell_dx width px) - PI / 4) (PI / 2)| < 0.1 ∧
          radius_squared width height px py > 4 * (radius_min * radius_min) then 0.3
      else 1 - (m.sqrtf (radius_squared width height px py) - radius_min)
        / (radius_max width radius_max_divisor - radius_min) * 0.2) ∧
    (m.exactOnDiagonals →
      |(px : Int) - (width : Int) / 2| = |(py : Int) - (height : Int) / 2| →
      (px : Int) - (width : Int) / 2 ≠ 0 →
      radius_squared width height px py > 4 * (radius_min * radius_min) →
      attenuation m width height radius_min radius_max_divisor px py cell = 0.3) := by
  have h1 := attenuation_off_axis m width height radius_min radius_max_divisor px py cell
    hband1 hband2 hnotaxis
  refine ⟨h1, ?_⟩
  intro hexact habs hne hfar
  rw [h1, diag_test_remainder _ (diag_angle m width height px py hexact habs hne), abs_zero,
    if_pos ⟨by norm_num, hfar⟩]

/-! ## Claims about the indices of the centring codec -/

/-- The centring body reads `g_fft_result` at `half_index` and writes at `center_dst_index`
and, in the mirror branch, at `center_mirror_index`. -/
theorem center_body_indices {K : Type} [Neg K] (g : Nat → fftwf_complex K) (w h y x : Nat)
    (out : Nat → fftwf_complex K) :
    fft2d_grayscale_center_body g w h y x out =
      if 0 < x ∧ x < w / 2 then
        store (store out (center_dst_index w h y x) (g (half_index w y x)))
          (center_mirror_index w h y x) (conj (g (half_index w y x)))
      else store out (center_dst_index w h y x) (g (half_index w y x)) := rfl

/-- The un-centring body reads the spectrum at `uncenter_src_index` and writes
`g_ifft_input_tmp` at `half_index`. -/
theorem uncenter_body_indices {K : Type} (s : Nat → fftwf_complex K) (w h y x : Nat)
    (tmp : Nat → fftwf_complex K) :
    ifft2d_grayscale_uncenter_body s w h y x tmp =
      store tmp (half_index w y x) (s (uncenter_src_index w h y x)) := rfl

theorem center_dst_index_lt {w h y x : Nat} (hw : 1 ≤ w) (hy : y < h) :
    center_dst_index w h y x < w * h :=
  idx_lt (Nat.mod_lt _ (by omega)) (Nat.mod_lt _ (by omega))

theorem center_mirror_index_lt {w h y x : Nat} (hw : 1 ≤ w) (hy : y < h) :
    center_mirror_index w h y x < w * h :=
  idx_lt (Nat.mod_lt _ (by omega)) (Nat.mod_lt _ (by omega))

theorem half_index_lt {w h y x : Nat} (hy : y < h) (hx : x ≤ w / 2) :
    half_index w y x < h * (w / 2 + 1) := by
  have := idx_lt hy (show x < w / 2 + 1 by omega)
  unfold half_index
  rw [Nat.mul_comm h (w / 2 + 1)]
  exact this

/-- The centring pass leaves every index at or beyond `width * height` alone. -/
theorem center_outside {K : Type} [Neg K] (g : Nat → fftwf_complex K) (w h : Nat)
    (out : Nat → fftwf_complex K) (hw : 1 ≤ w) (i : Nat) (hi : w * h ≤ i) :
    fft2d_grayscale_center g w h out i = out i := by
  refine center_unwritten g w h out i ?_ ?_
  · intro y x hy _ e
    have := center_dst_index_lt (x := x) hw hy
    unfold center_dst_index at this
    omega
  · intro y x hy h0 h1 e
    have := center_mirror_index_lt (x := x) hw hy
    unfold center_mirror_index at this
    rw [Nat.mod_eq_of_lt (show w - x < w by omega)] at this
    omega

/-- The un-centring pass leaves alone every index that is no cell of the half-spectrum. -/
theorem uncenter_outside {K : Type} (s : Nat → fftwf_complex K) (w h : Nat)
    (tmp : Nat → fftwf_complex K) (i : Nat) (hi : h * (w / 2 + 1) ≤ i) :
    ifft2d_grayscale_uncenter s w h tmp i = tmp i := by
  refine forRange_untouched _ _ h tmp ?_
  intro y hy t
  refine forRange_untouched _ _ (w / 2 + 1) t ?_
  intro x hx t
  have := half_index_lt (w := w) hy (show x ≤ w / 2 by omega)
  unfold half_index at this
  have hne : ¬ (i = y * (w / 2 + 1) + x) := by omega
  simp [ifft2d_grayscale_uncenter_body, store, hne]

/-- C19: for `width ≥ 1` and every source cell `(x, y)`, `y < height`, `x ≤ width/2`, the
indices the two passes compute are in bounds: the direct destination and (for
`0 < x < width/2`) the mirror destination lie below `width·height`, the un-centring source
index lies below `width·height`, and the half-spectrum index lies below
`height·(width/2+1)`, which is at most the `width·height` cells of the forward result
buffer; accordingly the passes leave every index beyond those bounds alone. -/
theorem C19_codec_indices_in_bounds {K : Type} [Neg K] (width height y x : Nat)
    (hw : 1 ≤ width) (hy : y < height) (hx : x ≤ width / 2) :
    center_dst_index width height y x < width * height ∧
    (0 < x → x < width / 2 → center_mirror_index width height y x < width * height) ∧
    uncenter_src_index width height y x < width * height ∧
    half_index width y x < height * (width / 2 + 1) ∧
    height * (width / 2 + 1) ≤ width * height ∧
    (∀ (g out : Nat → fftwf_complex K) (i : Nat), width * height ≤ i →
      fft2d_grayscale_center g width height out i = out i) ∧
    (∀ (s tmp : Nat → fftwf_complex K) (i : Nat), height * (width / 2 + 1) ≤ i →
      ifft2d_grayscale_uncenter s width height tmp i = tmp i) := by
  refine ⟨center_dst_index_lt hw hy, fun _ _ => center_mirror_index_lt hw hy,
    center_dst_index_lt (x := x) hw hy, half_index_lt hy hx, ?_,
    fun g out i hi => center_outside g width height out hw i hi,
    fun s tmp i hi => uncenter_outside s width height tmp i hi⟩
  rw [Nat.mul_comm width height]
  exact Nat.mul_le_mul_left height (by omega)

theorem C19_codec_indices_in_bounds_witness :
    center_dst_index 5 3 2 2 < 5 * 3 ∧ half_index 5 2 2 < 3 * (5 / 2 + 1) ∧
    3 * (5 / 2 + 1) ≤ 5 * 3 :=
  ⟨(C19_codec_indices_in_bounds (K := Int) 5 3 2 2 (by decide) (by decide) (by decide)).1,
   (C19_codec_indices_in_bounds (K := Int) 5 3 2 2 (by decide) (by decide)
      (by decide)).2.2.2.1,
   (C19_codec_indices_in_bounds (K := Int) 5 3 2 2 (by decide) (by decide)
      (by decide)).2.2.2.2.1⟩

/-! ## Claims about the mirrored half -/

/-- The un-centring pass never reads a cell written by the mirror branch of the centring
pass. -/
theorem uncenter_src_ne_mirror {w h y x y' x' : Nat} (hy : y < h) (hx : x ≤ w / 2)
    (hy' : y' < h) (h0 : 0 < x') (h1 : x' < w / 2) :
    uncenter_src_index w h y x ≠ center_mirror_index w h y' x' := by
  unfold uncenter_src_index center_mirror_index
  rw [Nat.mod_eq_of_lt (show w - x' < w by omega)]
  intro e
  have := (center_idx_inj hy hy' (show x < w by omega) (show w - x' < w by omega) e).2
  omega

/-- The half-spectrum produced by the un-centring pass depends on the centred spectrum only
through the directly copied cells. -/
theorem uncenter_congr {K : Type} (s s' : Nat → fftwf_complex K) (w h : Nat)
    (tmp : Nat → fftwf_complex K)
    (hagree : ∀ y x, y < h → x ≤ w / 2 →
      s (center_dst_index w h y x) = s' (center_dst_index w h y x)) :
    ifft2d_grayscale_uncenter s w h tmp = ifft2d_grayscale_uncenter s' w h tmp := by
  funext i
  by_cases hi : i < h * (w / 2 + 1)
  · have hpos : 0 < w / 2 + 1 := by omega
    have hy : i / (w / 2 + 1) < h := (Nat.div_lt_iff_lt_mul hpos).mpr hi
    have hx : i % (w / 2 + 1) ≤ w / 2 := by
      have := Nat.mod_lt i hpos
      omega
    have hidx : i / (w / 2 + 1) * (w / 2 + 1) + i % (w / 2 + 1) = i := by
      rw [Nat.mul_comm]; exact Nat.div_add_mod i (w / 2 + 1)
    have e1 := uncenter_cell s w h tmp _ _ hy hx
    have e2 := uncenter_cell s' w h tmp _ _ hy hx
    rw [hidx] at e1 e2
    rw [e1, e2]
    exact hagree _ _ hy hx
  · rw [uncenter_outside s w h tmp i (not_lt.mp hi),
      uncenter_outside s' w h tmp i (not_lt.mp hi)]

/-- C20: the mirrored half of the centred spectrum never influences the output.  For
`width ≥ 1`: no cell read by the un-centring pass is a cell written by the mirror branch of
the centring pass; hence two centred spectra that agree on the directly copied cells give
the same half-spectrum and the same output image, and they still do after the filter,
whatever the mirror cells hold and whatever attenuation they receive. -/
theorem C20_mirror_cells_never_reach_output {K : Type} [LinearOrderedField K] [FloorRing K]
    (F : FloatSem K) (fftw : Fftw K) (m : Libm K) (width height line_length : Nat)
    (hw : 1 ≤ width)
    (param_radius_min param_radius_max_diviser : K)
    (s s' tmp : Nat → fftwf_complex K) (output_data : Nat → Nat)
    (hagree : ∀ y x, y < height → x ≤ width / 2 →
      s (center_dst_index width height y x) = s' (center_dst_index width height y x)) :
    (∀ y x y' x', y < height → x ≤ width / 2 → y' < height → 0 < x' → x' < width / 2 →
      uncenter_src_index width height y x ≠ center_mirror_index width height y' x') ∧
    ifft2d_grayscale_uncenter s width height tmp
      = ifft2d_grayscale_uncenter s' width height tmp ∧
    ifft2d_grayscale F fftw tmp s output_data width height line_length
      = ifft2d_grayscale F fftw tmp s' output_data width height line_length ∧
    ifft2d_grayscale F fftw tmp
        (filter_spectrum_for_kaleido m s width height param_radius_min
          param_radius_max_diviser) output_data width height line_length
      = ifft2d_grayscale F fftw tmp
        (filter_spectrum_for_kaleido m s' width height param_radius_min
          param_radius_max_diviser) output_data width height line_length ∧
    ifft2d_grayscale F fftw tmp
        (filter_spectrum_for_kaleido_rounded F m s width height param_radius_min
          param_radius_max_diviser) output_data width height line_length
      = ifft2d_grayscale F fftw tmp
        (filter_spectrum_for_kaleido_rounded F m s' width height param_radius_min
          param_radius_max_diviser) output_data width height line_length := by
  have hfilter : ∀ y x, y < height → x ≤ width / 2 →
      filter_spectrum_for_kaleido m s width height param_radius_min param_radius_max_diviser
          (center_dst_index width height y x)
        = filter_spectrum_for_kaleido m s' width height param_radius_min
          param_radius_max_diviser (center_dst_index width height y x) := by
    intro y x hy hx
    have e := hagree y x hy hx
    unfold center_dst_index at e ⊢
    rw [filter_cell_result m s width height _ _ _ _ (Nat.mod_lt _ (by omega))
        (Nat.mod_lt _ (by omega)),
      filter_cell_result m s' width height _ _ _ _ (Nat.mod_lt _ (by omega))
        (Nat.mod_lt _ (by omega)), e]
  have hrounded : ∀ y x, y < height → x ≤ width / 2 →
      filter_spectrum_for_kaleido_rounded F m s width height param_radius_min
          param_radius_max_diviser (center_dst_index width height y x)
        = filter_spectrum_for_kaleido_rounded F m s' width height param_radius_min
          param_radius_max_diviser (center_dst_index width height y x) := by
    intro y x hy hx
    have e := hagree y x hy hx
    unfold center_dst_index at e ⊢
    rw [filter_rounded_cell_result F m s width height _ _ _ _ (Nat.mod_lt _ (by omega))
        (Nat.mod_lt _ (by omega)),
      filter_rounded_cell_result F m s' width height _ _ _ _ (Nat.mod_lt _ (by omega))
        (Nat.mod_lt _ (by omega)), e]
  refine ⟨fun y x y' x' hy hx hy' h0 h1 => uncenter_src_ne_mirror hy hx hy' h0 h1,
    uncenter_congr s s' width height tmp hagree, ?_, ?_, ?_⟩
  · unfold ifft2d_grayscale
    rw [uncenter_congr s s' width height tmp hagree]
  · unfold ifft2d_grayscale
    rw [uncenter_congr _ _ width height tmp hfilter]
  · unfold ifft2d_grayscale
    rw [uncenter_congr _ _ width height tmp hrounded]

theorem C20_mirror_cells_never_reach_output_witness :
    ifft2d_grayscale binary32 fftwExact4 (fun _ => (0, 0))
        (fft2d_grayscale_center (fun i => ((i : ℚ), (1 : ℚ))) 4 4 (fun _ => (0, 0)))
        (fun _ => 0) 4 4 12
      = ifft2d_grayscale binary32 fftwExact4 (fun _ => (0, 0))
        (store (fft2d_grayscale_center (fun i => ((i : ℚ), (1 : ℚ))) 4 4 (fun _ => (0, 0)))
          (center_mirror_index 4 4 0 1) (77, 77))
        (fun _ => 0) 4 4 12 :=
  (C20_mirror_cells_never_reach_output binary32 fftwExact4 libmArbitrary 4 4 12 (by decide) 4 8
    (fft2d_grayscale_center (fun i => ((i : ℚ), (1 : ℚ))) 4 4 (fun _ => (0, 0)))
    (store (fft2d_grayscale_center (fun i => ((i : ℚ), (1 : ℚ))) 4 4 (fun _ => (0, 0)))
      (center_mirror_index 4 4 0 1) (77, 77))
    (fun _ => (0, 0)) (fun _ => 0)
    (fun y x hy hx => by
      have hne : center_dst_index 4 4 y x ≠ center_mirror_index 4 4 0 1 :=
        uncenter_src_ne_mirror hy hx (by decide) (by decide) (by decide)
      simp [store, hne])).2.2.1

/-- A built cache is reached by one successful call from program start. -/
theorem runOps_reaches_built :
    (runOps [CacheOp.init envAllSucceed 4 4 12] World.start).cache.builtBy envAllSucceed
      4 4 12 :=
  ⟨100, 101, 102, 103, 7, 8, rfl, rfl, rfl, rfl, rfl, rfl, rfl⟩

/-! ## Claims about the range of the attenuation and the guarded division -/

/-- The attenuation of a cell is 0 beyond `radius_max`, 1 within `radius_min`, and in the
transition band one of the four values of the angular branches. -/
theorem attenuation_cases {K : Type} [LinearOrderedField K] [FloorRing K] (m : Libm K)
    (w h : Nat) (rmin dv : K) (px py : Nat) (cell : fftwf_complex K) :
    (radius_squared w h px py > radius_max w dv * radius_max w dv ∧
      attenuation m w h rmin dv px py cell = 0) ∨
    (radius_squared w h px py ≤ radius_max w dv * radius_max w dv ∧
      radius_squared w h px py ≤ rmin * rmin ∧
      attenuation m w h rmin dv px py cell = 1) ∨
    (rmin * rmin < radius_squared w h px py ∧
      radius_squared w h px py ≤ radius_max w dv * radius_max w dv ∧
      (attenuation m w h rmin dv px py cell = 0.01 ∨
       attenuation m w h rmin dv px py cell
         = 1 - (m.sqrtf (radius_squared w h px py) - rmin) / (radius_max w dv - rmin) * 0.5 ∨
       attenuation m w h rmin dv px py cell = 0.3 ∨
       attenuation m w h rmin dv px py cell
         = 1 - (m.sqrtf (radius_squared w h px py) - rmin) / (radius_max w dv - rmin) * 0.2))
    := by
  by_cases hgt : radius_squared w h px py > radius_max w dv * radius_max w dv
  · left
    refine ⟨hgt, ?_⟩
    unfold attenuation
    simp only [hgt, if_true]
  · have hle : radius_squared w h px py ≤ radius_max w dv * radius_max w dv := not_lt.mp hgt
    by_cases hmin : radius_squared w h px py ≤ rmin * rmin
    · right; left
      refine ⟨hle, hmin, ?_⟩
      unfold attenuation
      simp only [hgt, if_false, hmin, if_true]
    · right; right
      refine ⟨not_le.mp hmin, hle, ?_⟩
      unfold attenuation
      simp only [hgt, if_false, hmin, mul_one_div]
      split_ifs
      · exact Or.inl rfl
      · exact Or.inr (Or.inl rfl)
      · exact Or.inr (Or.inr (Or.inl rfl))
      · exact Or.inr (Or.inr (Or.inr rfl))

/-- In the transition band, with `0 ≤ radius_min < radius_max` and `r` the non-negative
square root of `r2`, the ramp position `(r - rmin)/(rmax - rmin)` lies in `(0, 1]`. -/
theorem ramp_position_bounds {K : Type} [LinearOrderedField K] (rmin rmax r2 r : K)
    (h0 : 0 ≤ rmin) (hlt : rmin < rmax) (hr0 : 0 ≤ r) (hr : r * r = r2)
    (hb1 : rmin * rmin < r2) (hb2 : r2 ≤ rmax * rmax) :
    0 < (r - rmin) / (rmax - rmin) ∧ (r - rmin) / (rmax - rmin) ≤ 1 := by
  have hD : 0 < rmax - rmin := by linarith
  have h1 : rmin < r := by
    by_contra hc
    have hc' : r ≤ rmin := not_lt.mp hc
    have : r * r ≤ rmin * rmin := mul_le_mul hc' hc' hr0 h0
    linarith
  have h2 : r ≤ rmax := by
    by_contra hc
    have hc' : rmax < r := not_le.mp hc
    have hmax0 : 0 ≤ rmax := by linarith
    have : rmax * rmax < r * r := mul_lt_mul'' hc' hc' hmax0 hmax0
    linarith
  constructor
  · exact div_pos (by linarith) hD
  · rw [div_le_one hD]
    linarith

/-- C21: with `0 ≤ radius_min < rmax = width / radius_max_divisor` and `sqrtf` returning the
exact non-negative square root of the cell's `r2` (real arithmetic), the attenuation of every
cell, whatever it holds, lies in `[0, 1]`: it is 0, 1, 0.01, 0.3, the axis ramp
`1 - (r - rmin)/(rmax - rmin)·0.5` with a value in `[0.5, 1)`, or the isotropic falloff
`1 - (r - rmin)/(rmax - rmin)·0.2` with a value in `[0.8, 1)`. -/
theorem C21_attenuation_in_unit_interval {K : Type} [LinearOrderedField K] [FloorRing K]
    (m : Libm K) (width height : Nat) (radius_min radius_max_divisor : K) (px py : Nat)
    (cell : fftwf_complex K)
    (h0 : 0 ≤ radius_min) (hlt : radius_min < radius_max width radius_max_divisor)
    (hs0 : 0 ≤ m.sqrtf (radius_squared width height px py))
    (hs : m.sqrtf (radius_squared width height px py)
      * m.sqrtf (radius_squared width height px py) = radius_squared width height px py) :
    (0 ≤ attenuation m width height radius_min radius_max_divisor px py cell ∧
      attenuation m width height radius_min radius_max_divisor px py cell ≤ 1) ∧
    (attenuation m width height radius_min radius_max_divisor px py cell = 0 ∨
     attenuation m width height radius_min radius_max_divisor px py cell = 1 ∨
     attenuation m width height radius_min radius_max_divisor px py cell = 0.01 ∨
     attenuation m width height radius_min radius_max_divisor px py cell = 0.3 ∨
     (attenuation m width height radius_min radius_max_divisor px py cell
        = 1 - (m.sqrtf (radius_squared width height px py) - radius_min)
            / (radius_max width radius_max_divisor - radius_min) * 0.5 ∧
      0.5 ≤ attenuation m width height radius_min radius_max_divisor px py cell ∧
      attenuation m width height radius_min radius_max_divisor px py cell < 1) ∨
     (attenuation m width height radius_min radius_max_divisor px py cell
        = 1 - (m.sqrtf (radius_squared width height px py) - radius_min)
            / (radius_max width radius_max_divisor - radius_min) * 0.2 ∧
      0.8 ≤ attenuation m width height radius_min radius_max_divisor px py cell ∧
      attenuation m width height radius_min radius_max_divisor px py cell < 1)) := by
  rcases attenuation_cases m width height radius_min radius_max_divisor px py cell with
    ⟨_, ha⟩ | ⟨_, _, ha⟩ | ⟨hb1, hb2, ha | ha | ha | ha⟩
  · rw [ha]
    exact ⟨⟨le_refl 0, zero_le_one⟩, Or.inl rfl⟩
  · rw [ha]
    exact ⟨⟨zero_le_one, le_refl 1⟩, Or.inr (Or.inl rfl)⟩
  · rw [ha]
    exact ⟨⟨by norm_num, by norm_num⟩, Or.inr (Or.inr (Or.inl rfl))⟩
  · obtain ⟨t0, t1⟩ := ramp_position_bounds radius_min
      (radius_max width radius_max_divisor) _ _ h0 hlt hs0 hs hb1 hb2
    have lo : (0.5 : K) ≤ attenuation m width height radius_min radius_max_divisor px py
        cell := by
      rw [ha]; norm_num; linarith
    have hi : attenuation m width height radius_min radius_max_divisor px py cell < 1 := by
      rw [ha]; norm_num; linarith
    have half : (0 : K) ≤ 0.5 := by norm_num
    exact ⟨⟨le_trans half lo, le_of_lt hi⟩,
      Or.inr (Or.inr (Or.inr (Or.inr (Or.inl ⟨ha, lo, hi⟩))))⟩
  · rw [ha]
    exact ⟨⟨by norm_num, by norm_num⟩, Or.inr (Or.inr (Or.inr (Or.inl rfl)))⟩
  · obtain ⟨t0, t1⟩ := ramp_position_bounds radius_min
      (radius_max width radius_max_divisor) _ _ h0 hlt hs0 hs hb1 hb2
    have lo : (0.8 : K) ≤ attenuation m width height radius_min radius_max_divisor px py
        cell := by
      rw [ha]; norm_num; linarith
    have hi : attenuation m width height radius_min radius_max_divisor px py cell < 1 := by
      rw [ha]; norm_num; linarith
    have pos : (0 : K) ≤ 0.8 := by norm_num
    exact ⟨⟨le_trans pos lo, le_of_lt hi⟩,
      Or.inr (Or.inr (Or.inr (Or.inr (Or.inr ⟨ha, lo, hi⟩))))⟩

/-- At the cell `(35, 36)` of a 64×64 spectrum (`dx = 3`, `dy = 4`), `r2 = 25` and
`libmDiagonal.sqrtf` returns 5. -/
theorem libmDiagonal_sqrtf_cell_35_36 :
    radius_squared 64 64 35 36 = (25 : ℚ) ∧
    libmDiagonal.sqrtf (radius_squared 64 64 35 36) = 5 := by
  have hr : radius_squared 64 64 35 36 = (25 : ℚ) := by
    norm_num [radius_squared]
  refine ⟨hr, ?_⟩
  rw [hr]
  have hfloor : Int.floor (25 : ℚ) = 25 := by
    rw [Int.floor_eq_iff]
    norm_num
  have hsqrt : Nat.sqrt 25 = 5 := Nat.sqrt_eq 5
  show ((Nat.sqrt (Int.toNat (Int.floor (25 : ℚ))) : Nat) : ℚ) = 5
  rw [hfloor]
  show ((Nat.sqrt 25 : Nat) : ℚ) = 5
  rw [hsqrt]
  norm_num

theorem C21_attenuation_in_unit_interval_witness :
    0 ≤ attenuation libmDiagonal 64 64 2 4 35 36 ((1 : ℚ), (1 : ℚ)) ∧
    attenuation libmDiagonal 64 64 2 4 35 36 ((1 : ℚ), (1 : ℚ)) ≤ 1 :=
  (C21_attenuation_in_unit_interval libmDiagonal 64 64 2 4 35 36 ((1 : ℚ), (1 : ℚ))
    (by norm_num) (by norm_num [radius_max])
    (by rw [libmDiagonal_sqrtf_cell_35_36.2]; norm_num)
    (by rw [libmDiagonal_sqrtf_cell_35_36.2, libmDiagonal_sqrtf_cell_35_36.1]; norm_num)).1

theorem roundHalfEven_intCast (n : Int) : roundHalfEven (n : ℚ) = n := by
  unfold roundHalfEven
  rw [Int.floor_intCast, sub_self, if_pos (by norm_num)]

/-- The nearest integer is within one half. -/
theorem roundHalfEven_err (y : ℚ) : |(roundHalfEven y : ℚ) - y| ≤ 1 / 2 := by
  have h0 := Int.floor_le y
  have h1 := Int.lt_floor_add_one y
  unfold roundHalfEven
  split_ifs with a b c
  · rw [abs_le]; constructor <;> linarith
  · rw [abs_le]; push_cast; constructor <;> linarith
  · rw [abs_le]; constructor <;> linarith
  · rw [abs_le]; push_cast; constructor <;> linarith

/-- An integer strictly within one half of `y` is the one `y` is rounded to. -/
theorem roundHalfEven_of_lt (y : ℚ) (n : Int) (h1 : (n : ℚ) - 1 / 2 < y)
    (h2 : y < (n : ℚ) + 1 / 2) : roundHalfEven y = n := by
  unfold roundHalfEven
  rcases le_or_lt (n : ℚ) y with h | h
  · have hf : Int.floor y = n := by
      rw [Int.floor_eq_iff]; constructor <;> linarith
    rw [hf, if_pos (by linarith)]
  · have hf : Int.floor y = n - 1 := by
      rw [Int.floor_eq_iff]; push_cast; constructor <;> linarith
    rw [hf]
    push_cast
    rw [if_neg (by linarith), if_pos (by linarith)]
    ring

/-- A tie above an even integer goes down to it. -/
theorem roundHalfEven_tie_even (n : Int) (hn : n % 2 = 0) :
    roundHalfEven ((n : ℚ) + 1 / 2) = n := by
  have hf : Int.floor ((n : ℚ) + 1 / 2) = n := by
    rw [Int.floor_eq_iff]; constructor <;> linarith
  unfold roundHalfEven
  rw [hf, if_neg (by norm_num), if_neg (by norm_num), if_pos hn]

/-- The binary exponent of a value between two consecutive powers of two. -/
theorem log2_of_bounds (x : ℚ) (e : Int) (h1 : (2 : ℚ) ^ e ≤ x) (h2 : x < (2 : ℚ) ^ (e + 1)) :
    Int.log 2 x = e := by
  have hx : 0 < x := lt_of_lt_of_le (by positivity) h1
  have ha : e ≤ Int.log 2 x := by
    have := (Int.zpow_le_iff_le_log (b := 2) (by norm_num) hx (x := e)).mp (by exact_mod_cast h1)
    exact this
  have hb : Int.log 2 x < e + 1 := by
    have := (Int.lt_zpow_iff_log_lt (b := 2) (by norm_num) hx (x := e + 1)).mp
      (by exact_mod_cast h2)
    exact this
  omega


/-- Rounding by certificate: for `2^e ≤ |x| < 2^(e+1)` the result is the nearest multiple of
`2^(e-23)`. -/
theorem round32_of_log (x : ℚ) (e n : Int) (h1 : (2 : ℚ) ^ e ≤ |x|)
    (h2 : |x| < (2 : ℚ) ^ (e + 1)) (hr : roundHalfEven (x / 2 ^ (e - 23)) = n) :
    round32 x = (n : ℚ) * 2 ^ (e - 23) := by
  have hx : x ≠ 0 := by
    intro h
    rw [h, abs_zero] at h1
    exact absurd h1 (not_le.mpr (by positivity))
  unfold round32
  rw [if_neg hx, log2_of_bounds |x| e h1 h2, hr]

/-- Rounding by certificate, away from ties: `n · 2^k` is the result when `x` lies strictly
within half a unit `2^k` of it and `2^(k+23) ≤ |x| < 2^(k+24)`. -/
theorem round32_of_near (x : ℚ) (k n : Int) (h1 : (2 : ℚ) ^ (k + 23) ≤ |x|)
    (h2 : |x| < (2 : ℚ) ^ (k + 24))
    (h3 : ((n : ℚ) - 1 / 2) * 2 ^ k < x) (h4 : x < ((n : ℚ) + 1 / 2) * 2 ^ k) :
    round32 x = (n : ℚ) * 2 ^ k := by
  have hk : (0 : ℚ) < 2 ^ k := by positivity
  have e1 : k + 23 - 23 = k := by ring
  have h := round32_of_log x (k + 23) n h1 (by rw [show k + 23 + 1 = k + 24 by ring]; exact h2)
    (by
      rw [e1]
      exact roundHalfEven_of_lt _ n ((lt_div_iff₀ hk).mpr h3) ((div_lt_iff₀ hk).mpr h4))
  rw [e1] at h
  exact h

/-- Rounding of a positive value by certificate, away from ties. -/
theorem round32_of_near_pos (x y : ℚ) (k n : Int) (h1 : (2 : ℚ) ^ (k + 23) ≤ x)
    (h2 : x < (2 : ℚ) ^ (k + 24))
    (h3 : ((n : ℚ) - 1 / 2) * 2 ^ k < x) (h4 : x < ((n : ℚ) + 1 / 2) * 2 ^ k)
    (hy : (n : ℚ) * 2 ^ k = y) : round32 x = y := by
  have hx : 0 < x := lt_of_lt_of_le (by positivity) h1
  rw [← hy]
  exact round32_of_near x k n (by rw [abs_of_pos hx]; exact h1)
    (by rw [abs_of_pos hx]; exact h2) h3 h4

theorem round32_zero : round32 0 = 0 := by
  unfold round32
  rw [if_pos rfl]

/-- A value `m · 2^e` with `|m| < 2^24` is a binary32 number. -/
theorem binary32_fixes : binary32.fixes := by
  intro m e hm
  show round32 ((m : ℚ) * 2 ^ e) = (m : ℚ) * 2 ^ e
  by_cases hm0 : m = 0
  · rw [hm0, Int.cast_zero, zero_mul, round32_zero]
  have h2 : (0 : ℚ) < 2 ^ e := by positivity
  have hx : (m : ℚ) * 2 ^ e ≠ 0 := mul_ne_zero (by exact_mod_cast hm0) (ne_of_gt h2)
  have hxpos : 0 < |(m : ℚ) * 2 ^ e| := abs_pos.mpr hx
  have hL := Int.zpow_log_le_self (b := 2) (by norm_num) hxpos
  have habs : |(m : ℚ) * 2 ^ e| = (|m| : Int) * 2 ^ e := by
    rw [abs_mul, abs_of_pos h2]
    push_cast
    rfl
  have hlt : |(m : ℚ) * 2 ^ e| < 2 ^ (24 + e) := by
    rw [habs, zpow_add₀ (by norm_num : (2 : ℚ) ≠ 0)]
    have : ((|m| : Int) : ℚ) < 2 ^ (24 : Int) := by
      have h24 : (2 : ℚ) ^ (24 : Int) = ((2 ^ 24 : Int) : ℚ) := by norm_num
      rw [h24]
      exact_mod_cast hm
    exact mul_lt_mul_of_pos_right this h2
  have hLlt : Int.log 2 |(m : ℚ) * 2 ^ e| < 24 + e := by
    have h3 : ((2 : ℕ) : ℚ) ^ Int.log 2 |(m : ℚ) * 2 ^ e| < 2 ^ (24 + e) :=
      lt_of_le_of_lt hL hlt
    have h4 : ((2 : ℚ)) ^ Int.log 2 |(m : ℚ) * 2 ^ e| < 2 ^ (24 + e) := by
      exact_mod_cast h3
    exact (zpow_lt_zpow_iff_right₀ (by norm_num : (1 : ℚ) < 2)).mp h4
  unfold round32
  rw [if_neg hx]
  generalize Int.log 2 |(m : ℚ) * 2 ^ e| = L at hLlt
  obtain ⟨k, hk⟩ : ∃ k : Nat, (k : Int) = e - (L - 23) := ⟨(e - (L - 23)).toNat, by omega⟩
  have hq : (m : ℚ) * 2 ^ e / 2 ^ (L - 23) = ((m * 2 ^ k : Int) : ℚ) := by
    rw [mul_div_assoc, ← zpow_sub₀ (by norm_num : (2 : ℚ) ≠ 0), ← hk]
    push_cast
    rw [zpow_natCast]
  rw [hq, roundHalfEven_intCast]
  push_cast
  rw [mul_assoc, ← zpow_natCast, hk, ← zpow_add₀ (by norm_num : (2 : ℚ) ≠ 0)]
  congr 2
  ring

/-- One rounding to binary32 has relative error at most `2^-24`. -/
theorem binary32_relErr : binary32.relErr := by
  intro x
  show |round32 x - x| ≤ |x| / 2 ^ 24
  by_cases hx : x = 0
  · rw [hx, round32_zero]
    simp
  have hxpos : 0 < |x| := abs_pos.mpr hx
  have hL := Int.zpow_log_le_self (b := 2) (by norm_num) hxpos
  unfold round32
  rw [if_neg hx]
  generalize Int.log 2 |x| = L at hL
  have hL' : (2 : ℚ) ^ L ≤ |x| := by exact_mod_cast hL
  have hq : (0 : ℚ) < 2 ^ (L - 23) := by positivity
  have herr := roundHalfEven_err (x / 2 ^ (L - 23))
  have e1 : (roundHalfEven (x / 2 ^ (L - 23)) : ℚ) * 2 ^ (L - 23) - x
      = ((roundHalfEven (x / 2 ^ (L - 23)) : ℚ) - x / 2 ^ (L - 23)) * 2 ^ (L - 23) := by
    field_simp
  rw [e1, abs_mul, abs_of_pos hq]
  have e2 : (2 : ℚ) ^ (L - 23) = 2 ^ L / 2 ^ 23 := by
    rw [zpow_sub₀ (by norm_num : (2 : ℚ) ≠ 0)]
    norm_num
  calc |(roundHalfEven (x / 2 ^ (L - 23)) : ℚ) - x / 2 ^ (L - 23)| * 2 ^ (L - 23)
      ≤ 1 / 2 * 2 ^ (L - 23) := mul_le_mul_of_nonneg_right herr (le_of_lt hq)
    _ = 2 ^ L / 2 ^ 24 := by rw [e2]; ring
    _ ≤ |x| / 2 ^ 24 := div_le_div_of_nonneg_right hL' (by positivity)

theorem truncf_bounds_toInt32 (v : ℚ) (h1 : -(2 : ℚ) ^ 31 ≤ v) (h2 : v < (2 : ℚ) ^ 31) :
    toInt32 v = truncf v := by
  unfold toInt32
  rw [if_pos ⟨h1, h2⟩]

/-- The conversion `(int)v` of `binary32` truncates toward zero when the result fits. -/
theorem binary32_truncates : binary32.truncates := fun v h1 h2 =>
  truncf_bounds_toInt32 v h1 h2

/-! ## Claims about the life cycle of the cache: the call that built it -/

theorem runOps_append (a b : List CacheOp) :
    ∀ s : World, runOps (a ++ b) s = runOps b (runOps a s) := by
  induction a with
  | nil => intro s; rfl
  | cons op a ih =>
    intro s
    cases op with
    | init env width height line_length => exact ih _
    | cleanup => exact ih _

/-- A call served from the cache returns the state it found. -/
theorem init_hit (env : Env) (width height line_length : Int) (s : World)
    (hhit : s.cache.g_initialized ≠ 0 ∧ s.cache.g_width = width ∧
      s.cache.g_height = height ∧ s.cache.g_line_length = line_length) :
    init_fftw_resources env width height line_length s = (0, s) := by
  unfold init_fftw_resources
  rw [if_pos hhit]

/-- A call whose six requests are all answered returns 0. -/
theorem init_built_status (env : Env) (width height line_length : Int) (s : World)
    (hb : (init_fftw_resources env width height line_length s).2.cache.builtBy env width
      height line_length) :
    (init_fftw_resources env width height line_length s).1 = 0 := by
  obtain ⟨p0, p1, p2, p3, q0, q1, hp0, hp1, hp2, hp3, hq0, hq1, _⟩ := hb
  by_cases hhit : s.cache.g_initialized ≠ 0 ∧ s.cache.g_width = width ∧
      s.cache.g_height = height ∧ s.cache.g_line_length = line_length
  · rw [init_hit env width height line_length s hhit]
  · unfold init_fftw_resources
    rw [if_neg hhit]
    simp [hp0, hp1, hp2, hp3, hq0, hq1]

/-- The key of a built cache is the triple of the call that built it. -/
theorem builtBy_key (c : Cache) (env : Env) (width height line_length : Int)
    (hb : c.builtBy env width height line_length) :
    c.g_initialized ≠ 0 ∧ c.g_width = width ∧ c.g_height = height ∧
      c.g_line_length = line_length := by
  obtain ⟨p0, p1, p2, p3, q0, q1, _, _, _, _, _, _, rfl⟩ := hb
  exact ⟨one_ne_zero, rfl, rfl, rfl⟩

/-- C11: in every state reached from program start by any sequence `ops` of
`init_fftw_resources` calls (each answered arbitrarily by the environment, so failing or
succeeding at any step) and `cleanup_fftw_resources` calls, the cache is either entirely
empty (buffers and plans `NULL`, key `(0,0,0)`, `g_initialized = 0`) or entirely built by one
call of the sequence: `ops = pre ++ init env width height stride :: post`, where that call
was not served from the cache (it tore down and rebuilt), returned 0 and left the cache built
(`Cache.builtBy`: the four buffers and both plans are the ones the environment handed out in
that very call, for the sizes computed from its `width` and `height`, the key is its triple
and `g_initialized = 1`); every later call in `post` is an `init_fftw_resources` with the same
triple (a cache hit, which changes nothing); and the cache now is exactly the cache that call
left.  So the buffers, the plans and the key always come from one and the same build. -/
theorem C11_cache_empty_or_built_in_every_reachable_state (ops : List CacheOp) :
    (runOps ops World.start).cache = Cache.empty ∨
    ∃ (pre post : List CacheOp) (env : Env) (width height line_length : Int),
      ops = pre ++ CacheOp.init env width height line_length :: post ∧
      ¬ ((runOps pre World.start).cache.g_initialized ≠ 0 ∧
          (runOps pre World.start).cache.g_width = width ∧
          (runOps pre World.start).cache.g_height = height ∧
          (runOps pre World.start).cache.g_line_length = line_length) ∧
      (init_fftw_resources env width height line_length (runOps pre World.start)).1 = 0 ∧
      (init_fftw_resources env width height line_length
          (runOps pre World.start)).2.cache.builtBy env width height line_length ∧
      (∀ op, op ∈ post → ∃ env', op = CacheOp.init env' width height line_length) ∧
      (runOps ops World.start).cache
        = (init_fftw_resources env width height line_length
            (runOps pre World.start)).2.cache := by
  induction ops using List.reverseRecOn with
  | nil => exact Or.inl rfl
  | append_singleton ops op ih =>
    rw [runOps_append]
    cases op with
    | cleanup => exact Or.inl (cleanup_cache_empty _)
    | init env width height line_length =>
      show (init_fftw_resources env width height line_length (runOps ops World.start)).2.cache
          = Cache.empty ∨ _
      by_cases hhit : (runOps ops World.start).cache.g_initialized ≠ 0 ∧
          (runOps ops World.start).cache.g_width = width ∧
          (runOps ops World.start).cache.g_height = height ∧
          (runOps ops World.start).cache.g_line_length = line_length
      · rcases ih with he | ⟨pre, post, env0, w0, h0, l0, hops, hmiss, hst, hb, hpost, hc⟩
        · rw [he] at hhit
          exact absurd rfl hhit.1
        · right
          have hkey := builtBy_key _ env0 w0 h0 l0 hb
          rw [← hc] at hkey
          obtain ⟨_, e1, e2, e3⟩ := hkey
          obtain ⟨hi, f1, f2, f3⟩ := hhit
          have hw : width = w0 := by rw [← f1, e1]
          have hh : height = h0 := by rw [← f2, e2]
          have hl : line_length = l0 := by rw [← f3, e3]
          refine ⟨pre, post ++ [CacheOp.init env width height line_length], env0, w0, h0, l0,
            ?_, hmiss, hst, hb, ?_, ?_⟩
          · rw [hops, List.append_assoc, List.cons_append]
          · intro op hop
            rcases List.mem_append.mp hop with h | h
            · exact hpost op h
            · rw [List.mem_singleton] at h
              exact ⟨env, by rw [h, hw, hh, hl]⟩
          · show (init_fftw_resources env width height line_length
                (runOps ops World.start)).2.cache = _
            rw [init_hit env width height line_length _ ⟨hi, f1, f2, f3⟩]
            exact hc
      · rcases init_miss_cases env width height line_length _ hhit with he | hb
        · exact Or.inl he
        · right
          exact ⟨ops, [], env, width, height, line_length, rfl, hhit,
            init_built_status env width height line_length _ hb, hb,
            fun op hop => absurd hop (List.not_mem_nil op), rfl⟩

/-! ## Claims about the write-back -/

theorem binary32_rnd (x : ℚ) : binary32.rnd x = round32 x := rfl

theorem binary32_toInt (x : ℚ) : binary32.toInt x = toInt32 x := rfl

/-- A binary32 number is stored as it is. -/
theorem round32_fixes (x y : ℚ) (m e : Int) (hm : |m| < 2 ^ 24) (hx : x = (m : ℚ) * 2 ^ e)
    (hy : x = y) : round32 x = y := by
  rw [← hy, hx]
  exact binary32_fixes m e hm

/-- Truncation toward zero of a non-negative value between two consecutive integers. -/
theorem truncf_of_bounds (v : ℚ) (n : Nat) (h1 : (n : ℚ) ≤ v) (h2 : v < (n : ℚ) + 1) :
    truncf v = (n : Int) := by
  unfold truncf
  rw [if_pos (le_trans (Nat.cast_nonneg n) h1), Int.floor_eq_iff]
  exact ⟨by exact_mod_cast h1, by exact_mod_cast h2⟩

/-- C14 as stated fails: the write-back converts with `(int)`, which truncates, and does not
round.  For a 1×1 image whose inverse-transform sample is the binary32 number 1.75, the byte
written is 1, while `round(1.75 / (1·1)) = 2`. -/
theorem C14_write_back_truncates :
    ifft2d_grayscale_write binary32 (fun _ => (7 / 4 : ℚ)) 1 1 3 (fun _ => 0)
        (0 * 3 + 0 * 3 + 0) = 1 ∧
    round ((7 / 4 : ℚ) / ((1 * 1 : Nat) : ℚ)) = 2 := by
  constructor
  · rw [write_cell binary32 _ 1 1 3 _ 0 0 0 (by decide) (by decide) (by decide) (by decide)]
    have e1 : round32 (((1 * 1 : Nat) : ℚ)) = 1 :=
      round32_fixes _ _ 1 0 (by norm_num) (by norm_num) (by norm_num)
    have e2 : round32 ((1 : ℚ) / 1) = 1 :=
      round32_fixes _ _ 1 0 (by norm_num) (by norm_num) (by norm_num)
    have e3 : round32 ((7 / 4 : ℚ) * 1) = 7 / 4 :=
      round32_fixes _ _ 7 (-2) (by norm_num) (by norm_num) (by norm_num)
    have e4 : toInt32 (7 / 4 : ℚ) = ((1 : Nat) : Int) := by
      rw [truncf_bounds_toInt32 _ (by norm_num) (by norm_num)]
      exact truncf_of_bounds _ 1 (by norm_num) (by norm_num)
    simp only [binary32_rnd, binary32_toInt]
    rw [e1, e2, e3, e4]
    decide
  · rw [round_eq, Int.floor_eq_iff]
    norm_num

/-- C14 (amended): for every pixel `(x, y)` in range and `stride ≥ 3·width`, the write-back
stores the same byte `value` into the three channel bytes at offsets `y*stride + 3x + 0, 1, 2`:
`value = clamp((int)p, 0, 255)` where `p` is the `float` product of `inverse[y,x]` with the
`float` quotient `norm_factor = 1.0f / (float)(width·height)`, each operation rounded as the
machine rounds `float`; and whenever `(int)p` fits a 32-bit `int`, the conversion is the
truncation toward zero, so `value = clamp(trunc(p), 0, 255)`: nothing is rounded to
nearest. -/
theorem C14_write_back_truncates_and_clamps {K : Type} [LinearOrderedField K] [FloorRing K]
    (F : FloatSem K) (g_ifft_result : Nat → K) (width height line_length : Nat)
    (output_data : Nat → Nat) (y x c : Nat) (hy : y < height) (hx : x < width) (hc : c < 3)
    (hstride : 3 * width ≤ line_length) :
    ifft2d_grayscale_write F g_ifft_result width height line_length output_data
        (y * line_length + x * 3 + c)
      = (max 0 (min 255 (F.toInt (F.rnd (g_ifft_result (y * width + x)
          * F.rnd (1 / F.rnd ((width * height : Nat) : K))))))).toNat ∧
    (F.truncates →
      -(2 : K) ^ 31 ≤ F.rnd (g_ifft_result (y * width + x)
          * F.rnd (1 / F.rnd ((width * height : Nat) : K))) →
      F.rnd (g_ifft_result (y * width + x)
          * F.rnd (1 / F.rnd ((width * height : Nat) : K))) < (2 : K) ^ 31 →
      ifft2d_grayscale_write F g_ifft_result width height line_length output_data
          (y * line_length + x * 3 + c)
        = (max 0 (min 255 (truncf (F.rnd (g_ifft_result (y * width + x)
            * F.rnd (1 / F.rnd ((width * height : Nat) : K))))))).toNat) := by
  have h1 : ifft2d_grayscale_write F g_ifft_result width height line_length output_data
        (y * line_length + x * 3 + c)
      = (max 0 (min 255 (F.toInt (F.rnd (g_ifft_result (y * width + x)
          * F.rnd (1 / F.rnd ((width * height : Nat) : K))))))).toNat := by
    rw [write_cell F g_ifft_result width height line_length output_data y x c hy hx hc hstride]
    split_ifs <;> omega
  refine ⟨h1, fun htr hlo hhi => ?_⟩
  rw [h1, htr _ hlo hhi]

theorem C14_write_back_truncates_and_clamps_witness :
    ifft2d_grayscale_write binary32 (fun i => ((100 * i : Nat) : ℚ)) 2 2 7 (fun _ => 0)
        (1 * 7 + 1 * 3 + 2)
      = 75 := by
  rw [(C14_write_back_truncates_and_clamps binary32 (fun i => ((100 * i : Nat) : ℚ)) 2 2 7
    (fun _ => 0) 1 1 2 (by decide) (by decide) (by decide) (by decide)).1]
  have e1 : round32 (((2 * 2 : Nat) : ℚ)) = 4 :=
    round32_fixes _ _ 1 2 (by norm_num) (by norm_num) (by norm_num)
  have e2 : round32 ((1 : ℚ) / 4) = 1 / 4 :=
    round32_fixes _ _ 1 (-2) (by norm_num) (by norm_num) (by norm_num)
  have e3 : round32 ((((100 * (1 * 2 + 1) : Nat)) : ℚ) * (1 / 4)) = 75 :=
    round32_fixes _ _ 75 0 (by norm_num) (by norm_num) (by norm_num)
  have e4 : toInt32 (75 : ℚ) = ((75 : Nat) : Int) := by
    rw [truncf_bounds_toInt32 _ (by norm_num) (by norm_num)]
    exact truncf_of_bounds _ 75 (by norm_num) (by norm_num)
  simp only [binary32_rnd, binary32_toInt]
  rw [e1, e2, e3, e4]
  decide

/-- Beyond the range of `int` the conversion is undefined in C; with the value the x86
conversion gives (`INT_MIN`), a 2×2 image whose inverse-transform samples are `8·10^10`
(normalised `2·10^10 > 2^31`) is written as 0. -/
theorem write_back_beyond_int_range :
    ifft2d_grayscale_write binary32 (fun _ => (80000000000 : ℚ)) 2 2 6 (fun _ => 7)
        (0 * 6 + 0 * 3 + 0) = 0 := by
  rw [write_cell binary32 _ 2 2 6 _ 0 0 0 (by decide) (by decide) (by decide) (by decide)]
  have e1 : round32 (((2 * 2 : Nat) : ℚ)) = 4 :=
    round32_fixes _ _ 1 2 (by norm_num) (by norm_num) (by norm_num)
  have e2 : round32 ((1 : ℚ) / 4) = 1 / 4 :=
    round32_fixes _ _ 1 (-2) (by norm_num) (by norm_num) (by norm_num)
  have e3 : round32 ((80000000000 : ℚ) * (1 / 4)) = 20000000000 :=
    round32_fixes _ _ 9765625 11 (by norm_num) (by norm_num) (by norm_num)
  have e4 : toInt32 (20000000000 : ℚ) = -(2 : Int) ^ 31 := by
    unfold toInt32
    rw [if_neg (by norm_num)]
  simp only [binary32_rnd, binary32_toInt]
  rw [e1, e2, e3, e4]
  decide

/-! ## Flat fields through the pipeline, with rounding -/

theorem rnd_zero_of_relErr {K : Type} [LinearOrderedField K] (F : FloatSem K)
    (h : F.relErr) : F.rnd 0 = 0 := by
  have := h 0
  rw [sub_zero, abs_zero, zero_div] at this
  exact abs_eq_zero.mp (le_antisymm this (abs_nonneg _))

/-- One rounding of a non-negative value stays within the factors `1 ± 2^-24`. -/
theorem rnd_bounds_of_relErr {K : Type} [LinearOrderedField K] (F : FloatSem K)
    (h : F.relErr) (x : K) (hx : 0 ≤ x) :
    x * (1 - 1 / 2 ^ 24) ≤ F.rnd x ∧ F.rnd x ≤ x * (1 + 1 / 2 ^ 24) := by
  have := h x
  rw [abs_of_nonneg hx, abs_le] at this
  constructor
  · linarith [this.1]
  · linarith [this.2]

theorem rnd_nonneg_of_relErr {K : Type} [LinearOrderedField K] (F : FloatSem K)
    (h : F.relErr) (x : K) (hx : 0 ≤ x) : 0 ≤ F.rnd x := by
  have h1 := (rnd_bounds_of_relErr F h x hx).1
  have h2 : (0 : K) ≤ 1 - 1 / 2 ^ 24 := by norm_num
  exact le_trans (mul_nonneg hx h2) h1

/-- The centre cell is never attenuated, whatever the rounding. -/
theorem attenuation_rounded_center {K : Type} [LinearOrderedField K] [FloorRing K]
    (F : FloatSem K) (h0 : F.rnd 0 = 0) (hnn : ∀ x : K, 0 ≤ x → 0 ≤ F.rnd x) (m : Libm K)
    (w h : Nat) (rmin dv : K) (cell : fftwf_complex K) :
    attenuation_rounded F m w h rmin dv (w / 2) (h / 2) cell = 1 := by
  have ex : ((((w / 2 : Nat) : Int) - (w : Int) / 2 : Int) : K) = 0 := by
    have : (((w / 2 : Nat) : Int) - (w : Int) / 2 : Int) = 0 := by omega
    rw [this, Int.cast_zero]
  have ey : ((((h / 2 : Nat) : Int) - (h : Int) / 2 : Int) : K) = 0 := by
    have : (((h / 2 : Nat) : Int) - (h : Int) / 2 : Int) = 0 := by omega
    rw [this, Int.cast_zero]
  unfold attenuation_rounded
  simp only [ex, ey, h0, mul_zero, add_zero]
  rw [if_neg (not_lt.mpr (hnn _ (mul_self_nonneg _))), if_pos (hnn _ (mul_self_nonneg _))]

/-- Centring then filtering a half-spectrum that is `(D, 0)` at the zero frequency and 0
elsewhere leaves, in the directly copied cells, `(F.rnd D, 0)` at the centre and 0
elsewhere. -/
theorem filter_rounded_center_flat {K : Type} [LinearOrderedField K] [FloorRing K]
    (F : FloatSem K) (h0 : F.rnd 0 = 0) (hnn : ∀ x : K, 0 ≤ x → 0 ≤ F.rnd x) (m : Libm K)
    (H fresh : Nat → fftwf_complex K) (w h : Nat) (rmin dv D : K) (hw : 1 ≤ w)
    (hH : ∀ v u, v < h → u ≤ w / 2 →
      H (v * (w / 2 + 1) + u) = if v = 0 ∧ u = 0 then (D, 0) else (0, 0))
    (y x : Nat) (hy : y < h) (hx : x ≤ w / 2) :
    filter_spectrum_for_kaleido_rounded F m (fft2d_grayscale_center H w h fresh) w h rmin dv
        ((y + h / 2) % h * w + (x + w / 2) % w)
      = if y = 0 ∧ x = 0 then (F.rnd D, 0) else (0, 0) := by
  have hh : 0 < h := by omega
  rw [filter_rounded_cell_result F m _ w h rmin dv _ _ (Nat.mod_lt _ (by omega))
      (Nat.mod_lt _ hh),
    center_direct H w h fresh y x hy hx hw, hH y x hy hx]
  by_cases hc : y = 0 ∧ x = 0
  · obtain ⟨rfl, rfl⟩ := hc
    have e1 : (0 + w / 2) % w = w / 2 := by
      rw [Nat.zero_add]; exact Nat.mod_eq_of_lt (by omega)
    have e2 : (0 + h / 2) % h = h / 2 := by
      rw [Nat.zero_add]; exact Nat.mod_eq_of_lt (by omega)
    simp only [e1, e2, and_self, if_true, attenuation_rounded_center F h0 hnn, mul_one,
      zero_mul, h0]
  · simp only [hc, if_false, zero_mul, h0]

/-- A flat framebuffer through `remove_moire`, the plans computing on flat fields what the
exact DFT pair gives: every channel of every pixel receives the byte that the write-back
makes of the rounded zero-frequency coefficient `width·height·g`, `g = (R+G+B)/3`, and the
bytes outside the pixels are untouched. -/
theorem remove_moire_flat {K : Type} [LinearOrderedField K] [FloorRing K] (F : FloatSem K)
    (h0 : F.rnd 0 = 0) (hnn : ∀ x : K, 0 ≤ x → 0 ≤ F.rnd x) (env : Env)
    (fftw : Fftw K) (m : Libm K) (p : Nat) (mem : Scratch K) (fb_data : Nat → Nat)
    (width height line_length : Nat) (param_radius_min param_radius_max_diviser : K)
    (s : World) (R G B : Nat)
    (hw : 1 ≤ width) (hstride : 3 * width ≤ line_length)
    (hflat : ∀ y x, y < height → x < width →
      fb_data (y * line_length + x * 3 + 0) = R ∧ fb_data (y * line_length + x * 3 + 1) = G ∧
      fb_data (y * line_length + x * 3 + 2) = B)
    (hinit : (init_fftw_resources env width height line_length s).1 = 0)
    (hexact : fftw.exactOnFlat width height) :
    (∀ y x c, y < height → x < width → c < 3 →
      Option.map (fun r => r.1 (y * line_length + x * 3 + c))
        (remove_moire F env fftw m (some p) mem fb_data width height line_length
          param_radius_min param_radius_max_diviser s)
        = some (max 0 (min 255 (F.toInt (F.rnd
            (F.rnd (((width * height : Nat) : K) * (((R + G + B) / 3 : Nat) : K))
              * F.rnd (1 / F.rnd ((width * height : Nat) : K))))))).toNat) ∧
    (∀ i, (∀ y x c, y < height → x < width → c < 3 → i ≠ y * line_length + x * 3 + c) →
      Option.map (fun r => r.1 i)
        (remove_moire F env fftw m (some p) mem fb_data width height line_length
          param_radius_min param_radius_max_diviser s) = some (fb_data i)) := by
  refine ⟨?_, ?_⟩
  swap
  · intro i hi
    unfold remove_moire
    simp only [hinit, ne_eq, not_true_eq_false, if_false, Option.map_some', Int.toNat_ofNat]
    unfold ifft2d_grayscale
    rw [write_other F _ width height line_length fb_data i hi]
  intro y x c hy hx hc
  obtain ⟨hfwd, hinv⟩ := hexact
  unfold remove_moire
  simp only [hinit, ne_eq, not_true_eq_false, if_false, Option.map_some', Int.toNat_ofNat]
  unfold ifft2d_grayscale fft2d_grayscale
  simp only []
  rw [write_cell F _ width height line_length fb_data y x c hy hx hc hstride]
  have hlum : ∀ i, i < width * height →
      fft2d_grayscale_project fb_data width height line_length mem.g_fft_input_tmp i
        = (((R + G + B) / 3 : Nat) : K) := by
    intro i hi
    have hwpos : 0 < width := by omega
    have hiy : i / width < height := (Nat.div_lt_iff_lt_mul hwpos).mpr (by
      rw [Nat.mul_comm]; exact hi)
    have hix : i % width < width := Nat.mod_lt _ hwpos
    have hi' : i = i / width * width + i % width := by
      rw [Nat.mul_comm]; exact (Nat.div_add_mod i width).symm
    rw [hi', project_cell fb_data width height line_length _ _ _ hiy hix]
    obtain ⟨e0, e1, e2⟩ := hflat _ _ hiy hix
    rw [e0, e1, e2]
  have hhalf := hfwd _ _ hlum
  have hunc : ∀ v u, v < height → u ≤ width / 2 →
      ifft2d_grayscale_uncenter
        (filter_spectrum_for_kaleido_rounded F m
          (fft2d_grayscale_center
            (fftw.execute_r2c height width
              (fft2d_grayscale_project fb_data width height line_length mem.g_fft_input_tmp))
            width height mem.fft_spectrum)
          width height param_radius_min param_radius_max_diviser)
        width height mem.g_ifft_input_tmp (v * (width / 2 + 1) + u)
        = if v = 0 ∧ u = 0 then
            (F.rnd (((width * height : Nat) : K) * (((R + G + B) / 3 : Nat) : K)), 0)
          else (0, 0) := by
    intro v u hv hu
    rw [uncenter_cell _ width height _ v u hv hu]
    exact filter_rounded_center_flat F h0 hnn m _ _ width height _ _ _ hw hhalf v u hv hu
  rw [hinv _ _ hunc (y * width + x) (idx_lt hy hx)]
  congr 1
  split_ifs <;> omega

/-- The pair `fftwFlat` satisfies the flat-field equations at every size. -/
theorem fftwFlat_exactOnFlat {K : Type} [LinearOrderedField K] (w h : Nat) (hw : 1 ≤ w)
    (hh : 1 ≤ h) : (fftwFlat : Fftw K).exactOnFlat w h := by
  constructor
  · intro c lum hl v u hv hu
    have h0 : lum 0 = c := hl 0 (Nat.mul_pos (by omega) (by omega))
    by_cases hc : v = 0 ∧ u = 0
    · obtain ⟨rfl, rfl⟩ := hc
      simp [fftwFlat, h0]
    · have hne : v * (w / 2 + 1) + u ≠ 0 := by
        intro e
        have hu0 : u = 0 := by omega
        have hv0 : v * (w / 2 + 1) = 0 := by omega
        rcases Nat.mul_eq_zero.mp hv0 with h1 | h1
        · exact hc ⟨h1, hu0⟩
        · omega
      simp [fftwFlat, hne, hc]
  · intro d half hH i hi
    have := hH 0 0 (by omega) (Nat.zero_le _)
    simp only [Nat.zero_mul, Nat.add_zero, and_self, if_true] at this
    simp [fftwFlat, this]

/-- C4 as stated fails for sizes that are not powers of two: the write-back multiplies by
the rounded reciprocal `1.0f / (width·height)` and truncates.  For a 5×11 framebuffer
(stride 15) filled with `(128,128,128)`, in binary32 arithmetic, with any plans that compute
on flat fields what the exact DFT pair gives (such plans exist) and any `sqrtf`/`atan2f`,
`remove_moire` with `radius_min = 4` and divisor 8 writes 127, not 128: the zero-frequency
coefficient is 7040, the rounded reciprocal of 55 is `9761289 / 2^29`, their rounded product
is `16777215 / 2^17 = 127.99999…`. -/
theorem C4_flat_128_comes_out_127_at_5x11 :
    (fftwFlat : Fftw ℚ).exactOnFlat 5 11 ∧
    ∀ (fftw : Fftw ℚ) (m : Libm ℚ), fftw.exactOnFlat 5 11 →
      Option.map (fun r => r.1 (0 * 15 + 0 * 3 + 0))
        (remove_moire binary32 envAllSucceed fftw m (some 9) scratchZero (fun _ => 128)
          ((5 : Nat) : Int) ((11 : Nat) : Int) ((15 : Nat) : Int) 4 8 World.start)
        = some 127 := by
  refine ⟨fftwFlat_exactOnFlat 5 11 (by decide) (by decide), fun fftw m hexact => ?_⟩
  rw [(remove_moire_flat binary32 (rnd_zero_of_relErr _ binary32_relErr)
    (rnd_nonneg_of_relErr _ binary32_relErr) envAllSucceed fftw m 9 scratchZero
    (fun _ => 128) 5 11 15 4 8 World.start 128 128 128 (by decide) (by decide)
    (fun _ _ _ _ => ⟨rfl, rfl, rfl⟩) (by decide) hexact).1 0 0 0 (by decide) (by decide)
    (by decide)]
  have e1 : round32 (((5 * 11 : Nat) : ℚ) * (((128 + 128 + 128) / 3 : Nat) : ℚ)) = 7040 :=
    round32_fixes _ _ 7040 0 (by norm_num) (by norm_num) (by norm_num)
  have e2 : round32 (((5 * 11 : Nat) : ℚ)) = 55 :=
    round32_fixes _ _ 55 0 (by norm_num) (by norm_num) (by norm_num)
  have e3 : round32 ((1 : ℚ) / 55) = 9761289 / 2 ^ 29 :=
    round32_of_near_pos _ _ (-29) 9761289 (by norm_num) (by norm_num) (by norm_num)
      (by norm_num) (by norm_num)
  have e4 : round32 ((7040 : ℚ) * (9761289 / 2 ^ 29)) = 16777215 / 2 ^ 17 :=
    round32_of_near_pos _ _ (-17) 16777215 (by norm_num) (by norm_num) (by norm_num)
      (by norm_num) (by norm_num)
  have e5 : toInt32 ((16777215 : ℚ) / 2 ^ 17) = ((127 : Nat) : Int) := by
    rw [truncf_bounds_toInt32 _ (by norm_num) (by norm_num)]
    exact truncf_of_bounds _ 127 (by norm_num) (by norm_num)
  simp only [binary32_rnd, binary32_toInt]
  rw [e1, e2, e3, e4, e5]
  rfl

/-- The value that the write-back converts for a flat field of gray level `g ≤ 255`, after its
four roundings, lies strictly within one of `g`. -/
theorem flat_value_bounds {K : Type} [LinearOrderedField K] (F : FloatSem K)
    (hrel : F.relErr) (n g : Nat) (hn : 1 ≤ n) (hg : g ≤ 255) :
    0 ≤ F.rnd (F.rnd ((n : K) * (g : K)) * F.rnd (1 / F.rnd (n : K))) ∧
    (g : K) - 1 < F.rnd (F.rnd ((n : K) * (g : K)) * F.rnd (1 / F.rnd (n : K))) ∧
    F.rnd (F.rnd ((n : K) * (g : K)) * F.rnd (1 / F.rnd (n : K))) < (g : K) + 1 := by
  have hN : (1 : K) ≤ (n : K) := by exact_mod_cast hn
  have hNpos : (0 : K) < (n : K) := by linarith
  have hg0 : (0 : K) ≤ (g : K) := Nat.cast_nonneg g
  have hg255 : (g : K) ≤ 255 := by exact_mod_cast hg
  obtain ⟨a1, a2⟩ := rnd_bounds_of_relErr F hrel (n : K) (le_of_lt hNpos)
  generalize F.rnd (n : K) = Nf at a1 a2 ⊢
  have hNfpos : 0 < Nf := lt_of_lt_of_le (mul_pos hNpos (by norm_num)) a1
  have htpos : 0 < 1 / Nf := one_div_pos.mpr hNfpos
  have htN : 1 / Nf * Nf = 1 := by field_simp
  obtain ⟨b1, b2⟩ := rnd_bounds_of_relErr F hrel (1 / Nf) (le_of_lt htpos)
  have hc0 := rnd_nonneg_of_relErr F hrel (1 / Nf) (le_of_lt htpos)
  generalize F.rnd (1 / Nf) = c at b1 b2 hc0 ⊢
  generalize 1 / Nf = t at htpos htN b1 b2
  obtain ⟨d1, d2⟩ := rnd_bounds_of_relErr F hrel ((n : K) * (g : K)) (mul_nonneg
    (le_of_lt hNpos) hg0)
  have hD0 := rnd_nonneg_of_relErr F hrel ((n : K) * (g : K)) (mul_nonneg
    (le_of_lt hNpos) hg0)
  generalize F.rnd ((n : K) * (g : K)) = D at d1 d2 hD0 ⊢
  obtain ⟨p1, p2⟩ := rnd_bounds_of_relErr F hrel (D * c) (mul_nonneg hD0 hc0)
  have hp0 := rnd_nonneg_of_relErr F hrel (D * c) (mul_nonneg hD0 hc0)
  generalize F.rnd (D * c) = p at p1 p2 hp0 ⊢
  -- the product `t * n` is within the factors of one rounding of 1
  have hX1 : t * (n : K) * (1 - 1 / 2 ^ 24) ≤ 1 := by
    have := mul_le_mul_of_nonneg_left a1 (le_of_lt htpos)
    rw [htN] at this
    linarith
  have hX2 : 1 ≤ t * (n : K) * (1 + 1 / 2 ^ 24) := by
    have := mul_le_mul_of_nonneg_left a2 (le_of_lt htpos)
    rw [htN] at this
    linarith
  have hX0 : 0 ≤ t * (n : K) := mul_nonneg (le_of_lt htpos) (le_of_lt hNpos)
  -- the exact product `D * c` against `g * (t * n)`
  have hB : (0 : K) ≤ 1 + 1 / 2 ^ 24 := by norm_num
  have hA : (0 : K) ≤ 1 - 1 / 2 ^ 24 := by norm_num
  have hup : D * c ≤ (g : K) * (t * (n : K)) * ((1 + 1 / 2 ^ 24) * (1 + 1 / 2 ^ 24)) := by
    have := mul_le_mul d2 b2 hc0 (mul_nonneg (mul_nonneg (le_of_lt hNpos) hg0) hB)
    calc D * c ≤ (n : K) * (g : K) * (1 + 1 / 2 ^ 24) * (t * (1 + 1 / 2 ^ 24)) := this
      _ = (g : K) * (t * (n : K)) * ((1 + 1 / 2 ^ 24) * (1 + 1 / 2 ^ 24)) := by ring
  have hlo : (g : K) * (t * (n : K)) * ((1 - 1 / 2 ^ 24) * (1 - 1 / 2 ^ 24)) ≤ D * c := by
    have := mul_le_mul d1 b1 (mul_nonneg (le_of_lt htpos) hA) hD0
    calc (g : K) * (t * (n : K)) * ((1 - 1 / 2 ^ 24) * (1 - 1 / 2 ^ 24))
        = (n : K) * (g : K) * (1 - 1 / 2 ^ 24) * (t * (1 - 1 / 2 ^ 24)) := by ring
      _ ≤ D * c := this
  have hY1 : (g : K) * (t * (n : K)) * (1 - 1 / 2 ^ 24) ≤ (g : K) := by
    have := mul_le_mul_of_nonneg_left hX1 hg0
    linarith
  have hY2 : (g : K) ≤ (g : K) * (t * (n : K)) * (1 + 1 / 2 ^ 24) := by
    have := mul_le_mul_of_nonneg_left hX2 hg0
    linarith
  generalize (g : K) * (t * (n : K)) = Y at hup hlo hY1 hY2
  generalize D * c = P at p1 p2 hup hlo
  refine ⟨hp0, ?_, ?_⟩
  · norm_num at hlo hY1 hY2 p1 ⊢
    linarith
  · norm_num at hup hY1 hY2 p2 ⊢
    linarith

/-- Truncation toward zero of a non-negative value is its integer part. -/
theorem truncf_of_between {K : Type} [LinearOrderedField K] [FloorRing K] (v : K) (z : Int)
    (h0 : 0 ≤ v) (h1 : (z : K) ≤ v) (h2 : v < (z : K) + 1) : truncf v = z := by
  unfold truncf
  rw [if_pos h0, Int.floor_eq_iff]
  exact ⟨h1, h2⟩

/-- A value `g · 2^a` with `g < 2^24` is stored as it is. -/
theorem rnd_nat_mul_pow {K : Type} [LinearOrderedField K] (F : FloatSem K) (hfix : F.fixes)
    (g a : Nat) (hg : g < 2 ^ 24) : F.rnd ((g : K) * 2 ^ a) = (g : K) * 2 ^ a := by
  have h := hfix (g : Int) (a : Int) (by
    rw [abs_of_nonneg (Int.natCast_nonneg g)]
    exact_mod_cast hg)
  rw [zpow_natCast, Int.cast_natCast] at h
  exact h

/-- The reciprocal of a power of two is stored as it is. -/
theorem rnd_inv_pow {K : Type} [LinearOrderedField K] (F : FloatSem K) (hfix : F.fixes)
    (a : Nat) : F.rnd (1 / 2 ^ a) = (1 : K) / 2 ^ a := by
  have h := hfix 1 (-(a : Int)) (by norm_num)
  rw [zpow_neg, zpow_natCast, Int.cast_one, one_mul, ← one_div] at h
  exact h

/-- C4 (amended): for `width ≥ 1`, `height ≥ 1`, `stride ≥ 3·width`, a framebuffer whose pixels
all hold the bytes `(R, G, B)`, any `radius_min` and `radius_max_divisor`, any
`sqrtf`/`atan2f`, plans that compute on flat fields what the exact DFT pair gives, and `float`
operations rounded with relative error at most `2^-24` (as binary32 does), with `(int)`
truncating: when cache resolution and the allocation of the spectrum buffer succeed,
`remove_moire` leaves in all three channels of every pixel the gray level `g = ⌊(R+G+B)/3⌋`
of the input or the level just below it, `g - 1`; it leaves exactly `g` whenever
`width·height` is a power of two (binary32 stores `g · 2^a` exactly), as for a 64×64 image
filled with `(128,128,128)`; and it leaves every byte outside the pixels (row padding) as it
was. -/
theorem C4_flat_field_within_one_level {K : Type} [LinearOrderedField K] [FloorRing K]
    (F : FloatSem K) (hrel : F.relErr) (htr : F.truncates) (env : Env)
    (fftw : Fftw K) (m : Libm K) (p : Nat) (mem : Scratch K) (fb_data : Nat → Nat)
    (width height line_length : Nat) (param_radius_min param_radius_max_diviser : K)
    (s : World) (R G B : Nat)
    (hw : 1 ≤ width) (hh : 1 ≤ height) (hstride : 3 * width ≤ line_length)
    (hR : R < 256) (hG : G < 256) (hB : B < 256)
    (hflat : ∀ y x, y < height → x < width →
      fb_data (y * line_length + x * 3 + 0) = R ∧ fb_data (y * line_length + x * 3 + 1) = G ∧
      fb_data (y * line_length + x * 3 + 2) = B)
    (hinit : (init_fftw_resources env width height line_length s).1 = 0)
    (hexact : fftw.exactOnFlat width height) :
    (∀ y x c, y < height → x < width → c < 3 →
      ∃ v : Nat,
        Option.map (fun r => r.1 (y * line_length + x * 3 + c))
          (remove_moire F env fftw m (some p) mem fb_data width height line_length
            param_radius_min param_radius_max_diviser s) = some v ∧
        (v = (R + G + B) / 3 ∨ v + 1 = (R + G + B) / 3)) ∧
    (F.fixes → (∃ a : Nat, width * height = 2 ^ a) →
      ∀ y x c, y < height → x < width → c < 3 →
        Option.map (fun r => r.1 (y * line_length + x * 3 + c))
          (remove_moire F env fftw m (some p) mem fb_data width height line_length
            param_radius_min param_radius_max_diviser s) = some ((R + G + B) / 3)) ∧
    (∀ i, (∀ y x c, y < height → x < width → c < 3 → i ≠ y * line_length + x * 3 + c) →
      Option.map (fun r => r.1 i)
        (remove_moire F env fftw m (some p) mem fb_data width height line_length
          param_radius_min param_radius_max_diviser s) = some (fb_data i)) := by
  have hflatres := remove_moire_flat F (rnd_zero_of_relErr F hrel)
    (rnd_nonneg_of_relErr F hrel) env fftw m p mem fb_data width height line_length
    param_radius_min param_radius_max_diviser s R G B hw hstride hflat hinit hexact
  have hg : (R + G + B) / 3 ≤ 255 := by omega
  refine ⟨?_, ?_, hflatres.2⟩
  · intro y x c hy hx hc
    refine ⟨_, hflatres.1 y x c hy hx hc, ?_⟩
    obtain ⟨b0, b1, b2⟩ := flat_value_bounds F hrel (width * height) ((R + G + B) / 3)
      (Nat.mul_pos (by omega) (by omega)) hg
    have hg255 : (((R + G + B) / 3 : Nat) : K) ≤ 255 := by exact_mod_cast hg
    generalize F.rnd (F.rnd (((width * height : Nat) : K) * (((R + G + B) / 3 : Nat) : K))
      * F.rnd (1 / F.rnd ((width * height : Nat) : K))) = P at b0 b1 b2 ⊢
    rw [htr P (by linarith [show (0 : K) ≤ 2 ^ 31 by positivity])
      (by
        have : (256 : K) < 2 ^ 31 := by norm_num
        linarith)]
    generalize (R + G + B) / 3 = g at hg hg255 b1 b2 ⊢
    rcases le_or_lt (g : K) P with hge | hlt
    · left
      rw [truncf_of_between P (g : Int) b0 (by exact_mod_cast hge) (by exact_mod_cast b2)]
      omega
    · right
      have hg1 : 1 ≤ g := by
        rcases Nat.eq_zero_or_pos g with h | h
        · rw [h, Nat.cast_zero] at hlt
          exact absurd b0 (not_le.mpr hlt)
        · exact h
      rw [truncf_of_between P ((g : Int) - 1) b0 (by push_cast; linarith)
        (by push_cast; linarith)]
      omega
  · intro hfix ⟨a, ha⟩ y x c hy hx hc
    rw [hflatres.1 y x c hy hx hc]
    have hN : ((width * height : Nat) : K) = 2 ^ a := by
      rw [ha]
      push_cast
      rfl
    have e1 : F.rnd ((2 : K) ^ a) = 2 ^ a := by
      have := rnd_nat_mul_pow F hfix 1 a (by norm_num)
      rw [Nat.cast_one, one_mul] at this
      exact this
    have e2 : F.rnd ((2 : K) ^ a * (((R + G + B) / 3 : Nat) : K))
        = (((R + G + B) / 3 : Nat) : K) * 2 ^ a := by
      rw [mul_comm]
      exact rnd_nat_mul_pow F hfix _ a (by omega)
    have e3 : F.rnd ((((R + G + B) / 3 : Nat) : K) * 2 ^ a * (1 / 2 ^ a))
        = (((R + G + B) / 3 : Nat) : K) := by
      have h2 : ((2 : K) ^ a) ≠ 0 := by positivity
      have h3 : (((R + G + B) / 3 : Nat) : K) * 2 ^ a * (1 / 2 ^ a)
          = (((R + G + B) / 3 : Nat) : K) * 2 ^ 0 := by
        field_simp
      rw [h3]
      have := rnd_nat_mul_pow F hfix ((R + G + B) / 3) 0 (by omega)
      rw [this, pow_zero, mul_one]
    have hg255 : (((R + G + B) / 3 : Nat) : K) ≤ 255 := by exact_mod_cast hg
    have hg0 : (0 : K) ≤ (((R + G + B) / 3 : Nat) : K) := Nat.cast_nonneg _
    rw [hN, e1, rnd_inv_pow F hfix a, e2, e3,
      htr _ (by linarith [show (0 : K) ≤ 2 ^ 31 by positivity])
        (by
          have : (256 : K) < 2 ^ 31 := by norm_num
          linarith),
      truncf_natCast]
    congr 1
    omega

theorem C4_flat_field_within_one_level_witness :
    Option.map (fun r => r.1 (2 * 13 + 3 * 3 + 1))
      (remove_moire binary32 envAllSucceed (fftwExact4 : Fftw ℚ) libmArbitrary (some 9)
        scratchZero flatFb4x4 ((4 : Nat) : Int) ((4 : Nat) : Int) ((13 : Nat) : Int) 4 8
        { cache := Cache.empty, log := [] }) = some ((10 + 20 + 30) / 3) ∧
    Option.map (fun r => r.1 (10 * 192 + 20 * 3 + 1))
      (remove_moire binary32 envAllSucceed (fftwFlat : Fftw ℚ) libmArbitrary (some 9)
        scratchZero (fun _ => 128) ((64 : Nat) : Int) ((64 : Nat) : Int) ((192 : Nat) : Int)
        4 8 World.start) = some ((128 + 128 + 128) / 3) :=
  ⟨(C4_flat_field_within_one_level binary32 binary32_relErr binary32_truncates envAllSucceed
      fftwExact4 libmArbitrary 9 scratchZero flatFb4x4
      4 4 13 4 8 { cache := Cache.empty, log := [] } 10 20 30 (by decide) (by decide)
      (by decide) (by decide) (by decide) (by decide)
      (fun y x hy hx => by interval_cases y <;> interval_cases x <;> decide)
      (by decide) fftwExact4_exactOnFlat_4x4).2.1 binary32_fixes ⟨4, rfl⟩ 2 3 1 (by decide)
      (by decide) (by decide),
   (C4_flat_field_within_one_level binary32 binary32_relErr binary32_truncates envAllSucceed
      fftwFlat libmArbitrary 9 scratchZero (fun _ => 128)
      64 64 192 4 8 World.start 128 128 128 (by decide) (by decide)
      (by decide) (by decide) (by decide) (by decide)
      (fun _ _ _ _ => ⟨rfl, rfl, rfl⟩)
      (by decide) (fftwFlat_exactOnFlat 64 64 (by decide) (by decide))).2.1 binary32_fixes
      ⟨12, rfl⟩ 10 20 1 (by decide) (by decide) (by decide)⟩

/-! ## The diagonal test in binary32 arithmetic -/

/-- The `float` constant `PI` of the source: the literal rounded to binary32 is
`13176795 / 2^22`, bit pattern `0x40490fdb`. -/
theorem round32_PI : round32 (PI : ℚ) = 13176795 / 2 ^ 22 := by
  unfold PI
  exact round32_of_near_pos _ _ (-22) 13176795 (by norm_num) (by norm_num) (by norm_num)
    (by norm_num) (by norm_num)

/-- Rounding of a tie above an even significand, by certificate. -/
theorem round32_of_tie_even_pos (x y : ℚ) (k n : Int) (h1 : (2 : ℚ) ^ (k + 23) ≤ x)
    (h2 : x < (2 : ℚ) ^ (k + 24)) (hn : n % 2 = 0) (hx : x = ((n : ℚ) + 1 / 2) * 2 ^ k)
    (hy : (n : ℚ) * 2 ^ k = y) : round32 x = y := by
  have hpos : 0 < x := lt_of_lt_of_le (by positivity) h1
  have hk : (0 : ℚ) < 2 ^ k := by positivity
  have e1 : k + 23 - 23 = k := by ring
  have h := round32_of_log x (k + 23) n (by rw [abs_of_pos hpos]; exact h1)
    (by rw [abs_of_pos hpos, show k + 23 + 1 = k + 24 by ring]; exact h2)
    (by
      rw [e1, hx, mul_div_assoc, div_self (ne_of_gt hk), mul_one]
      exact roundHalfEven_tie_even n hn)
  rw [e1, hy] at h
  exact h

/-- The attenuation that binary32 arithmetic gives the cell `(27, 37)` of a 64×64 spectrum
(`dx = -5`, `dy = 5`, on the second-quadrant diagonal) for `radius_min = 2` and divisor 4,
when `sqrtf` and `atan2f` return the binary32 numbers nearest to `√50` and `3π/4`: the
difference `angle - PI_4` is the tie `26353589 / 2^24`, rounded to `13176794 / 2^23`, one unit
in the last place below `PI_2 = 13176795 / 2^23`, so the remainder of the diagonal test is
about 1.5708 and the cell takes the falloff `0.92755…`. -/
theorem attenuation_rounded_at_27_37 (m : Libm ℚ) (cell : fftwf_complex ℚ)
    (hsqrt : m.sqrtf 50 = 926819 / 2 ^ 17) (hatan : m.atan2f 5 (-5) = 9882596 / 2 ^ 22) :
    attenuation_rounded binary32 m 64 64 2 4 27 37 cell = 7780905 / 2 ^ 23 := by
  have edx : ((((27 : Nat) : Int) - ((64 : Nat) : Int) / 2 : Int) : ℚ) = -5 := by norm_num
  have edy : ((((37 : Nat) : Int) - ((64 : Nat) : Int) / 2 : Int) : ℚ) = 5 := by norm_num
  have e64 : ((64 : Nat) : ℚ) = 64 := by norm_num
  have rm5 : round32 (-5 : ℚ) = -5 :=
    round32_fixes _ _ (-5) 0 (by norm_num) (by norm_num) (by norm_num)
  have r5 : round32 (5 : ℚ) = 5 :=
    round32_fixes _ _ 5 0 (by norm_num) (by norm_num) (by norm_num)
  have r25a : round32 ((-5 : ℚ) * -5) = 25 :=
    round32_fixes _ _ 25 0 (by norm_num) (by norm_num) (by norm_num)
  have r25b : round32 ((5 : ℚ) * 5) = 25 :=
    round32_fixes _ _ 25 0 (by norm_num) (by norm_num) (by norm_num)
  have r50 : round32 ((25 : ℚ) + 25) = 50 :=
    round32_fixes _ _ 50 0 (by norm_num) (by norm_num) (by norm_num)
  have r64 : round32 (64 : ℚ) = 64 :=
    round32_fixes _ _ 64 0 (by norm_num) (by norm_num) (by norm_num)
  have r16 : round32 ((64 : ℚ) / 4) = 16 :=
    round32_fixes _ _ 16 0 (by norm_num) (by norm_num) (by norm_num)
  have r256 : round32 ((16 : ℚ) * 16) = 256 :=
    round32_fixes _ _ 256 0 (by norm_num) (by norm_num) (by norm_num)
  have r4 : round32 ((2 : ℚ) * 2) = 4 :=
    round32_fixes _ _ 4 0 (by norm_num) (by norm_num) (by norm_num)
  have r4x4 : round32 ((4 : ℚ) * 4) = 16 :=
    round32_fixes _ _ 16 0 (by norm_num) (by norm_num) (by norm_num)
  have r14 : round32 ((16 : ℚ) - 2) = 14 :=
    round32_fixes _ _ 14 0 (by norm_num) (by norm_num) (by norm_num)
  have rinv : round32 ((1 : ℚ) / 14) = 9586981 / 2 ^ 27 :=
    round32_of_near_pos _ _ (-27) 9586981 (by norm_num) (by norm_num) (by norm_num)
      (by norm_num) (by norm_num)
  have rpi : round32 (PI : ℚ) = 13176795 / 2 ^ 22 := round32_PI
  have rpi2 : round32 ((13176795 : ℚ) / 2 ^ 22 / 2) = 13176795 / 2 ^ 23 :=
    round32_fixes _ _ 13176795 (-23) (by norm_num) (by norm_num) (by norm_num)
  have rpi4 : round32 ((13176795 : ℚ) / 2 ^ 22 / 4) = 13176795 / 2 ^ 24 :=
    round32_fixes _ _ 13176795 (-24) (by norm_num) (by norm_num) (by norm_num)
  have r005 : round32 (0.05 : ℚ) = 13421773 / 2 ^ 28 :=
    round32_of_near_pos _ _ (-28) 13421773 (by norm_num) (by norm_num) (by norm_num)
      (by norm_num) (by norm_num)
  have r01 : round32 (0.1 : ℚ) = 13421773 / 2 ^ 27 :=
    round32_of_near_pos _ _ (-27) 13421773 (by norm_num) (by norm_num) (by norm_num)
      (by norm_num) (by norm_num)
  have r02 : round32 (0.2 : ℚ) = 13421773 / 2 ^ 26 :=
    round32_of_near_pos _ _ (-26) 13421773 (by norm_num) (by norm_num) (by norm_num)
      (by norm_num) (by norm_num)
  have rhi : round32 ((13176795 : ℚ) / 2 ^ 23 - 13421773 / 2 ^ 28) = 12757365 / 2 ^ 23 :=
    round32_of_near_pos _ _ (-23) 12757365 (by norm_num) (by norm_num) (by norm_num)
      (by norm_num) (by norm_num)
  have rdiff : round32 ((9882596 : ℚ) / 2 ^ 22 - 13176795 / 2 ^ 24) = 13176794 / 2 ^ 23 :=
    round32_of_tie_even_pos _ _ (-23) 13176794 (by norm_num) (by norm_num) (by decide)
      (by norm_num) (by norm_num)
  have rrad : round32 ((926819 : ℚ) / 2 ^ 17 - 2) = 664675 / 2 ^ 17 :=
    round32_fixes _ _ 664675 (-17) (by norm_num) (by norm_num) (by norm_num)
  have rmul1 : round32 ((664675 : ℚ) / 2 ^ 17 * (9586981 / 2 ^ 27)) = 6077029 / 2 ^ 24 :=
    round32_of_near_pos _ _ (-25) 12154058 (by norm_num) (by norm_num) (by norm_num)
      (by norm_num) (by norm_num)
  have rmul2 : round32 ((6077029 : ℚ) / 2 ^ 24 * (13421773 / 2 ^ 26)) = 9723247 / 2 ^ 27 :=
    round32_of_near_pos _ _ (-27) 9723247 (by norm_num) (by norm_num) (by norm_num)
      (by norm_num) (by norm_num)
  have rsub : round32 ((1 : ℚ) - 9723247 / 2 ^ 27) = 7780905 / 2 ^ 23 :=
    round32_of_near_pos _ _ (-24) 15561810 (by norm_num) (by norm_num) (by norm_num)
      (by norm_num) (by norm_num)
  have hmod : fmodf |(9882596 : ℚ) / 2 ^ 22| (13176795 / 2 ^ 23) = 6588397 / 2 ^ 23 := by
    rw [fmodf_of_trunc _ _ 1 (by
      rw [abs_of_pos (by norm_num)]
      exact truncf_of_bounds _ 1 (by norm_num) (by norm_num))]
    rw [abs_of_pos (by norm_num)]
    norm_num
  have hdiag : fmodf |(13176794 : ℚ) / 2 ^ 23| (13176795 / 2 ^ 23) = 13176794 / 2 ^ 23 := by
    rw [fmodf_of_trunc _ _ 0 (by
      rw [abs_of_pos (by norm_num)]
      exact truncf_of_bounds _ 0 (by norm_num) (by norm_num))]
    rw [abs_of_pos (by norm_num)]
    norm_num
  have habs : |(13176794 : ℚ) / 2 ^ 23| = 13176794 / 2 ^ 23 := abs_of_pos (by norm_num)
  unfold attenuation_rounded
  simp only [binary32_rnd]
  rw [edx, edy, e64, rm5, r5, r25a, r25b, r50, r64, r16, r256, r4, r4x4, r14, rinv, rpi, rpi2,
    rpi4, r005, r01, r02, rhi, hsqrt, hatan, rdiff, rrad, rmul1, rmul2, rsub, hmod, hdiag, habs]
  rw [if_neg (by norm_num), if_neg (by norm_num), if_neg (by norm_num), if_neg (by norm_num)]

/-- The attenuation that binary32 arithmetic gives the cell `(37, 37)` of the same spectrum
(`dx = 5`, `dy = 5`, on the first-quadrant diagonal) when `atan2f` returns the binary32
number nearest to `π/4`, which is `PI_4` itself: the difference is 0 and the cell is
notched. -/
theorem attenuation_rounded_at_37_37 (m : Libm ℚ) (cell : fftwf_complex ℚ)
    (hatan : m.atan2f 5 5 = 13176795 / 2 ^ 24) :
    attenuation_rounded binary32 m 64 64 2 4 37 37 cell = round32 0.3 := by
  have edx : ((((37 : Nat) : Int) - ((64 : Nat) : Int) / 2 : Int) : ℚ) = 5 := by norm_num
  have e64 : ((64 : Nat) : ℚ) = 64 := by norm_num
  have r5 : round32 (5 : ℚ) = 5 :=
    round32_fixes _ _ 5 0 (by norm_num) (by norm_num) (by norm_num)
  have r25b : round32 ((5 : ℚ) * 5) = 25 :=
    round32_fixes _ _ 25 0 (by norm_num) (by norm_num) (by norm_num)
  have r50 : round32 ((25 : ℚ) + 25) = 50 :=
    round32_fixes _ _ 50 0 (by norm_num) (by norm_num) (by norm_num)
  have r64 : round32 (64 : ℚ) = 64 :=
    round32_fixes _ _ 64 0 (by norm_num) (by norm_num) (by norm_num)
  have r16 : round32 ((64 : ℚ) / 4) = 16 :=
    round32_fixes _ _ 16 0 (by norm_num) (by norm_num) (by norm_num)
  have r256 : round32 ((16 : ℚ) * 16) = 256 :=
    round32_fixes _ _ 256 0 (by norm_num) (by norm_num) (by norm_num)
  have r4 : round32 ((2 : ℚ) * 2) = 4 :=
    round32_fixes _ _ 4 0 (by norm_num) (by norm_num) (by norm_num)
  have r4x4 : round32 ((4 : ℚ) * 4) = 16 :=
    round32_fixes _ _ 16 0 (by norm_num) (by norm_num) (by norm_num)
  have rpi : round32 (PI : ℚ) = 13176795 / 2 ^ 22 := round32_PI
  have rpi2 : round32 ((13176795 : ℚ) / 2 ^ 22 / 2) = 13176795 / 2 ^ 23 :=
    round32_fixes _ _ 13176795 (-23) (by norm_num) (by norm_num) (by norm_num)
  have rpi4 : round32 ((13176795 : ℚ) / 2 ^ 22 / 4) = 13176795 / 2 ^ 24 :=
    round32_fixes _ _ 13176795 (-24) (by norm_num) (by norm_num) (by norm_num)
  have r005 : round32 (0.05 : ℚ) = 13421773 / 2 ^ 28 :=
    round32_of_near_pos _ _ (-28) 13421773 (by norm_num) (by norm_num) (by norm_num)
      (by norm_num) (by norm_num)
  have r01 : round32 (0.1 : ℚ) = 13421773 / 2 ^ 27 :=
    round32_of_near_pos _ _ (-27) 13421773 (by norm_num) (by norm_num) (by norm_num)
      (by norm_num) (by norm_num)
  have rhi : round32 ((13176795 : ℚ) / 2 ^ 23 - 13421773 / 2 ^ 28) = 12757365 / 2 ^ 23 :=
    round32_of_near_pos _ _ (-23) 12757365 (by norm_num) (by norm_num) (by norm_num)
      (by norm_num) (by norm_num)
  have rdiff : round32 ((13176795 : ℚ) / 2 ^ 24 - 13176795 / 2 ^ 24) = 0 := by
    rw [sub_self, round32_zero]
  have hmod : fmodf |(13176795 : ℚ) / 2 ^ 24| (13176795 / 2 ^ 23) = 13176795 / 2 ^ 24 := by
    rw [fmodf_of_trunc _ _ 0 (by
      rw [abs_of_pos (by norm_num)]
      exact truncf_of_bounds _ 0 (by norm_num) (by norm_num))]
    rw [abs_of_pos (by norm_num)]
    norm_num
  have hdiag : fmodf |(0 : ℚ)| (13176795 / 2 ^ 23) = 0 := by
    rw [abs_zero, fmodf_of_trunc _ _ 0 (by
      exact truncf_of_bounds _ 0 (by norm_num) (by norm_num))]
    norm_num
  unfold attenuation_rounded
  simp only [binary32_rnd]
  rw [edx, e64, r5, r25b, r50, r64, r16, r256, r4, r4x4, rpi, rpi2, rpi4, r005, r01, rhi,
    hatan, rdiff, hmod, hdiag, abs_zero]
  rw [if_neg (by norm_num), if_neg (by norm_num), if_neg (by norm_num), if_pos (by norm_num)]

theorem round32_three_tenths : round32 (0.3 : ℚ) = 5033165 / 2 ^ 24 :=
  round32_of_near_pos _ _ (-25) 10066330 (by norm_num) (by norm_num) (by norm_num)
    (by norm_num) (by norm_num)

/-- The values of `libmRoundedDiagonal` are the binary32 numbers nearest to `√50`, `3π/4` and
`π/4`: each lies within half a unit in the last place of the exact value. -/
theorem libmRoundedDiagonal_nearest :
    ((libmRoundedDiagonal.sqrtf 50 - 1 / 2 ^ 22) ^ 2 < 50 ∧
      50 < (libmRoundedDiagonal.sqrtf 50 + 1 / 2 ^ 22) ^ 2) ∧
    |((libmRoundedDiagonal.atan2f 5 (-5) : ℚ) : ℝ) - 3 * Real.pi / 4| < 1 / 2 ^ 23 ∧
    |((libmRoundedDiagonal.atan2f 5 5 : ℚ) : ℝ) - Real.pi / 4| < 1 / 2 ^ 25 := by
  have h1 := Real.pi_gt_d20
  have h2 := Real.pi_lt_d20
  refine ⟨?_, ?_, ?_⟩
  · norm_num [libmRoundedDiagonal]
  · have e : libmRoundedDiagonal.atan2f 5 (-5) = 9882596 / 2 ^ 22 := by
      simp [libmRoundedDiagonal]
    rw [e, abs_lt]
    push_cast
    constructor <;> norm_num at h1 h2 ⊢ <;> linarith
  · have e : libmRoundedDiagonal.atan2f 5 5 = 13176795 / 2 ^ 24 := by
      norm_num [libmRoundedDiagonal]
    rw [e, abs_lt]
    push_cast
    constructor <;> norm_num at h1 h2 ⊢ <;> linarith

/-- C18 fails in the code on the second-quadrant diagonal.  In binary32 arithmetic, for a
64×64 spectrum with `radius_min = 2` and divisor 4 (`rmax = 16`), the cell `(27, 37)`
(`dx = -5`, `dy = 5`, `r2 = 50`, so `|dx| = |dy| ≠ 0`, `radius_min² < r2 ≤ rmax²` and
`r2 > 4·radius_min²`) does not get 0.3: with `sqrtf` and `atan2f` correctly rounded the
attenuation is the falloff `7780905 / 2^23 = 0.92755…`, whatever the cell holds, while the
cell `(37, 37)` on the first-quadrant diagonal gets `0.3f = 5033165 / 2^24`. -/
theorem C18_second_quadrant_diagonal_misses_notch :
    |(27 : Int) - (64 : Int) / 2| = |(37 : Int) - (64 : Int) / 2| ∧
    (27 : Int) - (64 : Int) / 2 ≠ 0 ∧
    (∀ (m : Libm ℚ) (cell : fftwf_complex ℚ),
      m.sqrtf 50 = 926819 / 2 ^ 17 → m.atan2f 5 (-5) = 9882596 / 2 ^ 22 →
      attenuation_rounded binary32 m 64 64 2 4 27 37 cell = 7780905 / 2 ^ 23) ∧
    attenuation_rounded binary32 libmRoundedDiagonal 64 64 2 4 27 37 (1, 1)
      = 7780905 / 2 ^ 23 ∧
    attenuation_rounded binary32 libmRoundedDiagonal 64 64 2 4 37 37 (1, 1)
      = binary32.rnd 0.3 ∧
    binary32.rnd 0.3 = 5033165 / 2 ^ 24 ∧
    attenuation_rounded binary32 libmRoundedDiagonal 64 64 2 4 27 37 (1, 1)
      ≠ binary32.rnd 0.3 := by
  have hs : libmRoundedDiagonal.sqrtf 50 = 926819 / 2 ^ 17 := by
    simp [libmRoundedDiagonal]
  have ha : libmRoundedDiagonal.atan2f 5 (-5) = 9882596 / 2 ^ 22 := by
    simp [libmRoundedDiagonal]
  have hb : libmRoundedDiagonal.atan2f 5 5 = 13176795 / 2 ^ 24 := by
    norm_num [libmRoundedDiagonal]
  refine ⟨by decide, by decide,
    fun m cell h1 h2 => attenuation_rounded_at_27_37 m cell h1 h2,
    attenuation_rounded_at_27_37 _ _ hs ha, attenuation_rounded_at_37_37 _ _ hb,
    round32_three_tenths, ?_⟩
  rw [attenuation_rounded_at_27_37 _ _ hs ha, binary32_rnd, round32_three_tenths]
  norm_num

end Moire
